import Mathlib

/-!
# gojee: lexer, parser and evaluator of the jee expression language

A shallow embedding of `jee.go` and `ops.go`.

* Go values of type `interface{}` are the inductive type `Value`.
* `float64`, the `unicode` classes and the other standard-library routines the
  code calls are not part of the repository; they are the fields of the structure
  `Go`, so every general theorem holds for any interpretation of them.
* Pointers: `buildTree` navigates with `Parent` pointers, modelled by paths from
  the root; the evaluator rewrites subscript nodes in place, modelled by returning
  the rewritten tree next to the result.
* A Go `error` result and a runtime panic are the two constructors of `Error`.
-/

namespace Jee

/-! ## Token kinds (the `iota` constants) -/

/-- The kinds `ZERO` .. `EQ` of `jee.go`, in declaration order. -/
inductive Kind where
  | ZERO | CONST | OP | FUNC | KEY | K_START | K_END | Q_START | Q_END
  | SPACE | NEXT | D_STR | S_STR | ESC | RESERVED | EQ
  deriving DecidableEq, Repr

/-! ## Dynamic values -/

/-- A Go `interface{}` as the code meets it: `nil`, `bool`, `float64`, `string`,
`[]interface{}`, `map[string]interface{}` and (only as the result of `$num(true)`)
an `int`. A map is an association list read by its first matching key. A nil
slice and an empty slice are both `list []`. -/
inductive Value (F : Type) where
  | null
  | bool (b : Bool)
  | num (x : F)
  | str (s : String)
  | list (xs : List (Value F))
  | map (kvs : List (String × Value F))
  | int (n : Int)

mutual
/-- Equality of values is decidable. -/
def Value.decEq {F : Type} [DecidableEq F] : (a b : Value F) → Decidable (a = b)
  | .null, .null => isTrue rfl
  | .bool a, .bool b =>
    if h : a = b then isTrue (congrArg _ h) else isFalse (fun e => h (Value.bool.inj e))
  | .num a, .num b =>
    if h : a = b then isTrue (congrArg _ h) else isFalse (fun e => h (Value.num.inj e))
  | .str a, .str b =>
    if h : a = b then isTrue (congrArg _ h) else isFalse (fun e => h (Value.str.inj e))
  | .int a, .int b =>
    if h : a = b then isTrue (congrArg _ h) else isFalse (fun e => h (Value.int.inj e))
  | .list a, .list b =>
    match Value.decEqList a b with
    | isTrue h => isTrue (congrArg _ h)
    | isFalse h => isFalse (fun e => h (Value.list.inj e))
  | .map a, .map b =>
    match Value.decEqKvs a b with
    | isTrue h => isTrue (congrArg _ h)
    | isFalse h => isFalse (fun e => h (Value.map.inj e))
  | .null, .bool _ | .null, .num _ | .null, .str _ | .null, .list _ | .null, .map _ |
    .null, .int _ | .bool _, .null | .bool _, .num _ | .bool _, .str _ | .bool _, .list _ |
    .bool _, .map _ | .bool _, .int _ | .num _, .null | .num _, .bool _ | .num _, .str _ |
    .num _, .list _ | .num _, .map _ | .num _, .int _ | .str _, .null | .str _, .bool _ |
    .str _, .num _ | .str _, .list _ | .str _, .map _ | .str _, .int _ | .list _, .null |
    .list _, .bool _ | .list _, .num _ | .list _, .str _ | .list _, .map _ | .list _, .int _ |
    .map _, .null | .map _, .bool _ | .map _, .num _ | .map _, .str _ | .map _, .list _ |
    .map _, .int _ | .int _, .null | .int _, .bool _ | .int _, .num _ | .int _, .str _ |
    .int _, .list _ | .int _, .map _ =>
    isFalse (fun e => Value.noConfusion e)
/-- Equality of lists of values is decidable. -/
def Value.decEqList {F : Type} [DecidableEq F] :
    (a b : List (Value F)) → Decidable (a = b)
  | [], [] => isTrue rfl
  | [], _ :: _ => isFalse (fun e => List.noConfusion e)
  | _ :: _, [] => isFalse (fun e => List.noConfusion e)
  | a :: as, b :: bs =>
    match Value.decEq a b, Value.decEqList as bs with
    | isTrue h, isTrue t => isTrue (by rw [h, t])
    | isFalse h, _ => isFalse (fun e => h (List.cons.inj e).1)
    | _, isFalse t => isFalse (fun e => t (List.cons.inj e).2)
/-- Equality of association lists is decidable. -/
def Value.decEqKvs {F : Type} [DecidableEq F] :
    (a b : List (String × Value F)) → Decidable (a = b)
  | [], [] => isTrue rfl
  | [], _ :: _ => isFalse (fun e => List.noConfusion e)
  | _ :: _, [] => isFalse (fun e => List.noConfusion e)
  | (k, a) :: as, (l, b) :: bs =>
    if hk : k = l then
      match Value.decEq a b, Value.decEqKvs as bs with
      | isTrue h, isTrue t => isTrue (by rw [hk, h, t])
      | isFalse h, _ => isFalse (fun e => h (Prod.mk.inj (List.cons.inj e).1).2)
      | _, isFalse t => isFalse (fun e => t (List.cons.inj e).2)
    else isFalse (fun e => hk (Prod.mk.inj (List.cons.inj e).1).1)
end

instance {F : Type} [DecidableEq F] : DecidableEq (Value F) := Value.decEq

/-- The message type of `jee.go`. -/
abbrev BMsg (F : Type) := Value F

/-- Failure of a call: a returned Go `error`, or a runtime panic. The text of an
`error` is the fixed part of the format string followed by the formatted operands
that are strings, runes or type names; an operand of another kind (the value in
`bad operation, key, or function: %s`) and the text of a library error or of a
panic are not reproduced. -/
inductive Error where
  | err (msg : String)
  | panic (msg : String)
  deriving DecidableEq, Repr

/-- The outcome of a Go function returning `(T, error)`. -/
inductive Result (α : Type) where
  | ok (a : α)
  | error (e : Error)
  deriving DecidableEq, Repr

/-- Sequencing of fallible steps: the first failure is returned. -/
def Result.bind {α β : Type} (r : Result α) (f : α → Result β) : Result β :=
  match r with
  | .ok a => f a
  | .error e => .error e

/-- True when the call returned a Go `error` (not a value, not a panic). -/
def Result.isErr {α : Type} : Result α → Bool
  | .error (.err _) => true
  | _ => false

/-- Map lookup `m[k]`: the value of the first entry with key `k`, `nil` when
there is none. -/
def lookup {F : Type} (kvs : List (String × Value F)) (k : String) : Value F :=
  match kvs with
  | [] => .null
  | (k', v) :: rest => if k' = k then v else lookup rest k

/-- The comma-ok form `_, ok := m[k]`. -/
def hasKey {F : Type} (kvs : List (String × Value F)) (k : String) : Bool :=
  kvs.any (fun kv => kv.1 = k)

/-! ## The Go runtime and standard library, as parameters -/

/-- What the code takes from outside the repository: the `unicode` classes,
`strconv`, `float64` arithmetic and conversions, `math`, `regexp`, `time`,
`encoding/json`, and the two choices the runtime makes during a call: the clock
read by `time.Now` and the order in which a `range` over a map visits its keys
(`mapOrder` takes the keys as stored and returns them as visited; Go leaves that
order unspecified and may change it from one `range` to the next). `F` is the
carrier of `float64`. -/
structure Go (F : Type) where
  isNumber : Char → Bool
  isLetter : Char → Bool
  isPunct : Char → Bool
  isSymbol : Char → Bool
  isSpace : Char → Bool
  parseFloat : String → Option F
  add : F → F → F
  sub : F → F → F
  mul : F → F → F
  div : F → F → F
  eq : F → F → Bool
  ge : F → F → Bool
  gt : F → F → Bool
  lt : F → F → Bool
  le : F → F → Bool
  ne : F → F → Bool
  ofInt : Int → F
  toInt : F → Int
  isNaN : F → Bool
  fmin : F → F → F
  fmax : F → F → F
  sqrt : F → F
  abs : F → F
  floor : F → F
  pow : F → F → F
  formatFloat : F → String
  jsonMarshal : Value F → Result String
  regexMatch : String → String → Result Bool
  timeParse : String → String → Result Int
  timeFormat : Int → String → String
  nowUnixNano : Int
  mapOrder : List String → List String

/-! ## Lexer -/

/-- A lexer token. -/
structure Token where
  type : Kind
  value : String
  deriving DecidableEq, Repr

/-- The double quote, the single quote and the backslash. -/
def dquote : Char := Char.ofNat 34
def squote : Char := Char.ofNat 39
def bslash : Char := Char.ofNat 92

/-- The table `Ident`; `none` is a missing key. -/
def Ident (r : Char) : Option Kind :=
  if r = '$' then some .FUNC
  else if r = '.' then some .KEY
  else if r = '+' ∨ r = '-' ∨ r = '/' ∨ r = '*' ∨ r = '!' ∨ r = '=' ∨ r = '>' ∨ r = '<'
      ∨ r = '&' ∨ r = '|' then some .OP
  else if r = '(' then some .Q_START
  else if r = ')' then some .Q_END
  else if r = '[' then some .K_START
  else if r = ']' then some .K_END
  else if r = dquote then some .D_STR
  else if r = squote then some .S_STR
  else if r = bslash then some .ESC
  else if r = ',' then some .NEXT
  else none

/-- The function `getIdent`. -/
def getIdent {F : Type} (E : Go F) (r : Char) : Kind :=
  match Ident r with
  | some i => i
  | none =>
    if E.isNumber r then .CONST
    else if E.isLetter r || E.isPunct r || E.isSymbol r then .RESERVED
    else if E.isSpace r then .SPACE
    else .ZERO

/-- The table `tokenPopMap`. The lexer indexes it only with the seven kinds it
has an entry for; every other kind is given the answer `false` here. -/
def tokenPopMap {F : Type} (E : Go F) (state : Kind) (r : Char) (c : String) : Bool :=
  match state with
  | .D_STR => Ident r = some .D_STR
  | .S_STR => Ident r = some .S_STR
  | .KEY | .FUNC | .RESERVED =>
    match getIdent E r with
    | .Q_START | .Q_END | .K_START | .K_END | .OP | .FUNC | .NEXT | .KEY | .D_STR | .S_STR => true
    | _ => false
  | .OP =>
    if c = "*" ∨ c = "+" ∨ c = "-" ∨ c = "/" then true
    else if c.utf8ByteSize ≥ 2 then true
    else
      match getIdent E r with
      | .Q_START | .Q_END | .K_START | .K_END | .FUNC | .CONST | .KEY | .D_STR | .S_STR
      | .RESERVED => true
      | _ => false
  | .CONST =>
    match getIdent E r with
    | .Q_START | .Q_END | .K_START | .K_END | .OP | .FUNC | .NEXT | .D_STR | .S_STR
    | .RESERVED => true
    | _ => false
  | _ => false

/-- The local variables of `Lexer`. -/
structure LexState where
  tokens : List Token
  currWord : String
  state : Kind
  poppedStr : Bool
  escaped : Bool
  deriving DecidableEq, Repr

/-- The function `emitToken`: append the token and clear the word. -/
def emitToken (st : LexState) (state : Kind) (value : String) : LexState :=
  { st with tokens := st.tokens ++ [⟨state, value⟩], currWord := "" }

/-- One iteration of the loop of `Lexer` over the rune `r`. -/
def lexStep {F : Type} (E : Go F) (st : LexState) (r : Char) : Result LexState :=
  let inStr : Bool := st.state = .D_STR || st.state = .S_STR
  if getIdent E r = .SPACE && !inStr then .ok st
  else if getIdent E r = .ESC && inStr then .ok { st with escaped := true }
  else if getIdent E r = .ZERO && !inStr then
    .error (.err ("unexpected token: " ++ String.singleton r))
  else
    let st1 : LexState :=
      match st.state with
      | .OP | .FUNC | .CONST | .KEY | .RESERVED =>
        if tokenPopMap E st.state r st.currWord then emitToken st st.state st.currWord else st
      | .D_STR | .S_STR =>
        if st.escaped then { st with escaped := false }
        else if tokenPopMap E st.state r st.currWord then
          { emitToken st st.state (st.currWord ++ String.singleton r) with poppedStr := true }
        else { st with poppedStr := false }
      | .Q_START | .Q_END | .K_START | .K_END | .NEXT => emitToken st st.state st.currWord
      | _ => st
    if !st1.poppedStr then
      if st1.currWord = "" then
        .ok { st1 with currWord := String.singleton r, state := getIdent E r }
      else .ok { st1 with currWord := st1.currWord ++ String.singleton r }
    else .ok { st1 with poppedStr := false, state := .ZERO }

/-- The loop of `Lexer` over the remaining runes. -/
def lexLoop {F : Type} (E : Go F) : List Char → LexState → Result LexState
  | [], st => .ok st
  | r :: rs, st =>
    match lexStep E st r with
    | .ok st1 => lexLoop E rs st1
    | .error e => .error e

/-- The function `Lexer`. -/
def Lexer {F : Type} (E : Go F) (input : String) : Result (List Token) :=
  match lexLoop E input.data ⟨[], "", .ZERO, false, false⟩ with
  | .error e => .error e
  | .ok st =>
    if st.currWord ≠ "" then .ok (st.tokens ++ [⟨st.state, st.currWord⟩])
    else .ok st.tokens

/-! ## Syntax trees -/

/-- The struct `TokenTree` as the evaluator reads it: kind, value and children.
The `Parent` field is read by `buildTree` only and is kept in `BNode`. -/
inductive TokenTree (F : Type) where
  | mk (type : Kind) (value : Value F) (tokens : List (TokenTree F))

/-- The field `Type`. -/
def TokenTree.type {F : Type} : TokenTree F → Kind
  | .mk ty _ _ => ty

/-- The field `Value`. -/
def TokenTree.value {F : Type} : TokenTree F → Value F
  | .mk _ v _ => v

/-- The field `Tokens`. -/
def TokenTree.tokens {F : Type} : TokenTree F → List (TokenTree F)
  | .mk _ _ ts => ts

mutual
/-- Equality of trees is decidable. -/
def TokenTree.decEq {F : Type} [DecidableEq F] : (a b : TokenTree F) → Decidable (a = b)
  | .mk t v ts, .mk t' v' ts' =>
    if ht : t = t' then
      if hv : v = v' then
        match TokenTree.decEqList ts ts' with
        | isTrue h => isTrue (by rw [ht, hv, h])
        | isFalse h => isFalse (fun e => h (TokenTree.mk.inj e).2.2)
      else isFalse (fun e => hv (TokenTree.mk.inj e).2.1)
    else isFalse (fun e => ht (TokenTree.mk.inj e).1)
/-- Equality of lists of trees is decidable. -/
def TokenTree.decEqList {F : Type} [DecidableEq F] :
    (a b : List (TokenTree F)) → Decidable (a = b)
  | [], [] => isTrue rfl
  | [], _ :: _ => isFalse (fun e => List.noConfusion e)
  | _ :: _, [] => isFalse (fun e => List.noConfusion e)
  | a :: as, b :: bs =>
    match TokenTree.decEq a b, TokenTree.decEqList as bs with
    | isTrue h, isTrue t => isTrue (by rw [h, t])
    | isFalse h, _ => isFalse (fun e => h (List.cons.inj e).1)
    | _, isFalse t => isFalse (fun e => t (List.cons.inj e).2)
end

instance {F : Type} [DecidableEq F] : DecidableEq (TokenTree F) := TokenTree.decEq

/-- A node while `buildTree` runs. A pointer to a node is the path of child
indices leading to it from the root. `parents` is what following the `Parent`
pointer repeatedly reaches: the nearest first, the root last; it is empty for
the root, whose `Parent` is nil. -/
inductive BNode (F : Type) where
  | mk (type : Kind) (value : Value F) (tokens : List (BNode F)) (parents : List (List Nat))

/-- The field `Type`. -/
def BNode.type {F : Type} : BNode F → Kind
  | .mk ty _ _ _ => ty

/-- The field `Tokens`. -/
def BNode.tokens {F : Type} : BNode F → List (BNode F)
  | .mk _ _ ts _ => ts

/-- The chain of `Parent` pointers. -/
def BNode.parents {F : Type} : BNode F → List (List Nat)
  | .mk _ _ _ ps => ps

/-- Dereference a pointer. -/
def BNode.get? {F : Type} : BNode F → List Nat → Option (BNode F)
  | n, [] => some n
  | .mk _ _ ts _, i :: p =>
    match ts.get? i with
    | some c => c.get? p
    | none => none

/-- Apply `f` to the element of index `i`. -/
def modifyAt {α : Type} (f : α → α) : Nat → List α → List α
  | _, [] => []
  | 0, a :: as => f a :: as
  | n + 1, a :: as => a :: modifyAt f n as

/-- The statement `tree.Tokens = append(tree.Tokens, item)` for the node `tree`
at path `p`. -/
def BNode.append {F : Type} : BNode F → List Nat → BNode F → BNode F
  | .mk t v ts ps, [], item => .mk t v (ts ++ [item]) ps
  | .mk t v ts ps, i :: p, item => .mk t v (modifyAt (fun c => c.append p item) i ts) ps

/-- The `Type` of the node at path `p` (`ZERO`, the kind of the root, when the
path addresses nothing, which no path held by `buildTree` does). -/
def BNode.typeAt {F : Type} (root : BNode F) (p : List Nat) : Kind :=
  match root.get? p with
  | some n => n.type
  | none => .ZERO

mutual
/-- Forget the `Parent` pointers. -/
def BNode.toTree {F : Type} : BNode F → TokenTree F
  | .mk t v ts _ => .mk t v (BNode.toTrees ts)
/-- Forget the `Parent` pointers of a list of nodes. -/
def BNode.toTrees {F : Type} : List (BNode F) → List (TokenTree F)
  | [] => []
  | n :: ns => n.toTree :: BNode.toTrees ns
end

/-! ## Parser, stage 1: `buildTree` -/

/-- The Go slice expression `s[1 : len(s)-1]` on a string of at least two bytes,
`none` when it panics. Exact when the first and the last rune are one byte long,
as every quote is. -/
def stripQuotes (s : String) : Option String :=
  if s.utf8ByteSize < 2 then none else some (String.mk s.data.tail.dropLast)

/-- The Go slice expression `s[1:]`, `none` when it panics (empty string). Exact
when the first rune is one byte long, as `.` is. -/
def stripFirst (s : String) : Option String :=
  if s = "" then none else some (String.mk s.data.tail)

/-- The value given to a `CONST` item: the number `strconv.ParseFloat` reads, or
the lexeme itself when it reads none. -/
def constValue {F : Type} (E : Go F) (s : String) : Value F :=
  match E.parseFloat s with
  | some f => .num f
  | none => .str s

/-- The literal normalisation at the head of the loop of `buildTree`: the value
of the new item. -/
def itemValue {F : Type} (E : Go F) (t : Token) : Result (Value F) :=
  match t.type with
  | .CONST => .ok (constValue E t.value)
  | .D_STR | .S_STR =>
    match stripQuotes t.value with
    | some s => .ok (.str s)
    | none => .error (.panic "slice bounds out of range")
  | .RESERVED =>
    if t.value = "true" then .ok (.bool true)
    else if t.value = "false" then .ok (.bool false)
    else if t.value = "null" then .ok .null
    else .error (.err ("unexpected token: " ++ t.value))
  | .K_START => .ok .null
  | .KEY =>
    match stripFirst t.value with
    | some s => .ok (.str s)
    | none => .error (.panic "slice bounds out of range")
  | _ => .ok (.str t.value)

/-- The local variables of `buildTree`: the tree built so far, the pointer `tree`
(with the chain of its `Parent` pointers), and the flags and counters. -/
structure BuildState (F : Type) where
  root : BNode F
  tree : List Nat
  up : List (List Nat)
  inKey : Bool
  nested : Int
  knested : Int
  state : Kind

/-- The loop `for tree.Parent != nil && tree.Type == KEY && (...) { tree = tree.Parent }`. -/
def climbKey {F : Type} (root : BNode F) : List Nat → List (List Nat) → List Nat × List (List Nat)
  | tree, [] => (tree, [])
  | tree, p :: ps => if root.typeAt tree = .KEY then climbKey root p ps else (tree, p :: ps)

/-- The loop `for tree.Parent != nil && (tree.Type == KEY || tree.Type == K_START)
{ tree = tree.Parent }`. -/
def climbKeyOrBracket {F : Type} (root : BNode F) :
    List Nat → List (List Nat) → List Nat × List (List Nat)
  | tree, [] => (tree, [])
  | tree, p :: ps =>
    if root.typeAt tree = .KEY ∨ root.typeAt tree = .K_START then climbKeyOrBracket root p ps
    else (tree, p :: ps)

/-- The path of the child that an append to the node at `tree` creates. -/
def nextChild {F : Type} (root : BNode F) (tree : List Nat) : List Nat :=
  match root.get? tree with
  | some n => tree ++ [n.tokens.length]
  | none => tree

/-- One iteration of the first pass of `buildTree`, on the token `t`. -/
def buildStep {F : Type} (E : Go F) (st : BuildState F) (t : Token) : Result (BuildState F) :=
  match itemValue E t with
  | .error e => .error e
  | .ok v =>
    let item : BNode F := .mk t.type v [] (st.tree :: st.up)
    match t.type with
    | .FUNC | .CONST | .RESERVED | .D_STR | .S_STR | .NEXT | .OP =>
      let pos := if st.inKey then climbKey st.root st.tree st.up else (st.tree, st.up)
      .ok { st with root := st.root.append pos.1 item, tree := pos.1, up := pos.2,
                    inKey := false, state := t.type }
    | .KEY =>
      let root1 := st.root.append st.tree item
      if st.inKey then .ok { st with root := root1, inKey := true, state := t.type }
      else .ok { st with root := root1, tree := nextChild st.root st.tree,
                         up := st.tree :: st.up, inKey := true, state := t.type }
    | .Q_START =>
      if st.state = .FUNC then
        match st.root.get? st.tree with
        | some n =>
          match n.tokens.getLast? with
          | some f =>
            .ok { st with tree := st.tree ++ [n.tokens.length - 1], up := f.parents,
                          nested := st.nested + 1, state := t.type }
          | none => .error (.panic "index out of range")
        | none => .error (.panic "nil pointer dereference")
      else
        .ok { st with root := st.root.append st.tree item, tree := nextChild st.root st.tree,
                      up := st.tree :: st.up, nested := st.nested + 1, state := t.type }
    | .K_START =>
      if st.root.typeAt st.tree ≠ .KEY ∧ st.root.typeAt st.tree ≠ .K_START then
        .error (.err "unexpected [")
      else
        .ok { st with root := st.root.append st.tree item, tree := nextChild st.root st.tree,
                      up := st.tree :: st.up, knested := st.knested + 1, state := t.type }
    | .K_END =>
      match st.up with
      | p :: ps =>
        .ok { st with tree := p, up := ps, knested := st.knested - 1, inKey := true,
                      state := t.type }
      | [] => .error (.err "unbalanced () or []")
    | .Q_END =>
      let pos := if st.inKey then climbKeyOrBracket st.root st.tree st.up else (st.tree, st.up)
      match pos.2 with
      | p :: ps =>
        .ok { st with tree := p, up := ps, nested := st.nested - 1, inKey := false,
                      state := t.type }
      | [] => .error (.err "unbalanced () or []")
    | _ => .ok { st with state := t.type }

/-- The first pass of `buildTree` over the remaining tokens. -/
def buildLoop {F : Type} (E : Go F) : List Token → BuildState F → Result (BuildState F)
  | [], st => .ok st
  | t :: ts, st =>
    match buildStep E st t with
    | .ok st1 => buildLoop E ts st1
    | .error e => .error e

/-- The function `buildTree`. -/
def buildTree {F : Type} (E : Go F) (tokens : List Token) : Result (TokenTree F) :=
  match buildLoop E tokens ⟨.mk .ZERO .null [] [], [], [], false, 0, 0, .ZERO⟩ with
  | .error e => .error e
  | .ok st =>
    if st.nested ≠ 0 ∨ st.knested ≠ 0 then .error (.err "unbalanced () or []")
    else
      match st.root.get? (st.up.getLast?.getD st.tree) with
      | some n => .ok n.toTree
      | none => .error (.panic "nil pointer dereference")

/-! ## Parser, stage 2: unary folding -/

/-- The comparison `v == "s"` of an `interface{}` with a string constant. -/
def Value.eqStr {F : Type} (v : Value F) (s : String) : Bool :=
  match v with
  | .str s' => s' = s
  | _ => false

/-- The statement `negate.Tokens = append(negate.Tokens, t)`, where `negate` points to
the element appended last to `newTokens`. -/
def appendToLast {F : Type} (newTokens : List (TokenTree F)) (t : TokenTree F) :
    List (TokenTree F) :=
  match newTokens.getLast? with
  | some (.mk ty v ts) => newTokens.dropLast ++ [.mk ty v (ts ++ [t])]
  | none => newTokens

mutual
/-- The function `not`. -/
def not {F : Type} : TokenTree F → TokenTree F
  | .mk ty v ts => .mk ty v (notLoop ts [] false)
/-- The loop of `not` over the remaining children; `negate` tells whether the
pointer `negate` is set (it then points to the last element of `newTokens`). -/
def notLoop {F : Type} :
    List (TokenTree F) → List (TokenTree F) → Bool → List (TokenTree F)
  | [], newTokens, _ => newTokens
  | t :: rest, newTokens, negate =>
    if t.type = .OP ∧ t.value.eqStr "!" then notLoop rest (newTokens ++ [t]) true
    else
      let t1 := if t.tokens.length > 0 then not t else t
      if negate then notLoop rest (appendToLast newTokens t1) false
      else notLoop rest (newTokens ++ [t1]) false
end

mutual
/-- The function `negative`. -/
def negative {F : Type} : TokenTree F → TokenTree F
  | .mk ty v ts => .mk ty v (negativeLoop ts [] false .ZERO)
/-- The loop of `negative` over the remaining children, with the variables
`newTokens`, `negate` (set or nil) and `state`. -/
def negativeLoop {F : Type} :
    List (TokenTree F) → List (TokenTree F) → Bool → Kind → List (TokenTree F)
  | [], newTokens, _, _ => newTokens
  | t :: rest, newTokens, negate, state =>
    if t.type = .OP ∧ t.value.eqStr "-" ∧ state ≠ .CONST ∧ state ≠ .KEY ∧ state ≠ .Q_START then
      negativeLoop rest (newTokens ++ [t]) true state
    else
      let t1 := if t.tokens.length > 0 then negative t else t
      if negate then negativeLoop rest (appendToLast newTokens t1) false t.type
      else negativeLoop rest (newTokens ++ [t1]) false t.type
end

/-! ## Parser, stage 3: binary folding -/

/-- The function `inStringSlice`. -/
def inStringSlice (a : List String) (b : String) : Bool :=
  a.any (fun s => s = b)

/-- The test `curr.Type == TokenType && inStringSlice(Values, curr.Value.(string))`;
the type assertion panics on a value that is not a string. -/
def isSplitOp {F : Type} (TokenType : Kind) (Values : List String) (curr : TokenTree F) :
    Result Bool :=
  if curr.type = TokenType then
    match curr.value with
    | .str s => .ok (inStringSlice Values s)
    | _ => .error (.panic "interface conversion: interface {} is not string")
  else .ok false

/-- The loop `for len(popTokens) > 2` of `split` and the final append: `prev` is
`popTokens[0]`, the list is `popTokens[1:]`. -/
def splitLoop {F : Type} (TokenType : Kind) (Values : List String) :
    TokenTree F → List (TokenTree F) → List (TokenTree F) → Result (List (TokenTree F))
  | prev, [], nextTokens => .ok (nextTokens ++ [prev])
  | prev, [curr], nextTokens => .ok (nextTokens ++ [prev, curr])
  | prev, curr :: next :: rest, nextTokens =>
    match isSplitOp TokenType Values curr with
    | .error e => .error e
    | .ok true =>
      splitLoop TokenType Values (.mk curr.type curr.value (curr.tokens ++ [prev, next])) rest
        nextTokens
    | .ok false => splitLoop TokenType Values curr (next :: rest) (nextTokens ++ [prev])

/-- The folding part of `split` on the child list `popTokens`. -/
def splitFold {F : Type} (TokenType : Kind) (Values : List String) :
    List (TokenTree F) → Result (List (TokenTree F))
  | [] => .ok []
  | prev :: rest => splitLoop TokenType Values prev rest []

mutual
/-- The function `split`. -/
def split {F : Type} (TokenType : Kind) (Values : List String) :
    TokenTree F → Result (TokenTree F)
  | .mk ty v ts =>
    match splitChildren TokenType Values ts with
    | .error e => .error e
    | .ok ts1 =>
      match splitFold TokenType Values ts1 with
      | .error e => .error e
      | .ok nextTokens => .ok (.mk ty v nextTokens)
/-- The loop `tree.Tokens[i] = split(t, TokenType, Values)` of `split`. -/
def splitChildren {F : Type} (TokenType : Kind) (Values : List String) :
    List (TokenTree F) → Result (List (TokenTree F))
  | [] => .ok []
  | t :: rest =>
    match split TokenType Values t with
    | .error e => .error e
    | .ok t1 =>
      match splitChildren TokenType Values rest with
      | .error e => .error e
      | .ok rest1 => .ok (t1 :: rest1)
end

/-- The function `Parser`. -/
def Parser {F : Type} (E : Go F) (tokens : List Token) : Result (TokenTree F) :=
  match buildTree E tokens with
  | .error e => .error e
  | .ok tree =>
    (split .OP ["&&", "||"] (negative (not tree))).bind fun t1 =>
    (split .OP ["*", "/"] t1).bind fun t2 =>
    (split .OP ["+", "-"] t2).bind fun t3 =>
    split .OP ["==", ">=", ">", "<", "<=", "!="] t3

/-! ## The registry (`ops.go`) -/

/-- The struct `OpMap`; a Go map is a lookup function, `none` for a missing key. The
entries of `Nil` can panic (comparison of uncomparable values), so they return a
`Result`. -/
structure OpMap (F : Type) where
  float : String → Option (F → F → Value F)
  string : String → Option (String → String → Value F)
  bool : String → Option (Bool → Bool → Value F)
  nil : String → Option (Value F → Value F → Result (Value F))
  nullary : String → Option (Result (Value F))
  unary : String → Option (Value F → Result (Value F))
  binary : String → Option (Value F → Value F → Result (Value F))

/-- The table `opFuncsFloat`. -/
def opFuncsFloat {F : Type} (E : Go F) : String → Option (F → F → Value F)
  | "+" => some fun a b => .num (E.add a b)
  | "-" => some fun a b => .num (E.sub a b)
  | "*" => some fun a b => .num (E.mul a b)
  | "/" => some fun a b => .num (E.div a b)
  | "==" => some fun a b => .bool (E.eq a b)
  | ">=" => some fun a b => .bool (E.ge a b)
  | ">" => some fun a b => .bool (E.gt a b)
  | "<" => some fun a b => .bool (E.lt a b)
  | "<=" => some fun a b => .bool (E.le a b)
  | "!=" => some fun a b => .bool (E.ne a b)
  | _ => none

/-- The table `opFuncsString`. -/
def opFuncsString {F : Type} : String → Option (String → String → Value F)
  | "+" => some fun a b => .str (a ++ b)
  | "==" => some fun a b => .bool (a = b)
  | "!=" => some fun a b => .bool (a ≠ b)
  | _ => none

/-- The table `opFuncsBool`. -/
def opFuncsBool {F : Type} : String → Option (Bool → Bool → Value F)
  | "&&" => some fun a b => .bool (a && b)
  | "||" => some fun a b => .bool (a || b)
  | "==" => some fun a b => .bool (a = b)
  | "!=" => some fun a b => .bool (a ≠ b)
  | _ => none

mutual
/-- The library function `reflect.DeepEqual` on values: numbers by `==`, lists
element by element, maps key by key. Identity of the underlying slice or map,
which `reflect` also accepts as equal, is not represented. -/
def deepEqual {F : Type} (E : Go F) : Value F → Value F → Bool
  | .null, .null => true
  | .bool a, .bool b => a = b
  | .num a, .num b => E.eq a b
  | .str a, .str b => a = b
  | .int a, .int b => a = b
  | .list a, .list b => deepEqualList E a b
  | .map a, .map b => a.length = b.length && deepEqualKvs E a b
  | _, _ => false
/-- Deep equality of two slices. -/
def deepEqualList {F : Type} (E : Go F) : List (Value F) → List (Value F) → Bool
  | [], [] => true
  | a :: as, b :: bs => deepEqual E a b && deepEqualList E as bs
  | _, _ => false
/-- Every entry of the first map has a deeply equal entry in the second. -/
def deepEqualKvs {F : Type} (E : Go F) :
    List (String × Value F) → List (String × Value F) → Bool
  | [], _ => true
  | (k, v) :: rest, b => hasKey b k && deepEqual E v (lookup b k) && deepEqualKvs E rest b
end

/-- The Go comparison `a != b` of two `interface{}` values: values of different
dynamic types differ, comparable ones are compared, and two slices or two maps
make the comparison panic. -/
def ifaceNe {F : Type} (E : Go F) : Value F → Value F → Result (Value F)
  | .null, .null => .ok (.bool false)
  | .bool a, .bool b => .ok (.bool (a ≠ b))
  | .num a, .num b => .ok (.bool (E.ne a b))
  | .str a, .str b => .ok (.bool (a ≠ b))
  | .int a, .int b => .ok (.bool (a ≠ b))
  | .list _, .list _ => .error (.panic "comparing uncomparable type []interface {}")
  | .map _, .map _ => .error (.panic "comparing uncomparable type map[string]interface {}")
  | _, _ => .ok (.bool true)

/-- The table `opFuncsNil`. -/
def opFuncsNil {F : Type} (E : Go F) : String → Option (Value F → Value F → Result (Value F))
  | "==" => some fun a b =>
    match a, b with
    | .null, .null => .ok (.bool true)
    | _, _ => .ok (.bool (deepEqual E a b))
  | "!=" => some fun a b => ifaceNe E a b
  | _ => none

/-- Go integer division, which truncates toward zero. -/
def goDiv (a b : Int) : Int := Int.tdiv a b

/-- Wrap-around of `int64` arithmetic. -/
def wrap64 (x : Int) : Int := (x + 2 ^ 63) % 2 ^ 64 - 2 ^ 63

/-- The table `nullaryFuncs`. -/
def nullaryFuncs {F : Type} (E : Go F) : String → Option (Result (Value F))
  | "$now" => some (.ok (.num (E.ofInt (goDiv (goDiv E.nowUnixNano 1000) 1000))))
  | _ => none

/-- The loop `for _, i := range valsArray { sum += i.(float64) }` of `$sum`. -/
def sumLoop {F : Type} (E : Go F) : List (Value F) → F → Result F
  | [], sum => .ok sum
  | .num x :: rest, sum => sumLoop E rest (E.add sum x)
  | _ :: _, _ => .error (.panic "interface conversion: interface {} is not float64")

/-- The loops of `$min` and `$max` from index 1 on, `f` being `math.Min` or `math.Max`. -/
def reduceLoop {F : Type} (f : F → F → F) : List (Value F) → F → Result F
  | [], acc => .ok acc
  | .num x :: rest, acc => reduceLoop f rest (f acc x)
  | _ :: _, _ => .error (.panic "interface conversion: interface {} is not float64")

/-- The bodies of `$min` and `$max`. -/
def reduceFirst {F : Type} (f : F → F → F) : Value F → Result (Value F)
  | .list [] => .error (.panic "index out of range [0] with length 0")
  | .list (.num x :: rest) =>
    match reduceLoop f rest x with
    | .ok r => .ok (.num r)
    | .error e => .error e
  | .list (_ :: _) => .error (.panic "interface conversion: interface {} is not float64")
  | _ => .ok .null

/-- The library function `strconv.ParseBool`. -/
def parseBool (s : String) : Option Bool :=
  if s = "1" ∨ s = "t" ∨ s = "T" ∨ s = "TRUE" ∨ s = "true" ∨ s = "True" then some true
  else if s = "0" ∨ s = "f" ∨ s = "F" ∨ s = "FALSE" ∨ s = "false" ∨ s = "False" then some false
  else none

/-- The library function `strings.Contains` on lists of runes. -/
def containsRunes : List Char → List Char → Bool
  | [], sub => sub.isEmpty
  | c :: cs, sub => sub.isPrefixOf (c :: cs) || containsRunes cs sub

/-- The table `unaryFuncs`. -/
def unaryFuncs {F : Type} (E : Go F) : String → Option (Value F → Result (Value F))
  | "$sum" => some fun val =>
    match val with
    | .list vs =>
      match sumLoop E vs (E.ofInt 0) with
      | .ok r => .ok (.num r)
      | .error e => .error e
    | _ => .ok .null
  | "$min" => some (reduceFirst E.fmin)
  | "$max" => some (reduceFirst E.fmax)
  | "$len" => some fun val =>
    match val with
    | .list vs => .ok (.num (E.ofInt vs.length))
    | _ => .ok .null
  | "$sqrt" => some fun val =>
    match val with
    | .num f => if E.lt f (E.ofInt 0) then .ok .null else .ok (.num (E.sqrt f))
    | _ => .ok .null
  | "$abs" => some fun val =>
    match val with
    | .num f => .ok (.num (E.abs f))
    | _ => .ok .null
  | "$floor" => some fun val =>
    match val with
    | .num f => .ok (.num (E.floor f))
    | _ => .ok .null
  | "$keys" => some fun val =>
    match val with
    | .map m => .ok (.list ((E.mapOrder (m.map fun kv => kv.1)).map fun k => .str k))
    | _ => .ok .null
  | "$str" => some fun val =>
    match val with
    | .num v => .ok (.str (E.formatFloat v))
    | .bool v => .ok (.str (if v then "true" else "false"))
    | .str v => .ok (.str v)
    | .null => .ok (.str "null")
    | .map _ | .list _ =>
      match E.jsonMarshal val with
      | .ok b => .ok (.str b)
      | .error e => .error e
    | .int _ => .ok (.str "")
  | "$num" => some fun val =>
    match val with
    | .num v => .ok (.num v)
    | .str v =>
      match E.parseFloat v with
      | some f => .ok (.num f)
      | none => .error (.err "strconv.ParseFloat: parsing failed")
    | .bool true => .ok (.int 1)
    | _ => .ok (.num (E.ofInt 0))
  | "$~bool" => some fun val =>
    match val with
    | .list v => .ok (.bool (v.length > 0))
    | .map _ => .ok (.bool true)
    | .num v => if E.isNaN v then .ok (.bool false) else .ok (.bool (E.gt v (E.ofInt 0)))
    | .str v => .ok (.bool (v.utf8ByteSize > 0))
    | .bool v => .ok (.bool v)
    | _ => .ok (.bool false)
  | "$bool" => some fun val =>
    match val with
    | .str v =>
      match parseBool v with
      | some b => .ok (.bool b)
      | none => .error (.err "strconv.ParseBool: parsing failed")
    | .bool v => .ok (.bool v)
    | _ => .ok .null
  | _ => none

/-- The loop of `$has` over the elements of the slice. -/
def hasLoop {F : Type} (E : Go F) (b : Value F) : List (Value F) → Result (Value F)
  | [] => .ok (.bool false)
  | .str c :: rest =>
    match b with
    | .str bs => if c = bs then .ok (.bool true) else hasLoop E b rest
    | _ => .error (.panic "interface conversion: interface {} is not string")
  | .num c :: rest =>
    match b with
    | .num bf => if E.eq c bf then .ok (.bool true) else hasLoop E b rest
    | _ => .error (.panic "interface conversion: interface {} is not float64")
  | .bool c :: rest =>
    match b with
    | .bool bb => if c = bb then .ok (.bool true) else hasLoop E b rest
    | _ => .error (.panic "interface conversion: interface {} is not bool")
  | _ :: rest => hasLoop E b rest

/-- The table `binaryFuncs`. -/
def binaryFuncs {F : Type} (E : Go F) : String → Option (Value F → Value F → Result (Value F))
  | "$parseTime" => some fun a b =>
    match a, b with
    | .str layout, .str value =>
      match E.timeParse layout value with
      | .ok t => .ok (.num (E.ofInt (goDiv (goDiv t 1000) 1000)))
      | .error e => .error e
    | _, _ => .ok .null
  | "$fmtTime" => some fun a b =>
    match a, b with
    | .str layout, .num t => .ok (.str (E.timeFormat (wrap64 (wrap64 (E.toInt t) * 1000000)) layout))
    | _, _ => .ok .null
  | "$pow" => some fun a b =>
    match a, b with
    | .num fa, .num fb => .ok (.num (E.pow fa fb))
    | _, _ => .ok .null
  | "$exists" => some fun a b =>
    match b, a with
    | .str sb, .map ma => .ok (.bool (hasKey ma sb))
    | _, _ => .ok .null
  | "$contains" => some fun a b =>
    match a, b with
    | .str sa, .str sb => .ok (.bool (containsRunes sa.data sb.data))
    | _, _ => .ok .null
  | "$regex" => some fun a b =>
    match a, b with
    | .str sa, .str sb =>
      match E.regexMatch sb sa with
      | .ok r => .ok (.bool r)
      | .error e => .error e
    | _, _ => .ok .null
  | "$has" => some fun a b =>
    match a with
    | .list s => hasLoop E b s
    | _ => .ok .null
  | _ => none

/-- The variable `defaultOpMap`. -/
def defaultOpMap {F : Type} (E : Go F) : OpMap F :=
  { float := opFuncsFloat E, string := opFuncsString, bool := opFuncsBool, nil := opFuncsNil E,
    nullary := nullaryFuncs E, unary := unaryFuncs E, binary := binaryFuncs E }

/-! ## Evaluator -/

/-- The text of `reflect.TypeOf(v)` under the verb `%s`. -/
def typeName {F : Type} : Value F → String
  | .null => "%!s(<nil>)"
  | .bool _ => "bool"
  | .num _ => "float64"
  | .str _ => "string"
  | .list _ => "[]interface {}"
  | .map _ => "map[string]interface {}"
  | .int _ => "int"

/-- Apply `f` to every element in order, stopping at the first failure. -/
def mapResult {α β : Type} (f : α → Result β) : List α → Result (List β)
  | [] => .ok []
  | a :: as =>
    match f a with
    | .error e => .error e
    | .ok b =>
      match mapResult f as with
      | .error e => .error e
      | .ok bs => .ok (b :: bs)

/-- The subscript step of `getKeyValues` for a number `c` on one element. -/
def indexStep {F : Type} (E : Go F) (c : F) : Value F → Result (Value F)
  | .list outputSlice =>
    if E.lt c (E.ofInt 0) ∨ E.toInt c ≥ outputSlice.length then .ok .null
    else if E.toInt c < 0 then .error (.panic "index out of range")
    else .ok ((outputSlice.get? (E.toInt c).toNat).getD .null)
  | _ => .error (.err "could not assert to slice")

/-- The subscript step of `getKeyValues` for a string `c` on one element. -/
def fieldStep {F : Type} (c : String) : Value F → Result (Value F)
  | .map outputMap => .ok (lookup outputMap c)
  | _ => .error (.err "could not assert to map")

/-- The wildcard step of `getKeyValues` on one element: its entries. -/
def spreadStep {F : Type} : Value F → Result (List (Value F))
  | .list arr => .ok arr
  | _ => .error (.err "could not assert to slice")

/-- The `case KEY` step of `getKeyValues` on one element: both failed type
assertions are ignored, a nil map and the empty key are read. -/
def keyStep {F : Type} (subValue : Value F) (o : Value F) : Value F :=
  let outputMap : List (String × Value F) := match o with
    | .map m => m
    | _ => []
  let key : String := match subValue with
    | .str s => s
    | _ => ""
  lookup outputMap key

/-- The loop `for _, sub := range t.Tokens` of `getKeyValues`, with the variables
`output` and `accessed`. -/
def keyLoop {F : Type} (E : Go F) :
    List (TokenTree F) → List (Value F) → Bool → Result (List (Value F) × Bool)
  | [], output, accessed => .ok (output, accessed)
  | sub :: rest, output, accessed =>
    match sub.type with
    | .K_START =>
      match sub.value with
      | .str c =>
        match mapResult (fieldStep c) output with
        | .error e => .error e
        | .ok output1 => keyLoop E rest output1 accessed
      | .num c =>
        match mapResult (indexStep E c) output with
        | .error e => .error e
        | .ok output1 => keyLoop E rest output1 accessed
      | _ =>
        match mapResult spreadStep output with
        | .error e => .error e
        | .ok parts => keyLoop E rest parts.flatten true
    | .KEY => keyLoop E rest (output.map (keyStep sub.value)) accessed
    | _ => keyLoop E rest output accessed

/-- The function `getKeyValues`. -/
def getKeyValues {F : Type} (E : Go F) (t : TokenTree F) (input : Value F) : Result (Value F) :=
  let first : Result (Value F) :=
    match t.value with
    | .str s =>
      if s ≠ "" then
        match input with
        | .map inputMap => .ok (lookup inputMap s)
        | _ => .error (.err "could not assert to map")
      else .ok input
    | _ => .ok input
  match first with
  | .error e => .error e
  | .ok input1 =>
    match keyLoop E t.tokens [input1] false with
    | .error e => .error e
    | .ok (output, accessed) =>
      match output, accessed with
      | [o], false => .ok o
      | _, _ => .ok (.list output)

/-- The type switch of `EvalCustom` on the two evaluated operands of an `OP`. -/
def applyOp {F : Type} (opMap : OpMap F) (tokenVal : String) (a b : Value F) : Result (Value F) :=
  let mismatch : Result (Value F) :=
    if tokenVal = "!=" then .ok (.bool true)
    else if tokenVal = "==" then .ok (.bool false)
    else .error (.err ("cannot compare types: " ++ typeName a ++ ", " ++ typeName b))
  let invalid : Result (Value F) :=
    .error (.err ("invalid operator for type: " ++ tokenVal ++ ", " ++ typeName a))
  match a with
  | .num ta =>
    match b with
    | .num bf =>
      match opMap.float tokenVal with
      | some f => .ok (f ta bf)
      | none => invalid
    | _ => mismatch
  | .str ta =>
    match b with
    | .str bs =>
      match opMap.string tokenVal with
      | some f => .ok (f ta bs)
      | none => invalid
    | _ => mismatch
  | .bool ta =>
    match b with
    | .bool bb =>
      match opMap.bool tokenVal with
      | some f => .ok (f ta bb)
      | none => invalid
    | _ => mismatch
  | _ =>
    match opMap.nil tokenVal with
    | some f => f a b
    | none => invalid

/-- The error of the `FUNC` case. -/
def noFunc {α : Type} (tokenVal : String) : Result α :=
  .error (.err ("func does not exist or wrong num of arguments: " ++ tokenVal))

mutual
/-- The function `EvalCustom`. The second component is the tree after the call:
the evaluation of a `KEY` node rewrites its subscript children in place. -/
def EvalCustom {F : Type} (E : Go F) (opMap : Option (OpMap F)) :
    TokenTree F → Value F → Result (Value F) × TokenTree F
  | .mk ty v toks, msg =>
    let om : OpMap F := match opMap with
      | some o => o
      | none => defaultOpMap E
    match ty, v with
    | .OP, .str tokenVal =>
      match toks with
      | [c] =>
        if tokenVal = "-" then
          match EvalCustom E (some om) c msg with
          | (.error e, c1) => (.error e, .mk ty v [c1])
          | (.ok (.num f), c1) => (.ok (.num (E.mul (E.ofInt (-1)) f)), .mk ty v [c1])
          | (.ok _, c1) =>
            (.error (.err "cannot use - operator on non-number type"), .mk ty v [c1])
        else if tokenVal = "!" then
          match EvalCustom E (some om) c msg with
          | (.error e, c1) => (.error e, .mk ty v [c1])
          | (.ok (.bool b), c1) => (.ok (.bool (!b)), .mk ty v [c1])
          | (.ok _, c1) => (.error (.err "cannot use ! operator on non-bool type"), .mk ty v [c1])
        else (.ok .null, .mk ty v [c])
      | [a, b] =>
        match EvalCustom E (some om) a msg with
        | (.error e, a1) => (.error e, .mk ty v [a1, b])
        | (.ok va, a1) =>
          match EvalCustom E (some om) b msg with
          | (.error e, b1) => (.error e, .mk ty v [a1, b1])
          | (.ok vb, b1) => (applyOp om tokenVal va vb, .mk ty v [a1, b1])
      | _ => (.ok .null, .mk ty v toks)
    | .KEY, .str _ =>
      match evalSubs E (some om) toks msg with
      | (some e, toks1) => (.error e, .mk ty v toks1)
      | (none, toks1) => (getKeyValues E (.mk ty v toks1) msg, .mk ty v toks1)
    | .FUNC, .str tokenVal =>
      match toks with
      | [] =>
        match om.nullary tokenVal with
        | some f => (f, .mk ty v toks)
        | none => (noFunc tokenVal, .mk ty v toks)
      | [a] =>
        match EvalCustom E (some om) a msg with
        | (.error e, a1) => (.error e, .mk ty v [a1])
        | (.ok va, a1) =>
          match om.unary tokenVal with
          | some f => (f va, .mk ty v [a1])
          | none => (noFunc tokenVal, .mk ty v [a1])
      | [a, n, b] =>
        match EvalCustom E (some om) a msg with
        | (.error e, a1) => (.error e, .mk ty v [a1, n, b])
        | (.ok va, a1) =>
          match EvalCustom E (some om) b msg with
          | (.error e, b1) => (.error e, .mk ty v [a1, n, b1])
          | (.ok vb, b1) =>
            match om.binary tokenVal with
            | some f => (f va vb, .mk ty v [a1, n, b1])
            | none => (noFunc tokenVal, .mk ty v [a1, n, b1])
      | _ => (noFunc tokenVal, .mk ty v toks)
    | .OP, _ | .KEY, _ | .FUNC, _ =>
      (.error (.err "bad operation, key, or function: "), .mk ty v toks)
    | .S_STR, _ | .D_STR, _ | .CONST, _ | .RESERVED, _ => (.ok v, .mk ty v toks)
    | _, _ =>
      match toks with
      | c :: rest =>
        match EvalCustom E (some om) c msg with
        | (r, c1) => (r, .mk ty v (c1 :: rest))
      | [] => (.ok .null, .mk ty v toks)
/-- The loop `for _, sub := range t.Tokens` of the `KEY` case of `EvalCustom`: a
child with children of its own has its first child evaluated against the message
and is rewritten to hold the result. Returns the error that stopped the loop, if
any, and the children after the loop. -/
def evalSubs {F : Type} (E : Go F) (opMap : Option (OpMap F)) :
    List (TokenTree F) → Value F → Option Error × List (TokenTree F)
  | [], _ => (none, [])
  | .mk sty sv [] :: rest, input =>
    match evalSubs E opMap rest input with
    | (e, rest1) => (e, .mk sty sv [] :: rest1)
  | .mk sty sv (c :: cs) :: rest, input =>
    match EvalCustom E opMap c input with
    | (.error e, c1) => (some e, .mk sty sv (c1 :: cs) :: rest)
    | (.ok key, _) =>
      let sty1 : Kind := match key with
        | .str _ => .KEY
        | _ => sty
      match evalSubs E opMap rest input with
      | (e, rest1) => (e, .mk sty1 key [] :: rest1)
end

/-- The function `Eval`: the value or error returned. -/
def Eval {F : Type} (E : Go F) (t : TokenTree F) (msg : Value F) : Result (Value F) :=
  (EvalCustom E none t msg).1

/-- The composition `Parser(Lexer(src))`. -/
def parseString {F : Type} (E : Go F) (src : String) : Result (TokenTree F) :=
  (Lexer E src).bind (Parser E)

/-- The composition `Eval(Parser(Lexer(src)), msg)` on a freshly parsed tree. -/
def evalString {F : Type} (E : Go F) (src : String) (msg : Value F) : Result (Value F) :=
  (parseString E src).bind fun t => Eval E t msg

/-! ## A concrete interpretation of the library, for evaluating examples -/

/-- The value of a string of ASCII decimal digits, `none` when another rune occurs. -/
def digitsValue : List Char → Nat → Option Nat
  | [], acc => some acc
  | c :: cs, acc => if c.isDigit then digitsValue cs (10 * acc + (c.toNat - 48)) else none

/-- The library function `strconv.ParseFloat` on the lexemes the lexer can produce
for a number: decimal digits with at most one point and at least one digit. The
result is the exact decimal value. -/
def parseDecimal (s : String) : Option Rat :=
  let ip := s.data.takeWhile (fun c => c ≠ '.')
  match s.data.dropWhile (fun c => c ≠ '.') with
  | [] =>
    if ip.isEmpty then none
    else (digitsValue ip 0).map fun n => (n : Rat)
  | _ :: fp =>
    if ip.isEmpty && fp.isEmpty then none
    else
      match digitsValue ip 0, digitsValue fp 0 with
      | some a, some b => some ((a : Rat) + (b : Rat) / (10 : Rat) ^ fp.length)
      | _, _ => none

/-- The ASCII code points of Unicode category P (punctuation). -/
def asciiPunct : List Nat :=
  [33, 34, 35, 37, 38, 39, 40, 41, 42, 44, 45, 46, 47, 58, 59, 63, 64, 91, 92, 93, 95, 123, 125]

/-- The ASCII code points of Unicode category S (symbols). -/
def asciiSymbol : List Nat := [36, 43, 60, 61, 62, 94, 96, 124, 126]

/-- The Latin-1 code points of `unicode.IsSpace`. -/
def latin1Space : List Nat := [9, 10, 11, 12, 13, 32, 133, 160]

/-- An interpretation of `Go` over the rationals. The `unicode` classes are the
ASCII ones; arithmetic and comparison are exact, which is what `float64` computes
as long as every operand and result is a small integer or dyadic fraction.
The fields with no exact counterpart (`sqrt`, `pow`, formatting, JSON, regular
expressions, time) hold fixed placeholder results and are used by no statement
below. A `range` over a map visits the keys in the order of the association list. -/
def exactGo : Go Rat :=
  { isNumber := fun c => c.isDigit
    isLetter := fun c => c.isAlpha
    isPunct := fun c => asciiPunct.contains c.toNat
    isSymbol := fun c => asciiSymbol.contains c.toNat
    isSpace := fun c => latin1Space.contains c.toNat
    parseFloat := parseDecimal
    add := fun a b => a + b
    sub := fun a b => a - b
    mul := fun a b => a * b
    div := fun a b => a / b
    eq := fun a b => a = b
    ge := fun a b => a ≥ b
    gt := fun a b => a > b
    lt := fun a b => a < b
    le := fun a b => a ≤ b
    ne := fun a b => a ≠ b
    ofInt := fun n => (n : Rat)
    toInt := fun q => Int.tdiv q.num q.den
    isNaN := fun _ => false
    fmin := fun a b => min a b
    fmax := fun a b => max a b
    sqrt := fun a => a
    abs := fun a => |a|
    floor := fun a => (Rat.floor a : Rat)
    pow := fun a _ => a
    formatFloat := fun _ => ""
    jsonMarshal := fun _ => .error (.err "json: not interpreted")
    regexMatch := fun _ _ => .error (.err "regexp: not interpreted")
    timeParse := fun _ _ => .error (.err "time: not interpreted")
    timeFormat := fun _ _ => ""
    nowUnixNano := 0
    mapOrder := fun ks => ks }

/-- The interpretation `E` gives every ASCII rune the Unicode classes it has in Go. -/
def AsciiStd {F : Type} (E : Go F) : Prop :=
  ∀ c : Char, c.toNat < 128 →
    E.isNumber c = exactGo.isNumber c ∧ E.isLetter c = exactGo.isLetter c ∧
    E.isPunct c = exactGo.isPunct c ∧ E.isSymbol c = exactGo.isSymbol c ∧
    E.isSpace c = exactGo.isSpace c

/-- The rune `c` is a letter for `E`: `unicode.IsLetter` holds, `unicode.IsNumber`
does not, and `c` is none of the punctuation runes of the table `Ident`. -/
def LetterRune {F : Type} (E : Go F) (c : Char) : Prop :=
  Ident c = none ∧ E.isNumber c = false ∧ E.isLetter c = true

instance {F : Type} (E : Go F) (c : Char) : Decidable (LetterRune E c) :=
  inferInstanceAs (Decidable (Ident c = none ∧ E.isNumber c = false ∧ E.isLetter c = true))

/-- The number `c` is the integer `i`: the conversion `int(c)` gives `i`, and the
comparison `c < 0` holds exactly when `i` is negative. -/
def IntValued {F : Type} (E : Go F) (c : F) (i : Int) : Prop :=
  E.toInt c = i ∧ E.lt c (E.ofInt 0) = decide (i < 0)

/-- The string `s` is a number literal for `E`: its first rune is a number rune and
every later rune is a number rune or a point. -/
def isNumeral {F : Type} (E : Go F) (s : String) : Bool :=
  match s.data with
  | [] => false
  | d :: rest => getIdent E d = .CONST && rest.all fun c => getIdent E c = .CONST || c = '.'

/-- The four operator classes of `Parser`, in the order of its calls of `split`. -/
def opClasses : List (List String) :=
  [["&&", "||"], ["*", "/"], ["+", "-"], ["==", ">=", ">", "<", "<=", "!="]]

/-- The binary operators of the four classes. -/
def binOps : List String := opClasses.flatten

/-- The leaf `CONST` node that `buildTree` makes of the lexeme `s`. -/
def constLeaf {F : Type} (E : Go F) (s : String) : TokenTree F :=
  .mk .CONST (constValue E s) []

/-- An operator node with the given children. -/
def opNode {F : Type} (o : String) (children : List (TokenTree F)) : TokenTree F :=
  .mk .OP (.str o) children

/-- The anonymous root with the given children. -/
def rootNode {F : Type} (children : List (TokenTree F)) : TokenTree F :=
  .mk .ZERO .null children


/-- The position of the first list of `classes` that holds `o`, counted from `i`. -/
def classIndexFrom (o : String) : List (List String) → Nat → Nat
  | [], i => i
  | K :: rest, i => if inStringSlice K o then i else classIndexFrom o rest (i + 1)

/-- The number of the call of `split` that folds the operator `o`: 0 for `&&` and
`||`, 1 for `*` and `/`, 2 for `+` and `-`, 3 for the comparisons. -/
def classIndex (o : String) : Nat := classIndexFrom o opClasses 0

/-- The leaf `KEY` node of the field `name`. -/
def keyLeaf {F : Type} (name : String) : TokenTree F :=
  .mk .KEY (.str name) []

/-- The leaf `CONST` node of the number `x`. -/
def numLeaf {F : Type} (x : F) : TokenTree F :=
  .mk .CONST (.num x) []

/-- The operators `o1` and `o2` belong to one of the four classes of `Parser`. -/
def SameClass (o1 o2 : String) : Prop :=
  ∃ K ∈ opClasses, o1 ∈ K ∧ o2 ∈ K

/-- The runtime shape of a value: the dynamic type of the `interface{}`. -/
def Value.shape {F : Type} : Value F → Nat
  | .null => 0
  | .bool _ => 1
  | .num _ => 2
  | .str _ => 3
  | .list _ => 4
  | .map _ => 5
  | .int _ => 6

/-- The `switch state` statement of the loop of `Lexer`, as a function of the
variables before it. -/
def lexSwitch {F : Type} (E : Go F) (st : LexState) (r : Char) : LexState :=
  match st.state with
  | .OP | .FUNC | .CONST | .KEY | .RESERVED =>
    if tokenPopMap E st.state r st.currWord then emitToken st st.state st.currWord else st
  | .D_STR | .S_STR =>
    if st.escaped then { st with escaped := false }
    else if tokenPopMap E st.state r st.currWord then
      { emitToken st st.state (st.currWord ++ String.singleton r) with poppedStr := true }
    else { st with poppedStr := false }
  | .Q_START | .Q_END | .K_START | .K_END | .NEXT => emitToken st st.state st.currWord
  | _ => st

/-- The statement `if !poppedStr { ... } else { ... }` that ends the loop body of
`Lexer`, as a function of the variables before it. -/
def lexTail {F : Type} (E : Go F) (st1 : LexState) (r : Char) : Result LexState :=
  if !st1.poppedStr then
    if st1.currWord = "" then
      .ok { st1 with currWord := String.singleton r, state := getIdent E r }
    else .ok { st1 with currWord := st1.currWord ++ String.singleton r }
  else .ok { st1 with poppedStr := false, state := .ZERO }

/-- The state in which `Lexer` starts. -/
def lexInit : LexState := ⟨[], "", .ZERO, false, false⟩

/-- What follows the prefix `u` lies outside a string literal: after the runes of
`u` the lexer is not in state `D_STR` or `S_STR` (or has already failed). -/
def endsOutsideString {F : Type} (E : Go F) (u : String) : Bool :=
  match lexLoop E u.data lexInit with
  | .ok st => st.state ≠ .D_STR && st.state ≠ .S_STR
  | .error _ => true

/-- The concatenation of the lexemes of a token sequence. -/
def lexemes : List Token → String
  | [] => ""
  | t :: ts => t.value ++ lexemes ts

/-- The end of `Lexer`: the current word, if there is one, is emitted, and the
tokens are returned. -/
def lexEnd (st : LexState) : List Token :=
  if st.currWord ≠ "" then st.tokens ++ [⟨st.state, st.currWord⟩] else st.tokens

/-- No escaped quote is followed by further text of its literal: whenever the
lexer, started in `st`, meets right after a backslash inside a string literal the
quote of that literal's kind (the rune that would close the literal, were it not
escaped), only backslashes come after it. -/
def noEscapedQuoteRun {F : Type} (E : Go F) : List Char → LexState → Bool
  | [], _ => true
  | c :: cs, st =>
    if (st.state = .D_STR || st.state = .S_STR) && st.escaped && !(getIdent E c = .ESC)
        && tokenPopMap E st.state c st.currWord then
      cs.all fun d => getIdent E d = .ESC
    else
      match lexStep E st c with
      | .ok st1 => noEscapedQuoteRun E cs st1
      | .error _ => true

/-- The source `s` has no escaped quote that is followed by further text of its
literal. -/
def noEscapedQuote {F : Type} (E : Go F) (s : String) : Bool :=
  noEscapedQuoteRun E s.data lexInit

/-- The text the lexer holds: the lexemes of the tokens emitted so far, followed by
the current word. -/
def lexText (st : LexState) : List Char :=
  (lexemes st.tokens).data ++ st.currWord.data

/-- No tree of the list has children. -/
def leaves {F : Type} : List (TokenTree F) → Bool
  | [] => true
  | .mk _ _ [] :: ts => leaves ts
  | .mk _ _ (_ :: _) :: _ => false

/-- The kinds of the literal leaves, which `EvalCustom` returns as they are. -/
def isLiteral (k : Kind) : Bool :=
  k = .S_STR || k = .D_STR || k = .CONST || k = .RESERVED

/-- Every tree of the list has no children, or a literal as its first child. -/
def litHeads {F : Type} : List (TokenTree F) → Bool
  | [] => true
  | .mk _ _ [] :: ts => litHeads ts
  | .mk _ _ (c :: _) :: ts => isLiteral c.type && litHeads ts

mutual
/-- No subscript of the tree holds an expression: every child of a `KEY` node has
no children, or has a literal as its first child. -/
def litSubs {F : Type} : TokenTree F → Bool
  | .mk ty _ toks => (ty != .KEY || litHeads toks) && litSubsList toks
/-- Every tree of the list satisfies `litSubs`. -/
def litSubsList {F : Type} : List (TokenTree F) → Bool
  | [] => true
  | t :: ts => litSubs t && litSubsList ts
end

mutual
/-- Every `OP` node of the tree has at most `b v` children, where `v` is the value
of the node. -/
def opBound {F : Type} (b : Value F → Nat) : TokenTree F → Bool
  | .mk ty v ts => (ty != .OP || decide (ts.length ≤ b v)) && opBoundList b ts
/-- Every tree of the list satisfies `opBound b`. -/
def opBoundList {F : Type} (b : Value F → Nat) : List (TokenTree F) → Bool
  | [] => true
  | t :: ts => opBound b t && opBoundList b ts
end

/-- The operators that `not` and `negative` give one child. -/
def unaryOps : List String := ["!", "-"]

/-- The number of children an operator can collect: one as `!` or `-` in `not` and
`negative`, two more in the call of `split` for its class. -/
def opArity {F : Type} : Value F → Nat
  | .str s => (if inStringSlice unaryOps s then 1 else 0) + (if inStringSlice binOps s then 2 else 0)
  | _ => 0

/-- The bound after a call of `split` for `Values`, given the bound `b` before it. -/
def bump {F : Type} (Values : List String) (b : Value F → Nat) : Value F → Nat
  | .str s => b (.str s) + (if inStringSlice Values s then 2 else 0)
  | v => b v

/-- The bound after `not`. -/
def notArity {F : Type} : Value F → Nat
  | .str s => if s = "!" then 1 else 0
  | _ => 0

/-- The bound after `negative`. -/
def negArity {F : Type} : Value F → Nat
  | .str s => if inStringSlice unaryOps s then 1 else 0
  | _ => 0

/-- The pointer `p` addresses a node of the tree under construction, and that node
is not an operator. -/
def okPath {F : Type} (root : BNode F) (p : List Nat) : Prop :=
  ∃ n, root.get? p = some n ∧ n.type ≠ .OP

/-- What the loop of `buildTree` maintains: no operator node has children; the
pointer `tree` and the pointers of its `Parent` chain address nodes that are not
operators; and right after a function name, the last child of `tree` is that
function node, whose own `Parent` chain has the same property. -/
def BuildInv {F : Type} (root : BNode F) (tree : List Nat) (up : List (List Nat))
    (state : Kind) : Prop :=
  opBound (fun _ => 0) root.toTree = true
  ∧ okPath root tree
  ∧ (∀ p ∈ up, okPath root p)
  ∧ (state = .FUNC → ∃ n f, root.get? tree = some n ∧ n.tokens.getLast? = some f
      ∧ f.type ≠ .OP ∧ ∀ p ∈ f.parents, okPath root p)

/-- Loose truthiness as `$~bool` computes it: a non-empty list, any mapping, a
non-empty string, a number that is not NaN and is greater than zero, and the
boolean true. -/
def truthy {F : Type} (E : Go F) : Value F → Bool
  | .list l => !l.isEmpty
  | .map _ => true
  | .str s => s != ""
  | .num x => !E.isNaN x && E.gt x (E.ofInt 0)
  | .bool b => b
  | _ => false

/-- The body of a string literal with every backslash left out. -/
def unescape (body : List Char) : List Char :=
  body.filter fun c => c ≠ bslash

/-- Every occurrence of the quote `q` in the body comes right after a backslash,
and the body does not end in a backslash, so that the body does not close the
literal and the rune after it is not escaped. `esc` tells whether the rune before
the body is a backslash. -/
def quotesEscaped (q : Char) : Bool → List Char → Bool
  | esc, [] => !esc
  | esc, c :: cs =>
    if c = bslash then quotesEscaped q true cs
    else if c = q then esc && quotesEscaped q false cs
    else quotesEscaped q false cs

/-- The quote `q` opens and closes the string literals of kind `K`. -/
def QuoteOf (q : Char) (K : Kind) : Prop :=
  (q = dquote ∧ K = .D_STR) ∨ (q = squote ∧ K = .S_STR)

/-! ## Lexer: dependence on the interpretation -/

theorem getIdent_ascii {F : Type} (E : Go F) (hE : AsciiStd E) (c : Char) (hc : c.toNat < 128) :
    getIdent E c = getIdent exactGo c := by
  obtain ⟨h1, h2, h3, h4, h5⟩ := hE c hc
  simp only [getIdent, h1, h2, h3, h4, h5]

theorem asciiStd_exactGo : AsciiStd exactGo :=
  fun _ _ => ⟨rfl, rfl, rfl, rfl, rfl⟩

theorem tokenPopMap_congr {F G : Type} (E : Go F) (E' : Go G) (k : Kind) (r : Char) (w : String)
    (h : getIdent E r = getIdent E' r) : tokenPopMap E k r w = tokenPopMap E' k r w := by
  cases k <;> simp only [tokenPopMap, h]

theorem lexStep_congr {F G : Type} (E : Go F) (E' : Go G) (st : LexState) (r : Char)
    (h : getIdent E r = getIdent E' r) : lexStep E st r = lexStep E' st r := by
  simp only [lexStep, h, tokenPopMap_congr E E' _ r _ h]

theorem lexLoop_congr {F G : Type} (E : Go F) (E' : Go G) (cs : List Char)
    (h : ∀ c ∈ cs, getIdent E c = getIdent E' c) (st : LexState) :
    lexLoop E cs st = lexLoop E' cs st := by
  induction cs generalizing st with
  | nil => rfl
  | cons c cs ih =>
    have hc : getIdent E c = getIdent E' c := h c (List.mem_cons_self c cs)
    have ht : ∀ d ∈ cs, getIdent E d = getIdent E' d := fun d hd => h d (List.mem_cons_of_mem c hd)
    simp only [lexLoop, lexStep_congr E E' st c hc]
    cases lexStep E' st c with
    | ok st1 => exact ih ht st1
    | error e => rfl

/-- On an ASCII source every interpretation that classifies ASCII as Go does
lexes as `exactGo` does. -/
theorem Lexer_ascii {F : Type} (E : Go F) (hE : AsciiStd E) (s : String)
    (hs : ∀ c ∈ s.data, c.toNat < 128) : Lexer E s = Lexer exactGo s := by
  have h := lexLoop_congr E exactGo s.data
    (fun c hc => getIdent_ascii E hE c (hs c hc)) ⟨[], "", .ZERO, false, false⟩
  simp only [Lexer, h]

/-! ## Lexer: runs of runes that extend the current word -/

theorem str_append_ne (w : String) (c : Char) : w ++ String.singleton c ≠ "" := by
  intro h
  have := congrArg String.data h
  simp at this

theorem str_push_mk (w : String) (c : Char) (cs : List Char) :
    w ++ String.singleton c ++ String.mk cs = w ++ String.mk (c :: cs) := by
  apply String.ext
  simp

theorem str_append_nil (w : String) : w ++ String.mk [] = w := by
  apply String.ext
  simp

theorem getIdent_dot {F : Type} (E : Go F) : getIdent E '.' = .KEY := by
  simp [getIdent, Ident]

theorem getIdent_letter {F : Type} (E : Go F) (c : Char) (h : LetterRune E c) :
    getIdent E c = .RESERVED := by
  simp [getIdent, h.1, h.2.1, h.2.2]

theorem lexStep_const_run {F : Type} (E : Go F) (toks : List Token) (w : String) (esc : Bool)
    (c : Char) (hw : w ≠ "") (hc : getIdent E c = .CONST ∨ c = '.') :
    lexStep E ⟨toks, w, .CONST, false, esc⟩ c =
      .ok ⟨toks, w ++ String.singleton c, .CONST, false, esc⟩ := by
  rcases hc with h | rfl
  · simp [lexStep, tokenPopMap, h, hw]
  · simp [lexStep, tokenPopMap, getIdent_dot, hw]

/-- In state `CONST` a run of number runes and points extends the current word. -/
theorem lexLoop_const_run {F : Type} (E : Go F) (cs rest : List Char) (toks : List Token)
    (w : String) (esc : Bool) (hw : w ≠ "") (hcs : ∀ c ∈ cs, getIdent E c = .CONST ∨ c = '.') :
    lexLoop E (cs ++ rest) ⟨toks, w, .CONST, false, esc⟩ =
      lexLoop E rest ⟨toks, w ++ String.mk cs, .CONST, false, esc⟩ := by
  induction cs generalizing w with
  | nil => simp [str_append_nil]
  | cons c cs ih =>
    simp only [List.cons_append, lexLoop,
      lexStep_const_run E toks w esc c hw (hcs c (List.mem_cons_self c cs))]
    have e := ih _ (str_append_ne w c) (fun d hd => hcs d (List.mem_cons_of_mem c hd))
    rw [str_push_mk] at e
    exact e

theorem lexStep_key_run {F : Type} (E : Go F) (toks : List Token) (w : String) (esc : Bool)
    (c : Char) (hw : w ≠ "") (hc : LetterRune E c) :
    lexStep E ⟨toks, w, .KEY, false, esc⟩ c =
      .ok ⟨toks, w ++ String.singleton c, .KEY, false, esc⟩ := by
  simp [lexStep, tokenPopMap, getIdent_letter E c hc, hw]

/-- In state `KEY` a run of letters extends the current word. -/
theorem lexLoop_key_run {F : Type} (E : Go F) (cs rest : List Char) (toks : List Token)
    (w : String) (esc : Bool) (hw : w ≠ "") (hcs : ∀ c ∈ cs, LetterRune E c) :
    lexLoop E (cs ++ rest) ⟨toks, w, .KEY, false, esc⟩ =
      lexLoop E rest ⟨toks, w ++ String.mk cs, .KEY, false, esc⟩ := by
  induction cs generalizing w with
  | nil => simp [str_append_nil]
  | cons c cs ih =>
    simp only [List.cons_append, lexLoop,
      lexStep_key_run E toks w esc c hw (hcs c (List.mem_cons_self c cs))]
    have e := ih _ (str_append_ne w c) (fun d hd => hcs d (List.mem_cons_of_mem c hd))
    rw [str_push_mk] at e
    exact e

theorem stripFirst_dot (a : String) : stripFirst ("." ++ a) = some a := by
  have h : "." ++ a ≠ "" := by
    intro e
    have := congrArg String.data e
    simp at this
  simp [stripFirst, h]

/-! ## C1: the path `.a.b` -/

theorem Lexer_two_keys {F : Type} (E : Go F) (a b : String)
    (ha : ∀ c ∈ a.data, LetterRune E c) (hb : ∀ c ∈ b.data, LetterRune E c) :
    Lexer E ("." ++ a ++ "." ++ b) = .ok [⟨.KEY, "." ++ a⟩, ⟨.KEY, "." ++ b⟩] := by
  have hd : ("." ++ a ++ "." ++ b).data = '.' :: (a.data ++ ('.' :: (b.data ++ []))) := by simp
  have h1 : lexStep E ⟨[], "", .ZERO, false, false⟩ '.' = .ok ⟨[], ".", .KEY, false, false⟩ := by
    simp [lexStep, getIdent_dot]
    rfl
  have h2 : lexStep E ⟨[], "." ++ a, .KEY, false, false⟩ '.' =
      .ok ⟨[⟨.KEY, "." ++ a⟩], ".", .KEY, false, false⟩ := by
    simp [lexStep, getIdent_dot, tokenPopMap, emitToken]
    rfl
  have hn : ∀ s : String, "." ++ s ≠ "" := by
    intro s e
    have := congrArg String.data e
    simp at this
  rw [Lexer, hd]
  simp only [lexLoop, h1]
  rw [lexLoop_key_run E a.data _ [] "." false (by decide) ha]
  simp only [lexLoop, h2]
  rw [lexLoop_key_run E b.data _ _ "." false (by decide) hb]
  simp [lexLoop, hn]

theorem buildTree_two_keys {F : Type} (E : Go F) (a b : String) :
    buildTree E [⟨.KEY, "." ++ a⟩, ⟨.KEY, "." ++ b⟩] =
      .ok (.mk .ZERO .null [.mk .KEY (.str a) [.mk .KEY (.str b) []]]) := by
  simp only [buildTree, buildLoop, buildStep, itemValue, stripFirst_dot]
  rfl

theorem Parser_two_keys {F : Type} (E : Go F) (a b : String) :
    Parser E [⟨.KEY, "." ++ a⟩, ⟨.KEY, "." ++ b⟩] =
      .ok (.mk .ZERO .null [.mk .KEY (.str a) [.mk .KEY (.str b) []]]) := by
  unfold Parser
  rw [buildTree_two_keys]
  rfl

theorem lookup_absent {F : Type} (kvs : List (String × Value F)) (k : String) :
    hasKey kvs k = false → lookup kvs k = .null := by
  intro h
  induction kvs with
  | nil => rfl
  | cons kv rest ih =>
    obtain ⟨k', v⟩ := kv
    simp only [hasKey, List.any_cons, Bool.or_eq_false_iff, decide_eq_false_iff_not] at h
    simp only [lookup, h.1, if_false]
    exact ih h.2

/-- C1: for field names `a` (not empty) and `b` made of letters and every message
`m` whose entry `m[a]` is a mapping `inner`, evaluating the parsed source `.a.b`
against `m` succeeds and returns `inner[b]`, which is null when `b` is absent. -/
theorem C1_path_two_fields {F : Type} (E : Go F) (a b : String)
    (m inner : List (String × Value F))
    (ha : ∀ c ∈ a.data, LetterRune E c) (hb : ∀ c ∈ b.data, LetterRune E c) (hne : a ≠ "")
    (hma : lookup m a = .map inner) :
    evalString E ("." ++ a ++ "." ++ b) (.map m) = .ok (lookup inner b)
      ∧ (hasKey inner b = false → lookup inner b = .null) := by
  constructor
  · simp [evalString, parseString, Lexer_two_keys E a b ha hb, Parser_two_keys, Result.bind,
      Eval, EvalCustom, evalSubs, getKeyValues, keyLoop, keyStep, hma, hne, TokenTree.value,
      TokenTree.tokens, TokenTree.type]
  · exact lookup_absent inner b

/-- C1, witness: `.a.b` on `{"a":{"b":42}}` returns 42. -/
theorem C1_path_two_fields_witness :
    evalString exactGo ".a.b" (.map [("a", .map [("b", .num 42)])]) = .ok (.num 42) :=
  (C1_path_two_fields exactGo "a" "b" [("a", .map [("b", .num 42)])] [("b", .num 42)]
    (by decide) (by decide) (by decide) (by decide)).1

/-! ## C2: the wildcard path `.items[].price` -/

theorem Lexer_items_price {F : Type} (E : Go F) (hE : AsciiStd E) :
    Lexer E ".items[].price" =
      .ok [⟨.KEY, ".items"⟩, ⟨.K_START, "["⟩, ⟨.K_END, "]"⟩, ⟨.KEY, ".price"⟩] := by
  rw [Lexer_ascii E hE _ (by decide)]
  decide!

theorem Parser_items_price {F : Type} (E : Go F) :
    Parser E [⟨.KEY, ".items"⟩, ⟨.K_START, "["⟩, ⟨.K_END, "]"⟩, ⟨.KEY, ".price"⟩] =
      .ok (.mk .ZERO .null [.mk .KEY (.str "items")
        [.mk .K_START .null [], .mk .KEY (.str "price") []]]) := by
  have hb : buildTree E [⟨.KEY, ".items"⟩, ⟨.K_START, "["⟩, ⟨.K_END, "]"⟩, ⟨.KEY, ".price"⟩] =
      .ok (.mk .ZERO .null [.mk .KEY (.str "items")
        [.mk .K_START .null [], .mk .KEY (.str "price") []]]) := by
    simp only [buildTree, buildLoop, buildStep, itemValue]
    rfl
  unfold Parser
  rw [hb]
  rfl

theorem keyStep_maps {F : Type} (k : String) (items : List (List (String × Value F))) :
    (items.map Value.map).map (keyStep (.str k)) = items.map fun it => lookup it k := by
  simp [List.map_map, Function.comp_def, keyStep]

/-- C2: for every message `m` whose entry `items` is a list of mappings, evaluating
the parsed source `.items[].price` succeeds and returns a list (also when it has one
element) with one element per item, in order: the entry `price` of that item, null
when absent. -/
theorem C2_wildcard_projection {F : Type} (E : Go F) (hE : AsciiStd E)
    (m : List (String × Value F)) (items : List (List (String × Value F)))
    (hitems : lookup m "items" = .list (items.map Value.map)) :
    evalString E ".items[].price" (.map m) = .ok (.list (items.map fun it => lookup it "price"))
      ∧ (items.map fun it => lookup it "price").length = items.length
      ∧ ∀ (k : Nat) (hk : k < items.length),
          (items.map fun it => lookup it "price").get? k = some (lookup (items.get ⟨k, hk⟩) "price") := by
  refine ⟨?_, by simp, ?_⟩
  · simp [evalString, parseString, Lexer_items_price E hE, Parser_items_price, Result.bind,
      Eval, EvalCustom, evalSubs, getKeyValues, keyLoop, hitems, mapResult, spreadStep,
      TokenTree.value, TokenTree.tokens, TokenTree.type, keyStep_maps]
    intro it _
    rfl
  · intro k hk
    simp [List.getElem?_eq_getElem hk]

/-- C2, witness: items priced 1, 2, 3 give `[1, 2, 3]`. -/
theorem C2_wildcard_projection_witness :
    evalString exactGo ".items[].price"
      (.map [("items", .list [.map [("price", .num 1)], .map [("price", .num 2)],
        .map [("price", .num 3)]])]) = .ok (.list [.num 1, .num 2, .num 3]) :=
  (C2_wildcard_projection exactGo asciiStd_exactGo
    [("items", .list [.map [("price", .num 1)], .map [("price", .num 2)],
        .map [("price", .num 3)]])]
    [[("price", .num 1)], [("price", .num 2)], [("price", .num 3)]] rfl).1

/-! ## C3: the computed subscript `.xs[.i]` -/

theorem Lexer_xs_i {F : Type} (E : Go F) (hE : AsciiStd E) :
    Lexer E ".xs[.i]" = .ok [⟨.KEY, ".xs"⟩, ⟨.K_START, "["⟩, ⟨.KEY, ".i"⟩, ⟨.K_END, "]"⟩] := by
  rw [Lexer_ascii E hE _ (by decide)]
  decide!

theorem Parser_xs_i {F : Type} (E : Go F) :
    Parser E [⟨.KEY, ".xs"⟩, ⟨.K_START, "["⟩, ⟨.KEY, ".i"⟩, ⟨.K_END, "]"⟩] =
      .ok (.mk .ZERO .null [.mk .KEY (.str "xs")
        [.mk .K_START .null [.mk .KEY (.str "i") []]]]) := by
  have hb : buildTree E [⟨.KEY, ".xs"⟩, ⟨.K_START, "["⟩, ⟨.KEY, ".i"⟩, ⟨.K_END, "]"⟩] =
      .ok (.mk .ZERO .null [.mk .KEY (.str "xs")
        [.mk .K_START .null [.mk .KEY (.str "i") []]]]) := by
    simp only [buildTree, buildLoop, buildStep, itemValue]
    rfl
  unfold Parser
  rw [hb]
  rfl

/-- The evaluation of `.xs[.i]` is the subscript step for the number `m["i"]` applied
to the list `m["xs"]`: the subscript is read from the whole message. -/
theorem eval_xs_i {F : Type} (E : Go F) (hE : AsciiStd E) (m : List (String × Value F))
    (xs : List (Value F)) (c : F)
    (hxs : lookup m "xs" = .list xs) (hi : lookup m "i" = .num c) :
    evalString E ".xs[.i]" (.map m) = indexStep E c (.list xs) := by
  simp [evalString, parseString, Lexer_xs_i E hE, Parser_xs_i, Result.bind,
    Eval, EvalCustom, evalSubs, getKeyValues, keyLoop, hxs, hi, mapResult,
    TokenTree.value, TokenTree.tokens, TokenTree.type]
  cases indexStep E c (.list xs) <;> rfl

/-- C3: for every message `m` in which `m.xs` is a list and `m.i` is a number that
is the integer `i`, evaluating the freshly parsed source `.xs[.i]` succeeds and
returns the element of index `i` of `xs` when `0 ≤ i < len(xs)`, and null when
`i < 0` or `i ≥ len(xs)`; the subscript is the entry `i` of the whole message. -/
theorem C3_index_subscript {F : Type} (E : Go F) (hE : AsciiStd E)
    (m : List (String × Value F)) (xs : List (Value F)) (c : F) (i : Int)
    (hxs : lookup m "xs" = .list xs) (hi : lookup m "i" = .num c) (hc : IntValued E c i) :
    (∀ (k : Nat) (hk : k < xs.length), i = k →
        evalString E ".xs[.i]" (.map m) = .ok (xs.get ⟨k, hk⟩))
      ∧ ((i < 0 ∨ (xs.length : Int) ≤ i) → evalString E ".xs[.i]" (.map m) = .ok .null) := by
  obtain ⟨hint, hneg⟩ := hc
  rw [eval_xs_i E hE m xs c hxs hi]
  constructor
  · intro k hk hik
    subst hik
    have h0 : ¬ ((k : Int) < 0) := by omega
    have h1 : ¬ ((k : Int) ≥ xs.length) := by omega
    simp [indexStep, hint, hneg, h0, h1, List.getElem?_eq_getElem hk]
  · intro h
    rcases h with h | h
    · simp [indexStep, hint, hneg, h]
    · simp [indexStep, hint, hneg, h]

/-- C3, witness: `.xs[.i]` on `{"xs":["a","b","c"],"i":2}` returns `"c"`. -/
theorem C3_index_subscript_witness :
    evalString exactGo ".xs[.i]"
      (.map [("xs", .list [.str "a", .str "b", .str "c"]), ("i", .num 2)]) = .ok (.str "c") :=
  (C3_index_subscript exactGo asciiStd_exactGo
    [("xs", .list [.str "a", .str "b", .str "c"]), ("i", .num 2)]
    [.str "a", .str "b", .str "c"] 2 2 rfl rfl (by simp [IntValued, exactGo])).1 2 (by decide) rfl

/-! ## C4: the filter `.age >= 18 && .name != "bob"` -/

theorem Lexer_filter {F : Type} (E : Go F) (hE : AsciiStd E) :
    Lexer E ".age >= 18 && .name != \"bob\"" =
      .ok [⟨.KEY, ".age"⟩, ⟨.OP, ">="⟩, ⟨.CONST, "18"⟩, ⟨.OP, "&&"⟩, ⟨.KEY, ".name"⟩,
        ⟨.OP, "!="⟩, ⟨.D_STR, "\"bob\""⟩] := by
  rw [Lexer_ascii E hE _ (by decide)]
  decide!

theorem Parser_filter {F : Type} (E : Go F) :
    Parser E [⟨.KEY, ".age"⟩, ⟨.OP, ">="⟩, ⟨.CONST, "18"⟩, ⟨.OP, "&&"⟩, ⟨.KEY, ".name"⟩,
        ⟨.OP, "!="⟩, ⟨.D_STR, "\"bob\""⟩] =
      .ok (.mk .ZERO .null [.mk .OP (.str "!=")
        [.mk .OP (.str ">=") [.mk .KEY (.str "age") [],
          .mk .OP (.str "&&") [.mk .CONST (constValue E "18") [], .mk .KEY (.str "name") []]],
         .mk .D_STR (.str "bob") []]]) := by
  have hb : buildTree E [⟨.KEY, ".age"⟩, ⟨.OP, ">="⟩, ⟨.CONST, "18"⟩, ⟨.OP, "&&"⟩,
      ⟨.KEY, ".name"⟩, ⟨.OP, "!="⟩, ⟨.D_STR, "\"bob\""⟩] =
      .ok (.mk .ZERO .null [.mk .KEY (.str "age") [], .mk .OP (.str ">=") [],
        .mk .CONST (constValue E "18") [], .mk .OP (.str "&&") [], .mk .KEY (.str "name") [],
        .mk .OP (.str "!=") [], .mk .D_STR (.str "bob") []]) := by
    simp only [buildTree, buildLoop, buildStep, itemValue]
    generalize constValue E "18" = c
    rfl
  unfold Parser
  rw [hb]
  generalize constValue E "18" = c
  rfl

theorem parseString_filter {F : Type} (E : Go F) (hE : AsciiStd E) :
    parseString E ".age >= 18 && .name != \"bob\"" =
      .ok (.mk .ZERO .null [.mk .OP (.str "!=")
        [.mk .OP (.str ">=") [.mk .KEY (.str "age") [],
          .mk .OP (.str "&&") [.mk .CONST (constValue E "18") [], .mk .KEY (.str "name") []]],
         .mk .D_STR (.str "bob") []]]) := by
  simp only [parseString, Lexer_filter E hE, Result.bind]
  exact Parser_filter E

/-- C4, counterexample: on `{"age":21,"name":"alice"}` the evaluation of the parsed
source `.age >= 18 && .name != "bob"` does not return `true`: it returns an error,
because `&&` was folded first and is applied to `18` and `.name`. -/
theorem C4_filter_counterexample :
    evalString exactGo ".age >= 18 && .name != \"bob\""
        (.map [("age", .num 21), ("name", .str "alice")]) =
      .error (.err "cannot compare types: float64, string")
    ∧ evalString exactGo ".age >= 18 && .name != \"bob\""
        (.map [("age", .num 21), ("name", .str "alice")]) ≠ .ok (.bool true) := by
  decide!

/-- C4, amended: for every message with a number field `age` and a string field
`name`, the source `.age >= 18 && .name != "bob"` parses to `!=` with children
[`>=` with children [`.age`, `&&` with children [`18`, `.name`]], `"bob"`], and its
evaluation returns an error. -/
theorem C4_filter_error {F : Type} (E : Go F) (hE : AsciiStd E) (m : List (String × Value F))
    (x : F) (s : String) (hage : lookup m "age" = .num x) (hname : lookup m "name" = .str s) :
    parseString E ".age >= 18 && .name != \"bob\"" =
      .ok (.mk .ZERO .null [.mk .OP (.str "!=")
        [.mk .OP (.str ">=") [.mk .KEY (.str "age") [],
          .mk .OP (.str "&&") [.mk .CONST (constValue E "18") [], .mk .KEY (.str "name") []]],
         .mk .D_STR (.str "bob") []]])
    ∧ (evalString E ".age >= 18 && .name != \"bob\"" (.map m)).isErr = true := by
  have hp := parseString_filter E hE
  refine ⟨hp, ?_⟩
  simp only [evalString, hp, Result.bind, constValue]
  cases E.parseFloat "18" with
  | some f =>
    simp [Eval, EvalCustom, evalSubs, getKeyValues, keyLoop, hage, hname, applyOp,
      Result.isErr, TokenTree.value, TokenTree.tokens]
  | none =>
    simp [Eval, EvalCustom, evalSubs, getKeyValues, keyLoop, hage, hname, applyOp,
      Result.isErr, TokenTree.value, TokenTree.tokens, defaultOpMap, opFuncsString]

/-- C4, amended, witness: the message `{"age":21,"name":"alice"}`. -/
theorem C4_filter_error_witness :
    (evalString exactGo ".age >= 18 && .name != \"bob\""
      (.map [("age", .num 21), ("name", .str "alice")])).isErr = true :=
  (C4_filter_error exactGo asciiStd_exactGo [("age", .num 21), ("name", .str "alice")]
    21 "alice" rfl rfl).2

/-! ## Lexer: number literals separated by operators -/

theorem getIdent_space {F : Type} (E : Go F) (hE : AsciiStd E) : getIdent E ' ' = .SPACE := by
  rw [getIdent_ascii E hE ' ' (by decide)]
  decide

theorem isNumeral_data {F : Type} (E : Go F) (s : String) (h : isNumeral E s = true) :
    ∃ d rest, s.data = d :: rest ∧ getIdent E d = .CONST ∧
      ∀ c ∈ rest, getIdent E c = .CONST ∨ c = '.' := by
  unfold isNumeral at h
  cases hs : s.data with
  | nil => simp [hs] at h
  | cons d rest =>
    simp only [hs, Bool.and_eq_true, decide_eq_true_eq, List.all_eq_true, Bool.or_eq_true] at h
    exact ⟨d, rest, rfl, h.1, h.2⟩

theorem isNumeral_ne {F : Type} (E : Go F) (s : String) (h : isNumeral E s = true) : s ≠ "" := by
  obtain ⟨d, rest, hs, _, _⟩ := isNumeral_data E s h
  intro e
  rw [e] at hs
  simp at hs

theorem singleton_append_mk (d : Char) (rest : List Char) (s : String)
    (hs : s.data = d :: rest) : String.singleton d ++ String.mk rest = s := by
  apply String.ext
  simp [hs]

/-- A number literal met with an empty word in state `ZERO` becomes the current word. -/
theorem lexLoop_numeral_start {F : Type} (E : Go F) (s : String) (h : isNumeral E s = true)
    (rest : List Char) (toks : List Token) (esc : Bool) :
    lexLoop E (s.data ++ rest) ⟨toks, "", .ZERO, false, esc⟩ =
      lexLoop E rest ⟨toks, s, .CONST, false, esc⟩ := by
  obtain ⟨d, r, hs, hd, hr⟩ := isNumeral_data E s h
  have h1 : lexStep E ⟨toks, "", .ZERO, false, esc⟩ d =
      .ok ⟨toks, String.singleton d, .CONST, false, esc⟩ := by
    simp [lexStep, hd]
  rw [hs]
  simp only [List.cons_append, lexLoop, h1]
  have e := lexLoop_const_run E r rest toks (String.singleton d) esc
    (by intro e; have := congrArg String.data e; simp at this) hr
  rw [singleton_append_mk d r s hs] at e
  exact e

/-- A number literal met in state `OP` pops the operator and becomes the current word. -/
theorem lexLoop_numeral_after_op {F : Type} (E : Go F) (s : String) (h : isNumeral E s = true)
    (o : String) (rest : List Char) (toks : List Token) (esc : Bool) :
    lexLoop E (s.data ++ rest) ⟨toks, o, .OP, false, esc⟩ =
      lexLoop E rest ⟨toks ++ [⟨.OP, o⟩], s, .CONST, false, esc⟩ := by
  obtain ⟨d, r, hs, hd, hr⟩ := isNumeral_data E s h
  have hp : tokenPopMap E .OP d o = true := by
    simp only [tokenPopMap, hd]
    split <;> simp
  have h1 : lexStep E ⟨toks, o, .OP, false, esc⟩ d =
      .ok ⟨toks ++ [⟨.OP, o⟩], String.singleton d, .CONST, false, esc⟩ := by
    simp [lexStep, hd, hp, emitToken]
  rw [hs]
  simp only [List.cons_append, lexLoop, h1]
  have e := lexLoop_const_run E r rest (toks ++ [⟨.OP, o⟩]) (String.singleton d) esc
    (by intro e; have := congrArg String.data e; simp at this) hr
  rw [singleton_append_mk d r s hs] at e
  exact e

/-- After a number literal, a blank, a binary operator and a blank pop the literal
and leave the operator as the current word. -/
theorem lexLoop_op_after_numeral {F : Type} (E : Go F) (hE : AsciiStd E) (o : String)
    (ho : o ∈ binOps) (w : String) (rest : List Char) (toks : List Token) (esc : Bool) :
    lexLoop E (' ' :: (o.data ++ ' ' :: rest)) ⟨toks, w, .CONST, false, esc⟩ =
      lexLoop E rest ⟨toks ++ [⟨.CONST, w⟩], o, .OP, false, esc⟩ := by
  have hsp := getIdent_space E hE
  have hop : ∀ c : Char, Ident c = some .OP → getIdent E c = .OP := by
    intro c hc
    simp [getIdent, hc]
  have h1 := hop '&' (by decide)
  have h2 := hop '|' (by decide)
  have h3 := hop '*' (by decide)
  have h4 := hop '/' (by decide)
  have h5 := hop '+' (by decide)
  have h6 := hop '-' (by decide)
  have h7 := hop '=' (by decide)
  have h8 := hop '>' (by decide)
  have h9 := hop '<' (by decide)
  have h10 := hop '!' (by decide)
  simp only [binOps, opClasses, List.flatten, List.append_nil, List.cons_append, List.nil_append,
    List.mem_cons, List.mem_singleton, List.not_mem_nil, or_false] at ho
  rcases ho with h | h | h | h | h | h | h | h | h | h | h | h <;> subst h <;>
    simp [lexLoop, lexStep, hsp, h1, h2, h3, h4, h5, h6, h7, h8, h9, h10, tokenPopMap,
      emitToken] <;> rfl

/-- The lexer on `a o1 b o2 c`: three number literals separated by two binary
operators with blanks around them. -/
theorem Lexer_chain {F : Type} (E : Go F) (hE : AsciiStd E) (sa sb sc o1 o2 : String)
    (ha : isNumeral E sa = true) (hb : isNumeral E sb = true) (hc : isNumeral E sc = true)
    (h1 : o1 ∈ binOps) (h2 : o2 ∈ binOps) :
    Lexer E (sa ++ " " ++ o1 ++ " " ++ sb ++ " " ++ o2 ++ " " ++ sc) =
      .ok [⟨.CONST, sa⟩, ⟨.OP, o1⟩, ⟨.CONST, sb⟩, ⟨.OP, o2⟩, ⟨.CONST, sc⟩] := by
  have hd : (sa ++ " " ++ o1 ++ " " ++ sb ++ " " ++ o2 ++ " " ++ sc).data =
      sa.data ++ (' ' :: (o1.data ++ ' ' :: (sb.data ++ (' ' :: (o2.data ++ ' ' ::
        (sc.data ++ [])))))) := by
    simp
  rw [Lexer, hd, lexLoop_numeral_start E sa ha, lexLoop_op_after_numeral E hE o1 h1,
    lexLoop_numeral_after_op E sb hb, lexLoop_op_after_numeral E hE o2 h2,
    lexLoop_numeral_after_op E sc hc]
  simp [lexLoop, isNumeral_ne E sc hc]

/-! ## Parser: two binary operators between three leaves -/

theorem buildTree_chain {F : Type} (E : Go F) (sa sb sc o1 o2 : String) :
    buildTree E [⟨.CONST, sa⟩, ⟨.OP, o1⟩, ⟨.CONST, sb⟩, ⟨.OP, o2⟩, ⟨.CONST, sc⟩] =
      .ok (rootNode [constLeaf E sa, opNode o1 [], constLeaf E sb, opNode o2 [],
        constLeaf E sc]) := by
  simp only [buildTree, buildLoop, buildStep, itemValue, constLeaf]
  generalize constValue E sa = va
  generalize constValue E sb = vb
  generalize constValue E sc = vc
  rfl

/-- The three later stages of `Parser` on the flat list `a o1 b o2 c`: the operator
whose class is folded by the earlier call of `split` takes its two neighbours
first; within one call the left operator does. -/
theorem fold_chain {F : Type} (va vb vc : Value F) (o1 o2 : String)
    (h1 : o1 ∈ binOps) (h2 : o2 ∈ binOps) :
    ((split .OP ["&&", "||"] (negative (not (rootNode [.mk .CONST va [], opNode o1 [],
        .mk .CONST vb [], opNode o2 [], .mk .CONST vc []])))).bind fun t1 =>
      (split .OP ["*", "/"] t1).bind fun t2 =>
      (split .OP ["+", "-"] t2).bind fun t3 =>
      split .OP ["==", ">=", ">", "<", "<=", "!="] t3) =
    .ok (rootNode [if classIndex o1 ≤ classIndex o2 then
        opNode o2 [opNode o1 [.mk .CONST va [], .mk .CONST vb []], .mk .CONST vc []]
      else opNode o1 [.mk .CONST va [], opNode o2 [.mk .CONST vb [], .mk .CONST vc []]]]) := by
  simp only [binOps, opClasses, List.flatten, List.append_nil, List.cons_append, List.nil_append,
    List.mem_cons, List.mem_singleton, List.not_mem_nil, or_false] at h1 h2
  rcases h1 with h | h | h | h | h | h | h | h | h | h | h | h <;> subst h <;>
    rcases h2 with h | h | h | h | h | h | h | h | h | h | h | h <;> subst h <;> rfl

/-- The parser on `a o1 b o2 c` for number literals and binary operators. -/
theorem parseString_chain {F : Type} (E : Go F) (hE : AsciiStd E) (sa sb sc o1 o2 : String)
    (ha : isNumeral E sa = true) (hb : isNumeral E sb = true) (hc : isNumeral E sc = true)
    (h1 : o1 ∈ binOps) (h2 : o2 ∈ binOps) :
    parseString E (sa ++ " " ++ o1 ++ " " ++ sb ++ " " ++ o2 ++ " " ++ sc) =
      .ok (rootNode [if classIndex o1 ≤ classIndex o2 then
          opNode o2 [opNode o1 [constLeaf E sa, constLeaf E sb], constLeaf E sc]
        else opNode o1 [constLeaf E sa, opNode o2 [constLeaf E sb, constLeaf E sc]]]) := by
  simp only [parseString, Lexer_chain E hE sa sb sc o1 o2 ha hb hc h1 h2, Result.bind, Parser,
    buildTree_chain]
  exact fold_chain _ _ _ o1 o2 h1 h2

theorem constLeaf_num {F : Type} (E : Go F) (s : String) (x : F) (h : E.parseFloat s = some x) :
    constLeaf E s = numLeaf x := by
  simp [constLeaf, numLeaf, constValue, h]

theorem EvalCustom_numLeaf {F : Type} (E : Go F) (om : Option (OpMap F)) (x : F) (msg : Value F) :
    EvalCustom E om (numLeaf x) msg = (.ok (.num x), numLeaf x) := by
  simp [numLeaf, EvalCustom]

/-! ## C5: `*` before `+` -/

theorem parseString_keys_add_mul {F : Type} (E : Go F) (hE : AsciiStd E) :
    parseString E ".a + .b * .c" =
      .ok (rootNode [opNode "+" [keyLeaf "a", opNode "*" [keyLeaf "b", keyLeaf "c"]]]) := by
  have hl : Lexer E ".a + .b * .c" =
      .ok [⟨.KEY, ".a"⟩, ⟨.OP, "+"⟩, ⟨.KEY, ".b"⟩, ⟨.OP, "*"⟩, ⟨.KEY, ".c"⟩] := by
    rw [Lexer_ascii E hE _ (by decide)]
    decide!
  have hb : buildTree E [⟨.KEY, ".a"⟩, ⟨.OP, "+"⟩, ⟨.KEY, ".b"⟩, ⟨.OP, "*"⟩, ⟨.KEY, ".c"⟩] =
      .ok (rootNode [keyLeaf "a", opNode "+" [], keyLeaf "b", opNode "*" [], keyLeaf "c"]) := by
    simp only [buildTree, buildLoop, buildStep, itemValue]
    rfl
  simp only [parseString, hl, Result.bind, Parser, hb]
  rfl

theorem eval_add_mul {F : Type} (E : Go F) (x y z : F) (msg : Value F) :
    Eval E (rootNode [opNode "+" [numLeaf x, opNode "*" [numLeaf y, numLeaf z]]]) msg =
      .ok (.num (E.add x (E.mul y z))) := by
  simp [Eval, EvalCustom, rootNode, opNode, numLeaf, applyOp, defaultOpMap, opFuncsFloat]

/-- C5: the source `.a + .b * .c` parses to a root whose single child is `+` with
children [`.a`, `*` with children [`.b`, `.c`]], and on a message giving the numbers
`x`, `y`, `z` to `a`, `b`, `c` its evaluation returns `x + (y * z)`; the same holds
for three number literals written inline. -/
theorem C5_mul_before_add {F : Type} (E : Go F) (hE : AsciiStd E) :
    parseString E ".a + .b * .c" =
        .ok (rootNode [opNode "+" [keyLeaf "a", opNode "*" [keyLeaf "b", keyLeaf "c"]]])
    ∧ (∀ (m : List (String × Value F)) (x y z : F),
        lookup m "a" = .num x → lookup m "b" = .num y → lookup m "c" = .num z →
        evalString E ".a + .b * .c" (.map m) = .ok (.num (E.add x (E.mul y z))))
    ∧ (∀ (sa sb sc : String) (x y z : F),
        isNumeral E sa = true → isNumeral E sb = true → isNumeral E sc = true →
        E.parseFloat sa = some x → E.parseFloat sb = some y → E.parseFloat sc = some z →
        parseString E (sa ++ " + " ++ sb ++ " * " ++ sc) =
            .ok (rootNode [opNode "+" [numLeaf x, opNode "*" [numLeaf y, numLeaf z]]])
        ∧ ∀ msg : Value F, evalString E (sa ++ " + " ++ sb ++ " * " ++ sc) msg =
            .ok (.num (E.add x (E.mul y z)))) := by
  refine ⟨parseString_keys_add_mul E hE, ?_, ?_⟩
  · intro m x y z ha hb hc
    simp [evalString, parseString_keys_add_mul E hE, Result.bind, Eval, EvalCustom, evalSubs,
      getKeyValues, keyLoop, rootNode, opNode, keyLeaf, ha, hb, hc, applyOp, defaultOpMap,
      opFuncsFloat, TokenTree.value, TokenTree.tokens]
  · intro sa sb sc x y z ha hb hc hx hy hz
    have hs : sa ++ " + " ++ sb ++ " * " ++ sc =
        sa ++ " " ++ "+" ++ " " ++ sb ++ " " ++ "*" ++ " " ++ sc := by
      apply String.ext
      simp
    have hp : parseString E (sa ++ " + " ++ sb ++ " * " ++ sc) =
        .ok (rootNode [opNode "+" [numLeaf x, opNode "*" [numLeaf y, numLeaf z]]]) := by
      rw [hs, parseString_chain E hE sa sb sc "+" "*" ha hb hc (by decide) (by decide),
        constLeaf_num E sa x hx, constLeaf_num E sb y hy, constLeaf_num E sc z hz]
      rfl
    refine ⟨hp, fun msg => ?_⟩
    simp only [evalString, hp, Result.bind]
    exact eval_add_mul E x y z msg

/-- C5, witness: `.a + .b * .c` on `{"a":1,"b":2,"c":3}` returns 7. -/
theorem C5_mul_before_add_witness :
    evalString exactGo ".a + .b * .c" (.map [("a", .num 1), ("b", .num 2), ("c", .num 3)]) =
      .ok (.num 7) := by
  have h := (C5_mul_before_add exactGo asciiStd_exactGo).2.1
    [("a", .num 1), ("b", .num 2), ("c", .num 3)] 1 2 3 rfl rfl rfl
  rw [h]
  norm_num [exactGo]

/-! ## C6: the binding order of the operator classes -/

theorem str_chain_eq (sa sb sc o1 o2 : String) :
    sa ++ (" " ++ o1 ++ " ") ++ sb ++ (" " ++ o2 ++ " ") ++ sc =
      sa ++ " " ++ o1 ++ " " ++ sb ++ " " ++ o2 ++ " " ++ sc := by
  apply String.ext
  simp

/-- C6, counterexample: `1 + 2 == 3` parses to `==` with children [`+`(1, 2), 3],
not to `+` with children [1, `==`(2, 3)]; and `1 && 2 + 3` parses to `+` with
children [`&&`(1, 2), 3], not to `&&` with children [1, `+`(2, 3)]. -/
theorem C6_binding_order_counterexample :
    parseString exactGo "1 + 2 == 3" =
        .ok (rootNode [opNode "==" [opNode "+" [numLeaf 1, numLeaf 2], numLeaf 3]])
    ∧ parseString exactGo "1 + 2 == 3" ≠
        .ok (rootNode [opNode "+" [numLeaf 1, opNode "==" [numLeaf 2, numLeaf 3]]])
    ∧ parseString exactGo "1 && 2 + 3" =
        .ok (rootNode [opNode "+" [opNode "&&" [numLeaf 1, numLeaf 2], numLeaf 3]])
    ∧ parseString exactGo "1 && 2 + 3" ≠
        .ok (rootNode [opNode "&&" [numLeaf 1, opNode "+" [numLeaf 2, numLeaf 3]]]) := by
  decide!

/-- C6, amended: `&&` and `||` bind tighter than `*` and `/`, which bind tighter
than `+` and `-`, which bind tighter than the comparison operators. For number
literals `x`, `y`, `z` and binary operators `o1`, `o2` where the class of `o1` is
folded before the class of `o2`, `x o1 y o2 z` parses as `o2` with children
[`o1`(x, y), z] and `x o2 y o1 z` as `o2` with children [x, `o1`(y, z)]; in particular
`x + y == z` parses as `==` with children [`+`(x, y), z], and `x && y + z` as `+`
with children [`&&`(x, y), z]. -/
theorem C6_binding_order {F : Type} (E : Go F) (hE : AsciiStd E) (sx sy sz : String)
    (hx : isNumeral E sx = true) (hy : isNumeral E sy = true) (hz : isNumeral E sz = true) :
    (∀ o1 o2 : String, o1 ∈ binOps → o2 ∈ binOps → classIndex o1 < classIndex o2 →
      parseString E (sx ++ " " ++ o1 ++ " " ++ sy ++ " " ++ o2 ++ " " ++ sz) =
          .ok (rootNode [opNode o2 [opNode o1 [constLeaf E sx, constLeaf E sy], constLeaf E sz]])
      ∧ parseString E (sx ++ " " ++ o2 ++ " " ++ sy ++ " " ++ o1 ++ " " ++ sz) =
          .ok (rootNode [opNode o2 [constLeaf E sx, opNode o1 [constLeaf E sy, constLeaf E sz]]]))
    ∧ parseString E (sx ++ " + " ++ sy ++ " == " ++ sz) =
        .ok (rootNode [opNode "==" [opNode "+" [constLeaf E sx, constLeaf E sy], constLeaf E sz]])
    ∧ parseString E (sx ++ " && " ++ sy ++ " + " ++ sz) =
        .ok (rootNode [opNode "+" [opNode "&&" [constLeaf E sx, constLeaf E sy],
          constLeaf E sz]]) := by
  refine ⟨?_, ?_, ?_⟩
  · intro o1 o2 h1 h2 hlt
    constructor
    · rw [parseString_chain E hE sx sy sz o1 o2 hx hy hz h1 h2, if_pos (Nat.le_of_lt hlt)]
    · rw [parseString_chain E hE sx sy sz o2 o1 hx hy hz h2 h1, if_neg (Nat.not_le_of_lt hlt)]
  · have h := parseString_chain E hE sx sy sz "+" "==" hx hy hz (by decide) (by decide)
    rw [← str_chain_eq] at h
    exact h
  · have h := parseString_chain E hE sx sy sz "&&" "+" hx hy hz (by decide) (by decide)
    rw [← str_chain_eq] at h
    exact h

/-- C6, amended, witness: the literals 1, 2, 3. -/
theorem C6_binding_order_witness :
    parseString exactGo "1 + 2 == 3" =
      .ok (rootNode [opNode "==" [opNode "+" [constLeaf exactGo "1", constLeaf exactGo "2"],
        constLeaf exactGo "3"]]) :=
  (C6_binding_order exactGo asciiStd_exactGo "1" "2" "3" (by decide) (by decide)
    (by decide)).2.1

/-! ## C7: left-associativity within one class -/

theorem sameClass_index (o1 o2 : String) (h : SameClass o1 o2) :
    o1 ∈ binOps ∧ o2 ∈ binOps ∧ classIndex o1 = classIndex o2 := by
  obtain ⟨K, hK, h1, h2⟩ := h
  simp only [opClasses, List.mem_cons, List.mem_singleton, List.not_mem_nil, or_false] at hK
  rcases hK with rfl | rfl | rfl | rfl <;>
    simp only [List.mem_cons, List.mem_singleton, List.not_mem_nil, or_false] at h1 h2 <;>
    rcases h1 with rfl | rfl | rfl | rfl | rfl | rfl <;>
    rcases h2 with rfl | rfl | rfl | rfl | rfl | rfl <;> decide

theorem eval_sub_sub {F : Type} (E : Go F) (x y z : F) (msg : Value F) :
    Eval E (rootNode [opNode "-" [opNode "-" [numLeaf x, numLeaf y], numLeaf z]]) msg =
      .ok (.num (E.sub (E.sub x y) z)) := by
  simp [Eval, EvalCustom, rootNode, opNode, numLeaf, applyOp, defaultOpMap, opFuncsFloat]

/-- C7: for number literals `a`, `b`, `c` and binary operators `o1`, `o2` of one
class, `a o1 b o2 c` parses to `o2` with children [`o1` with children [a, b], c];
and the evaluation of `x - y - z` returns `(x - y) - z`. -/
theorem C7_left_assoc {F : Type} (E : Go F) (hE : AsciiStd E) (sa sb sc : String)
    (ha : isNumeral E sa = true) (hb : isNumeral E sb = true) (hc : isNumeral E sc = true) :
    (∀ o1 o2 : String, SameClass o1 o2 →
      parseString E (sa ++ " " ++ o1 ++ " " ++ sb ++ " " ++ o2 ++ " " ++ sc) =
        .ok (rootNode [opNode o2 [opNode o1 [constLeaf E sa, constLeaf E sb], constLeaf E sc]]))
    ∧ (∀ (x y z : F) (msg : Value F),
        E.parseFloat sa = some x → E.parseFloat sb = some y → E.parseFloat sc = some z →
        evalString E (sa ++ " - " ++ sb ++ " - " ++ sc) msg =
          .ok (.num (E.sub (E.sub x y) z))) := by
  constructor
  · intro o1 o2 h
    obtain ⟨h1, h2, hi⟩ := sameClass_index o1 o2 h
    rw [parseString_chain E hE sa sb sc o1 o2 ha hb hc h1 h2, if_pos (Nat.le_of_eq hi)]
  · intro x y z msg hx hy hz
    have h := parseString_chain E hE sa sb sc "-" "-" ha hb hc (by decide) (by decide)
    rw [← str_chain_eq, constLeaf_num E sa x hx, constLeaf_num E sb y hy,
      constLeaf_num E sc z hz] at h
    have h' : parseString E (sa ++ " - " ++ sb ++ " - " ++ sc) =
        .ok (rootNode [opNode "-" [opNode "-" [numLeaf x, numLeaf y], numLeaf z]]) := h
    simp only [evalString, h', Result.bind]
    exact eval_sub_sub E x y z msg

/-- C7, witness: the evaluation of `1 - 2 - 3` returns -4. -/
theorem C7_left_assoc_witness :
    evalString exactGo "1 - 2 - 3" (.map []) = .ok (.num (-4)) := by
  have h : evalString exactGo "1 - 2 - 3" (.map []) = _ :=
    (C7_left_assoc exactGo asciiStd_exactGo "1" "2" "3" (by decide) (by decide)
      (by decide)).2 1 2 3 (.map []) (by decide!) (by decide!) (by decide!)
  rw [h]
  norm_num [exactGo]

/-! ## C8: a leading unary minus -/

theorem Lexer_neg_chain {F : Type} (E : Go F) (hE : AsciiStd E) (sa sb sc : String)
    (ha : isNumeral E sa = true) (hb : isNumeral E sb = true) (hc : isNumeral E sc = true) :
    Lexer E ("-" ++ sa ++ " * " ++ sb ++ " + " ++ sc) =
      .ok [⟨.OP, "-"⟩, ⟨.CONST, sa⟩, ⟨.OP, "*"⟩, ⟨.CONST, sb⟩, ⟨.OP, "+"⟩, ⟨.CONST, sc⟩] := by
  have hd : ("-" ++ sa ++ " * " ++ sb ++ " + " ++ sc).data =
      '-' :: (sa.data ++ (' ' :: ("*".data ++ ' ' :: (sb.data ++ (' ' :: ("+".data ++ ' ' ::
        (sc.data ++ []))))))) := by
    simp
  have h0 : lexStep E ⟨[], "", .ZERO, false, false⟩ '-' = .ok ⟨[], "-", .OP, false, false⟩ := by
    have hm : getIdent E '-' = .OP := by simp [getIdent, Ident]
    simp [lexStep, hm]
    rfl
  rw [Lexer, hd]
  simp only [lexLoop, h0]
  rw [lexLoop_numeral_after_op E sa ha, lexLoop_op_after_numeral E hE "*" (by decide),
    lexLoop_numeral_after_op E sb hb, lexLoop_op_after_numeral E hE "+" (by decide),
    lexLoop_numeral_after_op E sc hc]
  simp [lexLoop, isNumeral_ne E sc hc]

theorem Parser_neg_chain {F : Type} (E : Go F) (sa sb sc : String) :
    Parser E [⟨.OP, "-"⟩, ⟨.CONST, sa⟩, ⟨.OP, "*"⟩, ⟨.CONST, sb⟩, ⟨.OP, "+"⟩, ⟨.CONST, sc⟩] =
      .ok (rootNode [opNode "+" [opNode "*" [opNode "-" [constLeaf E sa], constLeaf E sb],
        constLeaf E sc]]) := by
  have hb : buildTree E [⟨.OP, "-"⟩, ⟨.CONST, sa⟩, ⟨.OP, "*"⟩, ⟨.CONST, sb⟩, ⟨.OP, "+"⟩,
      ⟨.CONST, sc⟩] =
      .ok (rootNode [opNode "-" [], constLeaf E sa, opNode "*" [], constLeaf E sb,
        opNode "+" [], constLeaf E sc]) := by
    simp only [buildTree, buildLoop, buildStep, itemValue, constLeaf]
    generalize constValue E sa = va
    generalize constValue E sb = vb
    generalize constValue E sc = vc
    rfl
  simp only [Parser, hb, constLeaf]
  generalize constValue E sa = va
  generalize constValue E sb = vb
  generalize constValue E sc = vc
  rfl

/-- C8: for number literals `a`, `b`, `c`, the source `-a * b + c` parses to `+` with
children [`*` with children [`-` with the single child a, b], c], and its evaluation
returns `((-1 * a) * b) + c`, the product `-1 * a` being what the evaluator computes
for the one-child `-`. -/
theorem C8_leading_minus {F : Type} (E : Go F) (hE : AsciiStd E) (sa sb sc : String)
    (x y z : F)
    (ha : isNumeral E sa = true) (hb : isNumeral E sb = true) (hc : isNumeral E sc = true)
    (hx : E.parseFloat sa = some x) (hy : E.parseFloat sb = some y)
    (hz : E.parseFloat sc = some z) :
    parseString E ("-" ++ sa ++ " * " ++ sb ++ " + " ++ sc) =
        .ok (rootNode [opNode "+" [opNode "*" [opNode "-" [numLeaf x], numLeaf y], numLeaf z]])
    ∧ ∀ msg : Value F, evalString E ("-" ++ sa ++ " * " ++ sb ++ " + " ++ sc) msg =
        .ok (.num (E.add (E.mul (E.mul (E.ofInt (-1)) x) y) z)) := by
  have hp : parseString E ("-" ++ sa ++ " * " ++ sb ++ " + " ++ sc) =
      .ok (rootNode [opNode "+" [opNode "*" [opNode "-" [numLeaf x], numLeaf y],
        numLeaf z]]) := by
    simp only [parseString, Lexer_neg_chain E hE sa sb sc ha hb hc, Result.bind,
      Parser_neg_chain, constLeaf_num E sa x hx, constLeaf_num E sb y hy,
      constLeaf_num E sc z hz]
  refine ⟨hp, fun msg => ?_⟩
  simp [evalString, hp, Result.bind, Eval, EvalCustom, rootNode, opNode, numLeaf, applyOp,
    defaultOpMap, opFuncsFloat]

/-- C8, witness: `-2 * 3 + 4` on `{}` returns -2. -/
theorem C8_leading_minus_witness :
    evalString exactGo "-2 * 3 + 4" (.map []) = .ok (.num (-2)) := by
  have h : evalString exactGo "-2 * 3 + 4" (.map []) = _ :=
    (C8_leading_minus exactGo asciiStd_exactGo "2" "3" "4" 2 3 4 (by decide) (by decide)
      (by decide) (by decide!) (by decide!) (by decide!)).2 (.map [])
  rw [h]
  norm_num [exactGo]

/-! ## C9: `$sum` over a wildcard path -/

theorem Lexer_sum {F : Type} (E : Go F) (hE : AsciiStd E) :
    Lexer E "$sum(.items[].price)" =
      .ok [⟨.FUNC, "$sum"⟩, ⟨.Q_START, "("⟩, ⟨.KEY, ".items"⟩, ⟨.K_START, "["⟩, ⟨.K_END, "]"⟩,
        ⟨.KEY, ".price"⟩, ⟨.Q_END, ")"⟩] := by
  rw [Lexer_ascii E hE _ (by decide)]
  decide!

theorem Parser_sum {F : Type} (E : Go F) :
    Parser E [⟨.FUNC, "$sum"⟩, ⟨.Q_START, "("⟩, ⟨.KEY, ".items"⟩, ⟨.K_START, "["⟩, ⟨.K_END, "]"⟩,
        ⟨.KEY, ".price"⟩, ⟨.Q_END, ")"⟩] =
      .ok (rootNode [.mk .FUNC (.str "$sum") [.mk .KEY (.str "items")
        [.mk .K_START .null [], .mk .KEY (.str "price") []]]]) := by
  have hb : buildTree E [⟨.FUNC, "$sum"⟩, ⟨.Q_START, "("⟩, ⟨.KEY, ".items"⟩, ⟨.K_START, "["⟩,
      ⟨.K_END, "]"⟩, ⟨.KEY, ".price"⟩, ⟨.Q_END, ")"⟩] =
      .ok (rootNode [.mk .FUNC (.str "$sum") [.mk .KEY (.str "items")
        [.mk .K_START .null [], .mk .KEY (.str "price") []]]]) := by
    simp only [buildTree, buildLoop, buildStep, itemValue]
    rfl
  unfold Parser
  rw [hb]
  rfl

/-- The loop of `$sum` on a list of numbers adds them to the running sum in order. -/
theorem sumLoop_nums {F : Type} (E : Go F) (ps : List F) (acc : F) :
    sumLoop E (ps.map Value.num) acc = .ok (ps.foldl E.add acc) := by
  induction ps generalizing acc with
  | nil => rfl
  | cons p ps ih => simp only [List.map, sumLoop, List.foldl, ih]

/-- C9: for every message `m` whose entry `items` is a list of mappings with the
numbers `prices` as their `price` fields, evaluating the parsed source
`$sum(.items[].price)` under the default registry succeeds and returns the prices
added in list order to 0, which is 0 for the empty list. -/
theorem C9_sum_prices {F : Type} (E : Go F) (hE : AsciiStd E) (m : List (String × Value F))
    (items : List (List (String × Value F))) (prices : List F)
    (hitems : lookup m "items" = .list (items.map Value.map))
    (hprices : (items.map fun it => lookup it "price") = prices.map Value.num) :
    evalString E "$sum(.items[].price)" (.map m) = .ok (.num (prices.foldl E.add (E.ofInt 0)))
      ∧ (prices = [] → evalString E "$sum(.items[].price)" (.map m) = .ok (.num (E.ofInt 0))) := by
  have h : evalString E "$sum(.items[].price)" (.map m) =
      .ok (.num (prices.foldl E.add (E.ofInt 0))) := by
    have hk : (items.map Value.map).map (keyStep (.str "price")) = prices.map Value.num := by
      rw [keyStep_maps, hprices]
    simp [evalString, parseString, Lexer_sum E hE, Parser_sum, Result.bind, rootNode,
      Eval, EvalCustom, evalSubs, getKeyValues, keyLoop, hitems, mapResult, spreadStep,
      TokenTree.value, TokenTree.tokens, TokenTree.type, hk, defaultOpMap, unaryFuncs,
      sumLoop_nums]
  refine ⟨h, fun he => ?_⟩
  rw [h, he]
  rfl

/-- C9, witness: prices 1, 2, 3 give 6. -/
theorem C9_sum_prices_witness :
    evalString exactGo "$sum(.items[].price)"
      (.map [("items", .list [.map [("price", .num 1)], .map [("price", .num 2)],
        .map [("price", .num 3)]])]) = .ok (.num 6) := by
  have h := (C9_sum_prices exactGo asciiStd_exactGo
    [("items", .list [.map [("price", .num 1)], .map [("price", .num 2)],
        .map [("price", .num 3)]])]
    [[("price", .num 1)], [("price", .num 2)], [("price", .num 3)]] [1, 2, 3] rfl rfl).1
  rw [h]
  norm_num [exactGo]

/-! ## C10: operands of different shapes -/

/-- A nil registry stands for the default one. -/
theorem EvalCustom_none {F : Type} (E : Go F) (t : TokenTree F) (msg : Value F) :
    EvalCustom E none t msg = EvalCustom E (some (defaultOpMap E)) t msg := by
  cases t with
  | mk ty v toks =>
    unfold EvalCustom
    rfl

/-- The evaluation of a two-child `OP` whose operands evaluate to `x` and `y` is the
type switch on `x` and `y`. -/
theorem Eval_binary {F : Type} (E : Go F) (op : String) (a b : TokenTree F) (msg x y : Value F)
    (ha : Eval E a msg = .ok x) (hb : Eval E b msg = .ok y) :
    Eval E (opNode op [a, b]) msg = applyOp (defaultOpMap E) op x y := by
  simp only [Eval, EvalCustom_none] at ha hb
  rcases h1 : EvalCustom E (some (defaultOpMap E)) a msg with ⟨r1, a1⟩
  rcases h2 : EvalCustom E (some (defaultOpMap E)) b msg with ⟨r2, b1⟩
  rw [h1] at ha
  rw [h2] at hb
  simp only at ha hb
  subst ha
  subst hb
  simp only [Eval, opNode, EvalCustom, h1, h2]

theorem opFuncsNil_other {F : Type} (E : Go F) (op : String) (h1 : op ≠ "==") (h2 : op ≠ "!=") :
    opFuncsNil E op = none := by
  unfold opFuncsNil
  split
  · exact absurd rfl h1
  · exact absurd rfl h2
  · rfl

/-- C10: for a two-child `OP` node evaluated under the default registry whose
operands evaluate without error to values of different runtime shapes, `Eval`
returns `false` for `==`, `true` for `!=`, and an error for every other operator
symbol. -/
theorem C10_shape_mismatch {F : Type} (E : Go F) (op : String) (a b : TokenTree F)
    (msg x y : Value F) (ha : Eval E a msg = .ok x) (hb : Eval E b msg = .ok y)
    (hxy : x.shape ≠ y.shape) :
    (op = "==" → Eval E (opNode op [a, b]) msg = .ok (.bool false))
    ∧ (op = "!=" → Eval E (opNode op [a, b]) msg = .ok (.bool true))
    ∧ (op ≠ "==" → op ≠ "!=" → (Eval E (opNode op [a, b]) msg).isErr = true) := by
  rw [Eval_binary E op a b msg x y ha hb]
  refine ⟨?_, ?_, ?_⟩
  · intro h
    subst h
    cases x <;> cases y <;>
      simp [applyOp, defaultOpMap, opFuncsNil, deepEqual, Value.shape] at hxy ⊢
  · intro h
    subst h
    cases x <;> cases y <;>
      simp [applyOp, defaultOpMap, opFuncsNil, ifaceNe, Value.shape] at hxy ⊢
  · intro h1 h2
    cases x <;> cases y <;>
      simp [applyOp, defaultOpMap, opFuncsNil_other E op h1 h2, Result.isErr, h1,
        h2, Value.shape] at hxy ⊢

/-- C10, witness: the number 1 compared with the string `a`. -/
theorem C10_shape_mismatch_witness :
    Eval exactGo (opNode "==" [numLeaf 1, .mk .D_STR (.str "a") []]) (.map []) = .ok (.bool false)
    ∧ Eval exactGo (opNode "!=" [numLeaf 1, .mk .D_STR (.str "a") []]) (.map []) = .ok (.bool true)
    ∧ (Eval exactGo (opNode "+" [numLeaf 1, .mk .D_STR (.str "a") []]) (.map [])).isErr = true :=
  ⟨(C10_shape_mismatch exactGo "==" (numLeaf 1) (.mk .D_STR (.str "a") []) (.map []) (.num 1)
      (.str "a") rfl rfl (by decide)).1 rfl,
   (C10_shape_mismatch exactGo "!=" (numLeaf 1) (.mk .D_STR (.str "a") []) (.map []) (.num 1)
      (.str "a") rfl rfl (by decide)).2.1 rfl,
   (C10_shape_mismatch exactGo "+" (numLeaf 1) (.mk .D_STR (.str "a") []) (.map []) (.num 1)
      (.str "a") rfl rfl (by decide)).2.2 (by decide) (by decide)⟩

/-! ## C11: a failed assertion in the `KEY` step -/

/-- C11, the code at the failing input: on `{"a":1}` the parsed sources `.a.b` and
`.a["b"]` both evaluate to null without an error. The `KEY` step of `getKeyValues`
builds the error of a failed type assertion and drops it, and `EvalCustom` sends a
string subscript to that step. -/
theorem C11_dropped_assertion :
    evalString exactGo ".a.b" (.map [("a", .num 1)]) = .ok .null
    ∧ evalString exactGo ".a[\"b\"]" (.map [("a", .num 1)]) = .ok .null := by
  decide!

/-! ## C13: unbalanced brackets -/

/-- C13, the code at the failing input: the source `.a] + .c[`, whose `]` has no
opener and whose `[` is never closed, is accepted by `Parser`: the counter
`knested` goes to -1 and back to 0, and only its final value is tested. -/
theorem C13_unbalanced_accepted :
    Lexer exactGo ".a] + .c[" =
      .ok [⟨.KEY, ".a"⟩, ⟨.K_END, "]"⟩, ⟨.OP, "+"⟩, ⟨.KEY, ".c"⟩, ⟨.K_START, "["⟩]
    ∧ Parser exactGo [⟨.KEY, ".a"⟩, ⟨.K_END, "]"⟩, ⟨.OP, "+"⟩, ⟨.KEY, ".c"⟩, ⟨.K_START, "["⟩] =
      .ok (rootNode [opNode "+" [keyLeaf "a",
        .mk .KEY (.str "c") [.mk .K_START .null []]]]) := by
  decide!

/-! ## C19: `$~bool` -/

/-- C19, the claim as written fails: `$~bool` of the empty mapping is `true`, also
through `Eval`; the `map` case of its type switch returns `true` for every mapping,
while the empty list gives `false`. -/
theorem C19_empty_map_true :
    (unaryFuncs exactGo "$~bool").map (fun f => f (.map [])) = some (.ok (.bool true))
    ∧ evalString exactGo "$~bool(.m)" (.map [("m", .map [])]) = .ok (.bool true)
    ∧ evalString exactGo "$~bool(.m)" (.map [("m", .list [])]) = .ok (.bool false) := by
  decide!

theorem utf8ByteSize_pos_iff (s : String) : (decide (s.utf8ByteSize > 0)) = (s != "") := by
  rcases s with ⟨data⟩
  cases data with
  | nil => rfl
  | cons c cs =>
    have h1 : (String.mk (c :: cs)).utf8ByteSize > 0 := by
      simp only [String.utf8ByteSize, String.utf8ByteSize.go]
      have := Char.utf8Size_pos c
      omega
    have h2 : (String.mk (c :: cs) != "") = true := by
      rw [bne_iff_ne]
      intro h
      have := congrArg String.data h
      simp at this
    rw [h2]
    simpa using h1

/-- C19, amended: `$~bool` is in the default unary table, never returns an error,
and returns true exactly for a non-empty list, any mapping (the empty one
included), a non-empty string, a number that is not NaN and is greater than zero,
and the boolean true; for every other argument it returns false. -/
theorem C19_loose_bool {F : Type} (E : Go F) :
    ∃ f, unaryFuncs E "$~bool" = some f ∧ ∀ v : Value F, f v = .ok (.bool (truthy E v)) := by
  refine ⟨_, rfl, fun v => ?_⟩
  cases v with
  | list l => cases l <;> simp [truthy]
  | map m => rfl
  | str s => simp only [truthy, utf8ByteSize_pos_iff]
  | num x =>
    simp only [truthy]
    cases E.isNaN x <;> simp
  | bool b => rfl
  | null => rfl
  | int i => rfl

/-! ## Lexer: the loop body in two parts -/

/-- The loop body of `Lexer`: the three guards, then the `switch`, then the final
`if`. -/
theorem lexStep_eq {F : Type} (E : Go F) (st : LexState) (r : Char) :
    lexStep E st r =
      if getIdent E r = .SPACE && !(st.state = .D_STR || st.state = .S_STR) then .ok st
      else if getIdent E r = .ESC && (st.state = .D_STR || st.state = .S_STR) then
        .ok { st with escaped := true }
      else if getIdent E r = .ZERO && !(st.state = .D_STR || st.state = .S_STR) then
        .error (.err ("unexpected token: " ++ String.singleton r))
      else lexTail E (lexSwitch E st r) r := by
  rfl

theorem lexSwitch_state {F : Type} (E : Go F) (st : LexState) (r : Char) :
    (lexSwitch E st r).state = st.state := by
  unfold lexSwitch
  split <;> (try split_ifs) <;> rfl

theorem lexTail_state {F : Type} (E : Go F) (st1 : LexState) (r : Char) :
    ∃ st2, lexTail E st1 r = .ok st2 ∧
      (st2.state = st1.state ∨ st2.state = getIdent E r ∨ st2.state = .ZERO) := by
  unfold lexTail
  split_ifs
  · exact ⟨_, rfl, Or.inr (Or.inl rfl)⟩
  · exact ⟨_, rfl, Or.inl rfl⟩
  · exact ⟨_, rfl, Or.inr (Or.inr rfl)⟩

/-! ## C12: dispatch of a `FUNC` node -/

theorem Eval_default {F : Type} (E : Go F) (t : TokenTree F) (msg : Value F) :
    Eval E t msg = (EvalCustom E (some (defaultOpMap E)) t msg).1 := by
  rw [Eval, EvalCustom_none]

theorem bind_noFunc_ne_ok {α β : Type} (r : Result α) (name : String) (v : β) :
    (r.bind fun _ => (noFunc name : Result β)) ≠ .ok v := by
  cases r <;> simp [Result.bind, noFunc]

/-- C12: for a `FUNC` node named `name` with `n` children, evaluated under the
default registry: if `n` is not 0, 1 or 3 the result is the error `func does not
exist or wrong num of arguments`; for `n = 0` it is the nullary entry of `name`;
for `n = 1` child 0 is evaluated and the unary entry is applied to its value; for
`n = 3` children 0 and 2 are evaluated, child 1 is skipped, and the binary entry is
applied to the two values. A failing argument makes the call fail with that
failure. When the table of the arity has no entry `name` the call never returns a
value: it returns the error `func does not exist or wrong num of arguments` once
the arguments have evaluated. -/
theorem C12_func_dispatch {F : Type} (E : Go F) (name : String) (msg : Value F) :
    (∀ toks : List (TokenTree F), toks.length ≠ 0 → toks.length ≠ 1 → toks.length ≠ 3 →
      Eval E (.mk .FUNC (.str name) toks) msg = noFunc name)
    ∧ Eval E (.mk .FUNC (.str name) []) msg =
        (match nullaryFuncs E name with
          | some f => f
          | none => noFunc name)
    ∧ (∀ a : TokenTree F, Eval E (.mk .FUNC (.str name) [a]) msg =
        (Eval E a msg).bind fun va =>
          match unaryFuncs E name with
          | some f => f va
          | none => noFunc name)
    ∧ (∀ a n b : TokenTree F, Eval E (.mk .FUNC (.str name) [a, n, b]) msg =
        (Eval E a msg).bind fun va => (Eval E b msg).bind fun vb =>
          match binaryFuncs E name with
          | some f => f va vb
          | none => noFunc name)
    ∧ (nullaryFuncs E name = none →
        (Eval E (.mk .FUNC (.str name) []) msg).isErr = true)
    ∧ (unaryFuncs E name = none → ∀ (a : TokenTree F) (v : Value F),
        Eval E (.mk .FUNC (.str name) [a]) msg ≠ .ok v)
    ∧ (binaryFuncs E name = none → ∀ (a n b : TokenTree F) (v : Value F),
        Eval E (.mk .FUNC (.str name) [a, n, b]) msg ≠ .ok v) := by
  have h0 : Eval E (.mk .FUNC (.str name) []) msg =
      (match nullaryFuncs E name with
        | some f => f
        | none => noFunc name) := by
    simp only [Eval, EvalCustom, defaultOpMap]
    cases nullaryFuncs E name <;> rfl
  have h1 : ∀ a : TokenTree F, Eval E (.mk .FUNC (.str name) [a]) msg =
      (Eval E a msg).bind fun va =>
        match unaryFuncs E name with
        | some f => f va
        | none => noFunc name := by
    intro a
    rw [Eval_default E a]
    simp only [Eval, EvalCustom]
    generalize EvalCustom E (some (defaultOpMap E)) a msg = p
    rcases p with ⟨r, a1⟩
    cases r with
    | error e => rfl
    | ok va =>
      simp only [defaultOpMap, Result.bind]
      cases unaryFuncs E name <;> rfl
  have h3 : ∀ a n b : TokenTree F, Eval E (.mk .FUNC (.str name) [a, n, b]) msg =
      (Eval E a msg).bind fun va => (Eval E b msg).bind fun vb =>
        match binaryFuncs E name with
        | some f => f va vb
        | none => noFunc name := by
    intro a n b
    rw [Eval_default E a, Eval_default E b]
    simp only [Eval, EvalCustom]
    generalize EvalCustom E (some (defaultOpMap E)) a msg = p
    generalize EvalCustom E (some (defaultOpMap E)) b msg = q
    rcases p with ⟨ra, a1⟩
    rcases q with ⟨rb, b1⟩
    cases ra with
    | error e => rfl
    | ok va =>
      cases rb with
      | error e => rfl
      | ok vb =>
        simp only [defaultOpMap, Result.bind]
        cases binaryFuncs E name <;> rfl
  refine ⟨?_, h0, h1, h3, ?_, ?_, ?_⟩
  · intro toks n0 n1 n3
    match toks, n0, n1, n3 with
    | [], n0, _, _ => exact absurd rfl n0
    | [_], _, n1, _ => exact absurd rfl n1
    | [_, _], _, _, _ => simp [Eval, EvalCustom]
    | [_, _, _], _, _, n3 => exact absurd rfl n3
    | _ :: _ :: _ :: _ :: _, _, _, _ => simp [Eval, EvalCustom]
  · intro hn
    rw [h0, hn]
    rfl
  · intro hn a v
    rw [h1 a, hn]
    exact bind_noFunc_ne_ok _ name v
  · intro hn a n b v
    rw [h3 a n b, hn]
    cases Eval E a msg with
    | error e => simp [Result.bind]
    | ok va => exact bind_noFunc_ne_ok _ name v

/-- C12, witness: `$len` has a unary entry, `$nosuch` has none, and two arguments
separated by nothing give 2 children. -/
theorem C12_func_dispatch_witness :
    Eval exactGo (.mk .FUNC (.str "$len") [numLeaf 1, numLeaf 2]) (.map []) = noFunc "$len"
    ∧ (Eval exactGo (.mk .FUNC (.str "$nosuch") []) (.map [])).isErr = true :=
  ⟨(C12_func_dispatch exactGo "$len" (.map [])).1 [numLeaf 1, numLeaf 2] (by decide)
      (by decide) (by decide),
   (C12_func_dispatch exactGo "$nosuch" (.map [])).2.2.2.2.1 (by decide)⟩

/-! ## C14: when the lexer fails -/

theorem lexStep_ok_of_not_zero {F : Type} (E : Go F) (st : LexState) (c : Char)
    (h : getIdent E c ≠ .ZERO) : ∃ st1, lexStep E st c = .ok st1 := by
  rw [lexStep_eq]
  obtain ⟨st2, h2, _⟩ := lexTail_state E (lexSwitch E st c) c
  simp only [h, decide_False, Bool.false_and, h2]
  split_ifs
  all_goals first
    | contradiction
    | exact ⟨_, rfl⟩

theorem lexLoop_ok_of_not_zero {F : Type} (E : Go F) (cs : List Char) (st : LexState)
    (h : ∀ c ∈ cs, getIdent E c ≠ .ZERO) : ∃ st1, lexLoop E cs st = .ok st1 := by
  induction cs generalizing st with
  | nil => exact ⟨st, rfl⟩
  | cons c cs ih =>
    obtain ⟨st1, h1⟩ := lexStep_ok_of_not_zero E st c (h c (List.mem_cons_self c cs))
    simp only [lexLoop, h1]
    exact ih st1 (fun d hd => h d (List.mem_cons_of_mem c hd))

theorem ite_ne_of_ne {α : Type} {p : Prop} [Decidable p] {a b x : α} (ha : a ≠ x)
    (hb : b ≠ x) : (if p then a else b) ≠ x := by
  split <;> assumption

theorem Ident_ne_string (c : Char) (h1 : c ≠ dquote) (h2 : c ≠ squote) :
    Ident c ≠ some .D_STR ∧ Ident c ≠ some .S_STR := by
  unfold Ident
  rw [if_neg h1, if_neg h2]
  constructor <;>
    exact ite_ne_of_ne (by decide) (ite_ne_of_ne (by decide) (ite_ne_of_ne (by decide)
      (ite_ne_of_ne (by decide) (ite_ne_of_ne (by decide) (ite_ne_of_ne (by decide)
      (ite_ne_of_ne (by decide) (ite_ne_of_ne (by decide) (ite_ne_of_ne (by decide)
      (by decide)))))))))

theorem getIdent_string_kind {F : Type} (E : Go F) (c : Char)
    (h : getIdent E c = .D_STR ∨ getIdent E c = .S_STR) : c = dquote ∨ c = squote := by
  by_cases h1 : c = dquote
  · exact Or.inl h1
  by_cases h2 : c = squote
  · exact Or.inr h2
  exfalso
  have hi := Ident_ne_string c h1 h2
  unfold getIdent at h
  cases hI : Ident c with
  | some i =>
    rw [hI] at h hi
    rcases h with h | h
    · exact hi.1 (congrArg some h)
    · exact hi.2 (congrArg some h)
  | none =>
    rw [hI] at h
    simp only at h
    split_ifs at h <;> rcases h with h | h <;> cases h

theorem lexStep_zero {F : Type} (E : Go F) (st : LexState) (c : Char)
    (hc : getIdent E c = .ZERO) (h1 : st.state ≠ .D_STR) (h2 : st.state ≠ .S_STR) :
    lexStep E st c = .error (.err ("unexpected token: " ++ String.singleton c)) := by
  rw [lexStep_eq]
  simp [hc, h1, h2]

/-- Outside a string literal, a rune that is not a quote leaves the lexer outside a
string literal. -/
theorem lexStep_state {F : Type} (E : Go F) (st st1 : LexState) (c : Char)
    (hq : c ≠ dquote ∧ c ≠ squote) (h1 : st.state ≠ .D_STR) (h2 : st.state ≠ .S_STR)
    (hs : lexStep E st c = .ok st1) : st1.state ≠ .D_STR ∧ st1.state ≠ .S_STR := by
  have hk : getIdent E c ≠ .D_STR ∧ getIdent E c ≠ .S_STR := by
    constructor
    · intro h
      rcases getIdent_string_kind E c (Or.inl h) with h | h
      · exact hq.1 h
      · exact hq.2 h
    · intro h
      rcases getIdent_string_kind E c (Or.inr h) with h | h
      · exact hq.1 h
      · exact hq.2 h
  rw [lexStep_eq] at hs
  obtain ⟨st2, ht, hst⟩ := lexTail_state E (lexSwitch E st c) c
  rw [lexSwitch_state] at hst
  simp only [h1, h2, decide_False, Bool.or_self, Bool.not_false, Bool.and_true,
    Bool.and_false, ht] at hs
  split_ifs at hs
  all_goals first
    | contradiction
    | (cases hs
       exact ⟨h1, h2⟩)
    | (cases hs
       rcases hst with h | h | h
       · rw [h]
         exact ⟨h1, h2⟩
       · rw [h]
         exact hk
       · rw [h]
         exact ⟨by decide, by decide⟩)

theorem lexLoop_error_of_zero {F : Type} (E : Go F) (cs : List Char) (st : LexState)
    (hq : ∀ c ∈ cs, c ≠ dquote ∧ c ≠ squote) (hz : ∃ c ∈ cs, getIdent E c = .ZERO)
    (h1 : st.state ≠ .D_STR) (h2 : st.state ≠ .S_STR) :
    ∃ msg, lexLoop E cs st = .error (.err msg) := by
  induction cs generalizing st with
  | nil =>
    obtain ⟨c, hc, _⟩ := hz
    cases hc
  | cons c cs ih =>
    by_cases hc : getIdent E c = .ZERO
    · refine ⟨"unexpected token: " ++ String.singleton c, ?_⟩
      simp only [lexLoop, lexStep_zero E st c hc h1 h2]
    · obtain ⟨st1, hs⟩ := lexStep_ok_of_not_zero E st c hc
      have hst := lexStep_state E st st1 c (hq c (List.mem_cons_self c cs)) h1 h2 hs
      simp only [lexLoop, hs]
      refine ih st1 (fun d hd => hq d (List.mem_cons_of_mem c hd)) ?_ hst.1 hst.2
      obtain ⟨d, hd, hdz⟩ := hz
      rcases List.mem_cons.mp hd with rfl | hd'
      · exact absurd hdz hc
      · exact ⟨d, hd', hdz⟩

/-- C14: for every input in which no rune classifies as `ZERO`, `Lexer` returns a
token sequence and no error; for every input that contains no quote character and
at least one rune classified `ZERO`, `Lexer` returns an error and no tokens. -/
theorem C14_lexer_failure {F : Type} (E : Go F) (s : String) :
    ((∀ c ∈ s.data, getIdent E c ≠ .ZERO) → ∃ toks, Lexer E s = .ok toks)
    ∧ ((∀ c ∈ s.data, c ≠ dquote ∧ c ≠ squote) → (∃ c ∈ s.data, getIdent E c = .ZERO) →
        (Lexer E s).isErr = true) := by
  constructor
  · intro h
    obtain ⟨st, hst⟩ := lexLoop_ok_of_not_zero E s.data ⟨[], "", .ZERO, false, false⟩ h
    simp only [Lexer, hst]
    split_ifs <;> exact ⟨_, rfl⟩
  · intro hq hz
    obtain ⟨msg, hm⟩ := lexLoop_error_of_zero E s.data ⟨[], "", .ZERO, false, false⟩ hq hz
      (by decide) (by decide)
    simp only [Lexer, hm]
    rfl

/-- C14, witness: `1 + 2` is lexed; `1` followed by the control rune U+0001 is not. -/
theorem C14_lexer_failure_witness :
    (∃ toks, Lexer exactGo "1 + 2" = .ok toks)
    ∧ (Lexer exactGo (String.mk ['1', Char.ofNat 1])).isErr = true :=
  ⟨(C14_lexer_failure exactGo "1 + 2").1 (by decide),
   (C14_lexer_failure exactGo (String.mk ['1', Char.ofNat 1])).2 (by decide)
     ⟨Char.ofNat 1, by decide, by decide⟩⟩

/-! ## Evaluator: the rewriting of subscript nodes -/

/-- Evaluating again the subscripts that an evaluation has rewritten changes
nothing, if that holds for the first child of every subscript. -/
theorem evalSubs_idem {F : Type} (E : Go F) (om : OpMap F) (msg : Value F)
    (subs : List (TokenTree F))
    (hc : ∀ sub ∈ subs, ∀ c ∈ sub.tokens,
      EvalCustom E (some om) (EvalCustom E (some om) c msg).2 msg =
        EvalCustom E (some om) c msg) :
    evalSubs E (some om) (evalSubs E (some om) subs msg).2 msg =
      evalSubs E (some om) subs msg := by
  induction subs with
  | nil => rfl
  | cons sub rest ih =>
    have ihr := ih (fun s hs c hcs => hc s (List.mem_cons_of_mem sub hs) c hcs)
    rcases sub with ⟨sty, sv, toks⟩
    cases toks with
    | nil =>
      simp only [evalSubs]
      rw [ihr]
    | cons c cs =>
      have h1 := hc (.mk sty sv (c :: cs)) (List.mem_cons_self _ _) c
        (by simp [TokenTree.tokens])
      simp only [evalSubs]
      rcases hce : EvalCustom E (some om) c msg with ⟨r, c1⟩
      rw [hce] at h1
      simp only at h1
      cases r with
      | error e =>
        simp only [evalSubs, h1]
      | ok key =>
        simp only [evalSubs]
        rw [ihr]


theorem EvalCustom_idem_op {F : Type} (E : Go F) (om : OpMap F) (msg : Value F) (v : Value F)
    (toks : List (TokenTree F))
    (hchild : ∀ c ∈ toks,
      EvalCustom E (some om) (EvalCustom E (some om) c msg).2 msg =
        EvalCustom E (some om) c msg) :
    EvalCustom E (some om) (EvalCustom E (some om) (.mk .OP v toks) msg).2 msg =
      EvalCustom E (some om) (.mk .OP v toks) msg := by
  cases v with
  | str tv =>
    match toks, hchild with
    | [], _ => simp only [EvalCustom]
    | [c], hchild =>
      have hc := hchild c (by simp)
      rcases he : EvalCustom E (some om) c msg with ⟨r, c1⟩
      rw [he] at hc
      simp only at hc
      by_cases h1 : tv = "-"
      · subst h1
        cases r with
        | error e => simp [EvalCustom, he, hc]
        | ok x => cases x <;> simp [EvalCustom, he, hc]
      · by_cases h2 : tv = "!"
        · subst h2
          cases r with
          | error e => simp [EvalCustom, he, hc]
          | ok x => cases x <;> simp [EvalCustom, he, hc]
        · simp [EvalCustom, h1, h2]
    | [a, b], hchild =>
      have ha := hchild a (by simp)
      have hb := hchild b (by simp)
      rcases hea : EvalCustom E (some om) a msg with ⟨ra, a1⟩
      rcases heb : EvalCustom E (some om) b msg with ⟨rb, b1⟩
      rw [hea] at ha
      rw [heb] at hb
      simp only at ha hb
      simp only [EvalCustom, hea]
      cases ra with
      | error e => simp only [EvalCustom, ha]
      | ok va =>
        simp only [heb]
        cases rb with
        | error e => simp only [EvalCustom, ha, hb]
        | ok vb => simp only [EvalCustom, ha, hb]
    | _ :: _ :: _ :: _, _ => simp only [EvalCustom]
  | null => simp only [EvalCustom]
  | bool _ => simp only [EvalCustom]
  | num _ => simp only [EvalCustom]
  | list _ => simp only [EvalCustom]
  | map _ => simp only [EvalCustom]
  | int _ => simp only [EvalCustom]


theorem EvalCustom_idem_func {F : Type} (E : Go F) (om : OpMap F) (msg : Value F) (v : Value F)
    (toks : List (TokenTree F))
    (hchild : ∀ c ∈ toks,
      EvalCustom E (some om) (EvalCustom E (some om) c msg).2 msg =
        EvalCustom E (some om) c msg) :
    EvalCustom E (some om) (EvalCustom E (some om) (.mk .FUNC v toks) msg).2 msg =
      EvalCustom E (some om) (.mk .FUNC v toks) msg := by
  cases v with
  | str tv =>
    match toks, hchild with
    | [], _ =>
      rcases h : om.nullary tv with _ | f <;> simp [EvalCustom, h]
    | [a], hchild =>
      have ha := hchild a (by simp)
      rcases hea : EvalCustom E (some om) a msg with ⟨ra, a1⟩
      rw [hea] at ha
      simp only at ha
      cases ra with
      | error e => simp [EvalCustom, hea, ha]
      | ok va => rcases h : om.unary tv with _ | f <;> simp [EvalCustom, hea, ha, h]
    | [_, _], _ => simp only [EvalCustom]
    | [a, n, b], hchild =>
      have ha := hchild a (by simp)
      have hb := hchild b (by simp)
      rcases hea : EvalCustom E (some om) a msg with ⟨ra, a1⟩
      rcases heb : EvalCustom E (some om) b msg with ⟨rb, b1⟩
      rw [hea] at ha
      rw [heb] at hb
      simp only at ha hb
      cases ra with
      | error e => simp [EvalCustom, hea, ha]
      | ok va =>
        cases rb with
        | error e => simp [EvalCustom, hea, heb, ha, hb]
        | ok vb => rcases h : om.binary tv with _ | f <;> simp [EvalCustom, hea, heb, ha, hb, h]
    | _ :: _ :: _ :: _ :: _, _ => simp only [EvalCustom]
  | null => simp only [EvalCustom]
  | bool _ => simp only [EvalCustom]
  | num _ => simp only [EvalCustom]
  | list _ => simp only [EvalCustom]
  | map _ => simp only [EvalCustom]
  | int _ => simp only [EvalCustom]

/-- The kinds that `EvalCustom` evaluates by descending into the first child. -/
theorem EvalCustom_idem_first {F : Type} (E : Go F) (om : OpMap F) (msg : Value F) (ty : Kind)
    (v : Value F) (toks : List (TokenTree F))
    (hty : ty ≠ .OP ∧ ty ≠ .KEY ∧ ty ≠ .FUNC ∧ ty ≠ .S_STR ∧ ty ≠ .D_STR ∧ ty ≠ .CONST
      ∧ ty ≠ .RESERVED)
    (hchild : ∀ c ∈ toks,
      EvalCustom E (some om) (EvalCustom E (some om) c msg).2 msg =
        EvalCustom E (some om) c msg) :
    EvalCustom E (some om) (EvalCustom E (some om) (.mk ty v toks) msg).2 msg =
      EvalCustom E (some om) (.mk ty v toks) msg := by
  match toks, hchild with
  | [], _ => cases ty <;> simp_all [EvalCustom]
  | c :: rest, hchild =>
    have hc := hchild c (by simp)
    rcases hec : EvalCustom E (some om) c msg with ⟨r, c1⟩
    rw [hec] at hc
    simp only at hc
    cases ty <;> simp_all [EvalCustom]

/-- Evaluating a tree that an evaluation against the same message has left gives
the same result and leaves the tree as it is. -/
theorem EvalCustom_idem_sized {F : Type} (E : Go F) (om : OpMap F) (msg : Value F) :
    ∀ (n : Nat) (t : TokenTree F), sizeOf t < n →
      EvalCustom E (some om) (EvalCustom E (some om) t msg).2 msg =
        EvalCustom E (some om) t msg := by
  intro n
  induction n with
  | zero => intro t h; omega
  | succ n ih =>
    intro t hn
    rcases t with ⟨ty, v, toks⟩
    have hchild : ∀ c ∈ toks,
        EvalCustom E (some om) (EvalCustom E (some om) c msg).2 msg =
          EvalCustom E (some om) c msg := by
      intro c hc
      apply ih
      have h1 := List.sizeOf_lt_of_mem hc
      simp only [TokenTree.mk.sizeOf_spec] at hn
      omega
    have hkey : ∀ s : String,
        EvalCustom E (some om) (EvalCustom E (some om) (.mk .KEY (.str s) toks) msg).2 msg =
          EvalCustom E (some om) (.mk .KEY (.str s) toks) msg := by
      intro s
      have hs := evalSubs_idem E om msg toks (by
        intro sub hsub c hc
        apply ih
        rcases sub with ⟨sty, sv, stoks⟩
        have h1 := List.sizeOf_lt_of_mem hsub
        have h2 : sizeOf c < sizeOf stoks := List.sizeOf_lt_of_mem hc
        simp only [TokenTree.mk.sizeOf_spec] at hn h1
        omega)
      simp only [EvalCustom]
      rcases he : evalSubs E (some om) toks msg with ⟨e, toks1⟩
      rw [he] at hs
      simp only at hs
      cases e with
      | some err => simp only [EvalCustom, hs]
      | none => simp only [EvalCustom, hs]
    cases ty with
    | OP => exact EvalCustom_idem_op E om msg v toks hchild
    | FUNC => exact EvalCustom_idem_func E om msg v toks hchild
    | KEY =>
      cases v with
      | str s => exact hkey s
      | null => simp only [EvalCustom]
      | bool _ => simp only [EvalCustom]
      | num _ => simp only [EvalCustom]
      | list _ => simp only [EvalCustom]
      | map _ => simp only [EvalCustom]
      | int _ => simp only [EvalCustom]
    | S_STR => simp only [EvalCustom]
    | D_STR => simp only [EvalCustom]
    | CONST => simp only [EvalCustom]
    | RESERVED => simp only [EvalCustom]
    | ZERO => exact EvalCustom_idem_first E om msg _ v toks (by decide) hchild
    | K_START => exact EvalCustom_idem_first E om msg _ v toks (by decide) hchild
    | K_END => exact EvalCustom_idem_first E om msg _ v toks (by decide) hchild
    | Q_START => exact EvalCustom_idem_first E om msg _ v toks (by decide) hchild
    | Q_END => exact EvalCustom_idem_first E om msg _ v toks (by decide) hchild
    | SPACE => exact EvalCustom_idem_first E om msg _ v toks (by decide) hchild
    | NEXT => exact EvalCustom_idem_first E om msg _ v toks (by decide) hchild
    | ESC => exact EvalCustom_idem_first E om msg _ v toks (by decide) hchild
    | EQ => exact EvalCustom_idem_first E om msg _ v toks (by decide) hchild

/-- A second evaluation against the same message, under the same registry and the
same choices of the runtime, returns what the first returned and leaves the tree
as the first left it. -/
theorem EvalCustom_idem {F : Type} (E : Go F) (opMap : Option (OpMap F)) (t : TokenTree F)
    (msg : Value F) :
    EvalCustom E opMap (EvalCustom E opMap t msg).2 msg = EvalCustom E opMap t msg := by
  cases opMap with
  | some om => exact EvalCustom_idem_sized E om msg (sizeOf t + 1) t (Nat.lt_succ_self _)
  | none =>
    rw [EvalCustom_none E t, EvalCustom_none E]
    exact EvalCustom_idem_sized E (defaultOpMap E) msg (sizeOf t + 1) t (Nat.lt_succ_self _)

/-! ## C15: what an evaluation leaves in the tree -/

theorem evalSubs_leaves {F : Type} (E : Go F) (om : Option (OpMap F)) (msg : Value F) :
    ∀ toks : List (TokenTree F), leaves toks = true → evalSubs E om toks msg = (none, toks) := by
  intro toks
  induction toks with
  | nil => intro _; simp only [evalSubs]
  | cons t ts ih =>
    intro h
    rcases t with ⟨ty, v, cs⟩
    cases cs with
    | nil =>
      simp only [leaves] at h
      simp only [evalSubs, ih h]
    | cons c cs => simp [leaves] at h

theorem EvalCustom_literal {F : Type} (E : Go F) (om : Option (OpMap F)) (c : TokenTree F)
    (msg : Value F) (h : isLiteral c.type = true) :
    EvalCustom E om c msg = (.ok c.value, c) := by
  rcases c with ⟨ty, v, ts⟩
  cases ty <;> simp [isLiteral, TokenTree.type] at h <;> simp [EvalCustom, TokenTree.value]

/-- The loop over the subscripts of a `KEY` node, when no subscript holds an
expression: it does not fail and what it leaves does not depend on the message. -/
theorem evalSubs_lit {F : Type} (E : Go F) :
    ∀ subs : List (TokenTree F), litHeads subs = true →
      ∃ L, leaves L = true ∧ ∀ (om : Option (OpMap F)) (msg : Value F),
        evalSubs E om subs msg = (none, L) := by
  intro subs
  induction subs with
  | nil => intro _; exact ⟨[], rfl, fun om msg => by simp only [evalSubs]⟩
  | cons t ts ih =>
    intro h
    rcases t with ⟨sty, sv, cs⟩
    cases cs with
    | nil =>
      simp only [litHeads] at h
      obtain ⟨L, hL, hev⟩ := ih h
      exact ⟨.mk sty sv [] :: L, by simp only [leaves, hL],
        fun om msg => by simp only [evalSubs, hev om msg]⟩
    | cons c cs =>
      simp only [litHeads, Bool.and_eq_true] at h
      obtain ⟨L, hL, hev⟩ := ih h.2
      refine ⟨.mk (match c.value with | .str _ => .KEY | _ => sty) c.value [] :: L,
        by simp only [leaves, hL], fun om msg => ?_⟩
      simp only [evalSubs, EvalCustom_literal E om c msg h.1, hev om msg]

theorem litSubsList_mem {F : Type} :
    ∀ toks : List (TokenTree F), litSubsList toks = true → ∀ c ∈ toks, litSubs c = true := by
  intro toks
  induction toks with
  | nil => intro _ c hc; simp at hc
  | cons t ts ih =>
    intro h c hc
    simp only [litSubsList, Bool.and_eq_true] at h
    rcases List.mem_cons.mp hc with rfl | hc
    · exact h.1
    · exact ih h.2 c hc

/-- The result of a one-child `OP` node depends on the child through its result
only. -/
theorem EvalCustom_congr_op1 {F : Type} (E : Go F) (om : OpMap F) (msg : Value F) (v : Value F)
    (c c' : TokenTree F)
    (h : (EvalCustom E (some om) c' msg).1 = (EvalCustom E (some om) c msg).1) :
    (EvalCustom E (some om) (.mk .OP v [c']) msg).1
      = (EvalCustom E (some om) (.mk .OP v [c]) msg).1 := by
  rcases he : EvalCustom E (some om) c msg with ⟨r, x⟩
  rcases he' : EvalCustom E (some om) c' msg with ⟨r', x'⟩
  rw [he, he'] at h
  simp only at h
  subst h
  cases v with
  | str tv =>
    by_cases h1 : tv = "-"
    · cases r' with
      | error e => simp [EvalCustom, he, he', h1]
      | ok y => cases y <;> simp [EvalCustom, he, he', h1]
    · by_cases h2 : tv = "!"
      · cases r' with
        | error e => simp [EvalCustom, he, he', h1, h2]
        | ok y => cases y <;> simp [EvalCustom, he, he', h1, h2]
      · simp [EvalCustom, h1, h2]
  | null => simp only [EvalCustom]
  | bool _ => simp only [EvalCustom]
  | num _ => simp only [EvalCustom]
  | list _ => simp only [EvalCustom]
  | map _ => simp only [EvalCustom]
  | int _ => simp only [EvalCustom]

theorem EvalCustom_shape_op1 {F : Type} (E : Go F) (om : OpMap F) (msg : Value F) (v : Value F)
    (c : TokenTree F) :
    (EvalCustom E (some om) (.mk .OP v [c]) msg).2 = .mk .OP v [c]
      ∨ (EvalCustom E (some om) (.mk .OP v [c]) msg).2
          = .mk .OP v [(EvalCustom E (some om) c msg).2] := by
  rcases he : EvalCustom E (some om) c msg with ⟨r, x⟩
  cases v with
  | str tv =>
    by_cases h1 : tv = "-"
    · right
      cases r with
      | error e => simp [EvalCustom, he, h1]
      | ok y => cases y <;> simp [EvalCustom, he, h1]
    · by_cases h2 : tv = "!"
      · right
        cases r with
        | error e => simp [EvalCustom, he, h1, h2]
        | ok y => cases y <;> simp [EvalCustom, he, h1, h2]
      · left
        simp [EvalCustom, h1, h2]
  | null => left; simp only [EvalCustom]
  | bool _ => left; simp only [EvalCustom]
  | num _ => left; simp only [EvalCustom]
  | list _ => left; simp only [EvalCustom]
  | map _ => left; simp only [EvalCustom]
  | int _ => left; simp only [EvalCustom]

theorem EvalCustom_congr_op2 {F : Type} (E : Go F) (om : OpMap F) (msg : Value F) (v : Value F)
    (a a' b b' : TokenTree F)
    (ha : (EvalCustom E (some om) a' msg).1 = (EvalCustom E (some om) a msg).1)
    (hb : (EvalCustom E (some om) b' msg).1 = (EvalCustom E (some om) b msg).1) :
    (EvalCustom E (some om) (.mk .OP v [a', b']) msg).1
      = (EvalCustom E (some om) (.mk .OP v [a, b]) msg).1 := by
  rcases hea : EvalCustom E (some om) a msg with ⟨ra, xa⟩
  rcases hea' : EvalCustom E (some om) a' msg with ⟨ra', xa'⟩
  rcases heb : EvalCustom E (some om) b msg with ⟨rb, xb⟩
  rcases heb' : EvalCustom E (some om) b' msg with ⟨rb', xb'⟩
  rw [hea, hea'] at ha
  rw [heb, heb'] at hb
  simp only at ha hb
  subst ha
  subst hb
  cases v with
  | str tv =>
    cases ra' with
    | error e => simp [EvalCustom, hea, hea']
    | ok va => cases rb' <;> simp [EvalCustom, hea, hea', heb, heb']
  | null => simp only [EvalCustom]
  | bool _ => simp only [EvalCustom]
  | num _ => simp only [EvalCustom]
  | list _ => simp only [EvalCustom]
  | map _ => simp only [EvalCustom]
  | int _ => simp only [EvalCustom]

theorem EvalCustom_shape_op2 {F : Type} (E : Go F) (om : OpMap F) (msg : Value F) (v : Value F)
    (a b : TokenTree F) :
    ∃ a' b', (EvalCustom E (some om) (.mk .OP v [a, b]) msg).2 = .mk .OP v [a', b']
      ∧ (a' = a ∨ a' = (EvalCustom E (some om) a msg).2)
      ∧ (b' = b ∨ b' = (EvalCustom E (some om) b msg).2) := by
  rcases hea : EvalCustom E (some om) a msg with ⟨ra, xa⟩
  rcases heb : EvalCustom E (some om) b msg with ⟨rb, xb⟩
  cases v with
  | str tv =>
    cases ra with
    | error e => exact ⟨xa, b, by simp [EvalCustom, hea], Or.inr rfl, Or.inl rfl⟩
    | ok va =>
      refine ⟨xa, xb, ?_, Or.inr rfl, Or.inr rfl⟩
      cases rb <;> simp [EvalCustom, hea, heb]
  | null => exact ⟨a, b, by simp only [EvalCustom], Or.inl rfl, Or.inl rfl⟩
  | bool _ => exact ⟨a, b, by simp only [EvalCustom], Or.inl rfl, Or.inl rfl⟩
  | num _ => exact ⟨a, b, by simp only [EvalCustom], Or.inl rfl, Or.inl rfl⟩
  | list _ => exact ⟨a, b, by simp only [EvalCustom], Or.inl rfl, Or.inl rfl⟩
  | map _ => exact ⟨a, b, by simp only [EvalCustom], Or.inl rfl, Or.inl rfl⟩
  | int _ => exact ⟨a, b, by simp only [EvalCustom], Or.inl rfl, Or.inl rfl⟩

theorem EvalCustom_congr_func1 {F : Type} (E : Go F) (om : OpMap F) (msg : Value F)
    (v : Value F) (c c' : TokenTree F)
    (h : (EvalCustom E (some om) c' msg).1 = (EvalCustom E (some om) c msg).1) :
    (EvalCustom E (some om) (.mk .FUNC v [c']) msg).1
      = (EvalCustom E (some om) (.mk .FUNC v [c]) msg).1 := by
  rcases he : EvalCustom E (some om) c msg with ⟨r, x⟩
  rcases he' : EvalCustom E (some om) c' msg with ⟨r', x'⟩
  rw [he, he'] at h
  simp only at h
  subst h
  cases v with
  | str tv =>
    cases r' with
    | error e => simp [EvalCustom, he, he']
    | ok y => rcases hu : om.unary tv with _ | f <;> simp [EvalCustom, he, he', hu]
  | null => simp only [EvalCustom]
  | bool _ => simp only [EvalCustom]
  | num _ => simp only [EvalCustom]
  | list _ => simp only [EvalCustom]
  | map _ => simp only [EvalCustom]
  | int _ => simp only [EvalCustom]

theorem EvalCustom_shape_func1 {F : Type} (E : Go F) (om : OpMap F) (msg : Value F)
    (v : Value F) (c : TokenTree F) :
    (EvalCustom E (some om) (.mk .FUNC v [c]) msg).2 = .mk .FUNC v [c]
      ∨ (EvalCustom E (some om) (.mk .FUNC v [c]) msg).2
          = .mk .FUNC v [(EvalCustom E (some om) c msg).2] := by
  rcases he : EvalCustom E (some om) c msg with ⟨r, x⟩
  cases v with
  | str tv =>
    right
    cases r with
    | error e => simp [EvalCustom, he]
    | ok y => rcases hu : om.unary tv with _ | f <;> simp [EvalCustom, he, hu]
  | null => left; simp only [EvalCustom]
  | bool _ => left; simp only [EvalCustom]
  | num _ => left; simp only [EvalCustom]
  | list _ => left; simp only [EvalCustom]
  | map _ => left; simp only [EvalCustom]
  | int _ => left; simp only [EvalCustom]

theorem EvalCustom_congr_func3 {F : Type} (E : Go F) (om : OpMap F) (msg : Value F)
    (v : Value F) (a a' n b b' : TokenTree F)
    (ha : (EvalCustom E (some om) a' msg).1 = (EvalCustom E (some om) a msg).1)
    (hb : (EvalCustom E (some om) b' msg).1 = (EvalCustom E (some om) b msg).1) :
    (EvalCustom E (some om) (.mk .FUNC v [a', n, b']) msg).1
      = (EvalCustom E (some om) (.mk .FUNC v [a, n, b]) msg).1 := by
  rcases hea : EvalCustom E (some om) a msg with ⟨ra, xa⟩
  rcases hea' : EvalCustom E (some om) a' msg with ⟨ra', xa'⟩
  rcases heb : EvalCustom E (some om) b msg with ⟨rb, xb⟩
  rcases heb' : EvalCustom E (some om) b' msg with ⟨rb', xb'⟩
  rw [hea, hea'] at ha
  rw [heb, heb'] at hb
  simp only at ha hb
  subst ha
  subst hb
  cases v with
  | str tv =>
    cases ra' with
    | error e => simp [EvalCustom, hea, hea']
    | ok va =>
      cases rb' with
      | error e => simp [EvalCustom, hea, hea', heb, heb']
      | ok vb =>
        rcases hu : om.binary tv with _ | f <;> simp [EvalCustom, hea, hea', heb, heb', hu]
  | null => simp only [EvalCustom]
  | bool _ => simp only [EvalCustom]
  | num _ => simp only [EvalCustom]
  | list _ => simp only [EvalCustom]
  | map _ => simp only [EvalCustom]
  | int _ => simp only [EvalCustom]

theorem EvalCustom_shape_func3 {F : Type} (E : Go F) (om : OpMap F) (msg : Value F)
    (v : Value F) (a n b : TokenTree F) :
    ∃ a' b', (EvalCustom E (some om) (.mk .FUNC v [a, n, b]) msg).2 = .mk .FUNC v [a', n, b']
      ∧ (a' = a ∨ a' = (EvalCustom E (some om) a msg).2)
      ∧ (b' = b ∨ b' = (EvalCustom E (some om) b msg).2) := by
  rcases hea : EvalCustom E (some om) a msg with ⟨ra, xa⟩
  rcases heb : EvalCustom E (some om) b msg with ⟨rb, xb⟩
  cases v with
  | str tv =>
    cases ra with
    | error e => exact ⟨xa, b, by simp [EvalCustom, hea], Or.inr rfl, Or.inl rfl⟩
    | ok va =>
      refine ⟨xa, xb, ?_, Or.inr rfl, Or.inr rfl⟩
      cases rb with
      | error e => simp [EvalCustom, hea, heb]
      | ok vb => rcases hu : om.binary tv with _ | f <;> simp [EvalCustom, hea, heb, hu]
  | null => exact ⟨a, b, by simp only [EvalCustom], Or.inl rfl, Or.inl rfl⟩
  | bool _ => exact ⟨a, b, by simp only [EvalCustom], Or.inl rfl, Or.inl rfl⟩
  | num _ => exact ⟨a, b, by simp only [EvalCustom], Or.inl rfl, Or.inl rfl⟩
  | list _ => exact ⟨a, b, by simp only [EvalCustom], Or.inl rfl, Or.inl rfl⟩
  | map _ => exact ⟨a, b, by simp only [EvalCustom], Or.inl rfl, Or.inl rfl⟩
  | int _ => exact ⟨a, b, by simp only [EvalCustom], Or.inl rfl, Or.inl rfl⟩

theorem EvalCustom_congr_first {F : Type} (E : Go F) (om : OpMap F) (msg : Value F) (ty : Kind)
    (v : Value F) (c c' : TokenTree F) (rest : List (TokenTree F))
    (hty : ty ≠ .OP ∧ ty ≠ .KEY ∧ ty ≠ .FUNC ∧ ty ≠ .S_STR ∧ ty ≠ .D_STR ∧ ty ≠ .CONST
      ∧ ty ≠ .RESERVED)
    (h : (EvalCustom E (some om) c' msg).1 = (EvalCustom E (some om) c msg).1) :
    (EvalCustom E (some om) (.mk ty v (c' :: rest)) msg).1
        = (EvalCustom E (some om) (.mk ty v (c :: rest)) msg).1
      ∧ (EvalCustom E (some om) (.mk ty v (c :: rest)) msg).2
        = .mk ty v ((EvalCustom E (some om) c msg).2 :: rest) := by
  rcases he : EvalCustom E (some om) c msg with ⟨r, x⟩
  rcases he' : EvalCustom E (some om) c' msg with ⟨r', x'⟩
  rw [he, he'] at h
  simp only at h
  subst h
  cases ty <;> simp_all [EvalCustom]

/-- On a tree without subscript expressions, an evaluation against `m1` leaves a
tree that evaluates, against any `m2`, to what the tree evaluated to before. -/
theorem EvalCustom_lit_sized {F : Type} (E : Go F) (om : OpMap F) (m1 m2 : Value F) :
    ∀ (n : Nat) (t : TokenTree F), sizeOf t < n → litSubs t = true →
      (EvalCustom E (some om) (EvalCustom E (some om) t m1).2 m2).1
        = (EvalCustom E (some om) t m2).1 := by
  intro n
  induction n with
  | zero => intro t h; omega
  | succ n ih =>
    intro t hn hl
    rcases t with ⟨ty, v, toks⟩
    simp only [litSubs, Bool.and_eq_true, Bool.or_eq_true, bne_iff_ne, ne_eq] at hl
    have hchild : ∀ c ∈ toks, ∀ c', (c' = c ∨ c' = (EvalCustom E (some om) c m1).2) →
        (EvalCustom E (some om) c' m2).1 = (EvalCustom E (some om) c m2).1 := by
      intro c hc c' hc'
      rcases hc' with rfl | rfl
      · rfl
      · apply ih
        · have h1 := List.sizeOf_lt_of_mem hc
          simp only [TokenTree.mk.sizeOf_spec] at hn
          omega
        · exact litSubsList_mem toks hl.2 c hc
    cases ty with
    | KEY =>
      have hh : litHeads toks = true := by
        rcases hl.1 with h | h
        · exact absurd rfl h
        · exact h
      obtain ⟨L, hL, hev⟩ := evalSubs_lit E toks hh
      cases v <;>
        simp only [EvalCustom, hev (some om) m1, hev (some om) m2,
          evalSubs_leaves E (some om) m2 L hL]
    | OP =>
      match toks, hchild with
      | [], _ => cases v <;> simp only [EvalCustom]
      | [c], hchild =>
        rcases EvalCustom_shape_op1 E om m1 v c with h | h
        · rw [h]
        · rw [h]
          exact EvalCustom_congr_op1 E om m2 v c _ (hchild c (by simp) _ (Or.inr rfl))
      | [a, b], hchild =>
        obtain ⟨a', b', h, ha, hb⟩ := EvalCustom_shape_op2 E om m1 v a b
        rw [h]
        exact EvalCustom_congr_op2 E om m2 v a a' b b' (hchild a (by simp) a' ha)
          (hchild b (by simp) b' hb)
      | _ :: _ :: _ :: _, _ => cases v <;> simp only [EvalCustom]
    | FUNC =>
      match toks, hchild with
      | [], _ =>
        cases v with
        | str tv => rcases hu : om.nullary tv with _ | f <;> simp [EvalCustom, hu]
        | null => simp only [EvalCustom]
        | bool _ => simp only [EvalCustom]
        | num _ => simp only [EvalCustom]
        | list _ => simp only [EvalCustom]
        | map _ => simp only [EvalCustom]
        | int _ => simp only [EvalCustom]
      | [c], hchild =>
        rcases EvalCustom_shape_func1 E om m1 v c with h | h
        · rw [h]
        · rw [h]
          exact EvalCustom_congr_func1 E om m2 v c _ (hchild c (by simp) _ (Or.inr rfl))
      | [_, _], _ => cases v <;> simp only [EvalCustom]
      | [a, k, b], hchild =>
        obtain ⟨a', b', h, ha, hb⟩ := EvalCustom_shape_func3 E om m1 v a k b
        rw [h]
        exact EvalCustom_congr_func3 E om m2 v a a' k b b' (hchild a (by simp) a' ha)
          (hchild b (by simp) b' hb)
      | _ :: _ :: _ :: _ :: _, _ => cases v <;> simp only [EvalCustom]
    | S_STR => simp only [EvalCustom]
    | D_STR => simp only [EvalCustom]
    | CONST => simp only [EvalCustom]
    | RESERVED => simp only [EvalCustom]
    | ZERO | K_START | K_END | Q_START | Q_END | SPACE | NEXT | ESC | EQ =>
      match toks, hchild with
      | [], _ => simp [EvalCustom]
      | c :: rest, hchild =>
        rw [(EvalCustom_congr_first E om m1 _ v c c rest (by decide) rfl).2]
        exact (EvalCustom_congr_first E om m2 _ v c _ rest (by decide)
          (hchild c (by simp) _ (Or.inr rfl))).1

theorem EvalCustom_lit {F : Type} (E : Go F) (t : TokenTree F) (m1 m2 : Value F)
    (h : litSubs t = true) : Eval E (EvalCustom E none t m1).2 m2 = Eval E t m2 := by
  unfold Eval
  rw [EvalCustom_none E t m1, EvalCustom_none E t m2, EvalCustom_none E _ m2]
  exact EvalCustom_lit_sized E (defaultOpMap E) m1 m2 (sizeOf t + 1) t (Nat.lt_succ_self _) h

/-- C15, the claim as written fails: on one parsed tree of `.xs[.i]`, the evaluation
against a message with `i = 1` that follows an evaluation against a message with
`i = 0` returns `xs[0]`, while a freshly parsed tree gives `xs[1]`. -/
theorem C15_memoization_counterexample :
    ((parseString exactGo ".xs[.i]").bind fun t =>
        Eval exactGo
          (EvalCustom exactGo none t
            (.map [("xs", .list [.num 10, .num 20]), ("i", .num 0)])).2
          (.map [("xs", .list [.num 10, .num 20]), ("i", .num 1)]))
      = .ok (.num 10)
    ∧ evalString exactGo ".xs[.i]" (.map [("xs", .list [.num 10, .num 20]), ("i", .num 1)])
      = .ok (.num 20) := by
  decide!

/-- C15, amended: on a tree in which no subscript holds an expression (every child
of a `KEY` node has no children, or has a literal as its first child), the
evaluation against `m2` that follows an evaluation against `m1` on the same tree
returns what an evaluation of the tree as parsed returns on `m2`. -/
theorem C15_no_memoization {F : Type} (E : Go F) (t : TokenTree F) (m1 m2 : Value F)
    (h : litSubs t = true) :
    Eval E (EvalCustom E none t m1).2 m2 = Eval E t m2 :=
  EvalCustom_lit E t m1 m2 h

/-- C15, amended, witness: the tree of `.xs[0].b + .a`. -/
theorem C15_no_memoization_witness :
    parseString exactGo ".xs[0].b + .a" =
      .ok (rootNode [opNode "+"
        [.mk .KEY (.str "xs") [.mk .K_START .null [numLeaf 0], keyLeaf "b"], keyLeaf "a"]])
    ∧ ∀ m1 m2 : Value Rat,
        Eval exactGo
          (EvalCustom exactGo none (rootNode [opNode "+"
            [.mk .KEY (.str "xs") [.mk .K_START .null [numLeaf 0], keyLeaf "b"], keyLeaf "a"]])
            m1).2 m2
        = Eval exactGo (rootNode [opNode "+"
            [.mk .KEY (.str "xs") [.mk .K_START .null [numLeaf 0], keyLeaf "b"], keyLeaf "a"]])
            m2 :=
  ⟨by decide!, fun m1 m2 => C15_no_memoization exactGo _ m1 m2 (by decide)⟩

/-! ## C16: a second evaluation against the same message -/

/-- C16, the claim as written fails: `$keys` ranges over a Go map, whose iteration
order the runtime chooses anew for every loop. When the second evaluation visits
the keys of the same message in the opposite order, the two results differ. -/
theorem C16_keys_order_counterexample :
    ((parseString exactGo "$keys(.m)").bind fun t =>
        Eval exactGo t (.map [("m", .map [("a", .num 1), ("b", .num 2)])]))
      = .ok (.list [.str "a", .str "b"])
    ∧ ((parseString exactGo "$keys(.m)").bind fun t =>
        Eval { exactGo with mapOrder := List.reverse }
          (EvalCustom exactGo none t (.map [("m", .map [("a", .num 1), ("b", .num 2)])])).2
          (.map [("m", .map [("a", .num 1), ("b", .num 2)])]))
      = .ok (.list [.str "b", .str "a"]) := by
  decide!

/-- C16, amended: when both evaluations run under the same choices of the runtime
(the order in which `$keys` visits a map, the reading of the clock), evaluating
the tree that a first evaluation against `m` has left, against `m` again, returns
the same value or the same error, and leaves the tree unchanged. This holds for
every tree, every registry (the default one when none is given) and every
message. -/
theorem C16_second_evaluation {F : Type} (E : Go F) (opMap : Option (OpMap F))
    (t : TokenTree F) (m : Value F) :
    (EvalCustom E opMap (EvalCustom E opMap t m).2 m).1 = (EvalCustom E opMap t m).1
    ∧ (EvalCustom E opMap (EvalCustom E opMap t m).2 m).2 = (EvalCustom E opMap t m).2 := by
  rw [EvalCustom_idem E opMap t m]
  exact ⟨rfl, rfl⟩

/-! ## C18: re-lexing the lexemes -/

theorem lexemes_append (a b : List Token) : lexemes (a ++ b) = lexemes a ++ lexemes b := by
  induction a with
  | nil =>
    apply String.ext
    simp [lexemes]
  | cons t ts ih =>
    show t.value ++ lexemes (ts ++ b) = t.value ++ lexemes ts ++ lexemes b
    rw [ih]
    apply String.ext
    simp

theorem lexemes_single (t : Token) : lexemes [t] = t.value := by
  apply String.ext
  simp [lexemes]

/-- The `switch` and the final `if` of the loop body add the rune to the text held. -/
theorem lexTail_text {F : Type} (E : Go F) (st st2 : LexState) (r : Char)
    (hp : st.poppedStr = false) (h : lexTail E (lexSwitch E st r) r = .ok st2) :
    lexText st2 = lexText st ++ [r] ∧ st2.poppedStr = false := by
  rcases st with ⟨toks, w, state, p, e⟩
  simp only at hp
  subst hp
  unfold lexTail lexSwitch at h
  cases state <;> simp only [emitToken] at h <;> split_ifs at h <;> cases h <;>
    simp_all [lexText, lexemes_append, lexemes_single]

theorem lexEnd_text (st : LexState) : (lexemes (lexEnd st)).data = lexText st := by
  unfold lexEnd lexText
  by_cases hw : st.currWord = ""
  · simp [hw]
  · simp [hw, lexemes_append, lexemes_single]

theorem Lexer_eq {F : Type} (E : Go F) (s : String) :
    Lexer E s = match lexLoop E s.data lexInit with
      | .error e => .error e
      | .ok st => .ok (lexEnd st) := by
  unfold Lexer lexEnd lexInit
  cases lexLoop E s.data ⟨[], "", .ZERO, false, false⟩ with
  | error e => rfl
  | ok st => by_cases hw : st.currWord = "" <;> simp [hw]

/-- After the `switch` and the final `if`, a lexer inside a string literal holds a
word that is not empty. -/
theorem lexTail_word {F : Type} (E : Go F) (st st1 : LexState) (r : Char)
    (h : lexTail E (lexSwitch E st r) r = .ok st1) :
    (decide (st1.state = .D_STR) || decide (st1.state = .S_STR)) = true → st1.currWord ≠ "" := by
  unfold lexTail at h
  split_ifs at h with h1 h2
  · cases h
    intro _ e
    have := congrArg String.data e
    simp at this
  · cases h
    intro _
    exact str_append_ne _ _
  · cases h
    intro hs
    simp at hs

theorem lexTail_escaped {F : Type} (E : Go F) (x y : LexState) (r : Char)
    (h : lexTail E x r = .ok y) : y.escaped = x.escaped := by
  unfold lexTail at h
  split_ifs at h <;> cases h <;> rfl

theorem lexTail_set {F : Type} (E : Go F) (x y : LexState) (r : Char) (e : Bool)
    (h : lexTail E x r = .ok y) :
    lexTail E { x with escaped := e } r = .ok { y with escaped := e } := by
  unfold lexTail at h ⊢
  split_ifs at h ⊢ <;> cases h <;> rfl

theorem lexSwitch_set {F : Type} (E : Go F) (st : LexState) (r : Char) (e : Bool)
    (hs : (decide (st.state = .D_STR) || decide (st.state = .S_STR)) = false) :
    lexSwitch E { st with escaped := e } r = { lexSwitch E st r with escaped := e } := by
  rcases st with ⟨toks, w, state, p, e0⟩
  unfold lexSwitch
  cases state <;> first | (simp at hs; done) | (simp only [emitToken]; split_ifs <;> rfl) | rfl

theorem lexSwitch_str {F : Type} (E : Go F) (st : LexState) (r : Char)
    (hs : (decide (st.state = .D_STR) || decide (st.state = .S_STR)) = true)
    (hp : st.poppedStr = false) (he : st.escaped = true)
    (hb : tokenPopMap E st.state r st.currWord = false) :
    lexSwitch E { st with escaped := false } r = lexSwitch E st r := by
  rcases st with ⟨toks, w, state, p, e0⟩
  simp only at hp he hb hs
  subst hp
  subst he
  unfold lexSwitch
  cases state <;> first | (simp at hs; done) | simp [hb]

/-- The `switch` and the final `if` of the loop body do the same to a lexer whose
flag `escaped` is cleared, unless the rune is escaped and would close the literal. -/
theorem lexTail_cleared {F : Type} (E : Go F) (st st1 : LexState) (r : Char)
    (hp : st.poppedStr = false)
    (hb : ¬((decide (st.state = .D_STR) || decide (st.state = .S_STR)) = true
      ∧ st.escaped = true ∧ tokenPopMap E st.state r st.currWord = true))
    (h : lexTail E (lexSwitch E st r) r = .ok st1) :
    lexTail E (lexSwitch E { st with escaped := false } r) r
      = .ok { st1 with escaped := false } := by
  cases hs : (decide (st.state = .D_STR) || decide (st.state = .S_STR)) with
  | false =>
    rw [lexSwitch_set E st r false hs]
    exact lexTail_set E _ st1 r false h
  | true =>
    cases he : st.escaped with
    | false =>
      have e1 : ({ st with escaped := false } : LexState) = st := by
        rcases st with ⟨a, b, c, d, e0⟩
        simp only at he
        subst he
        rfl
      rw [e1]
      have := lexTail_set E _ st1 r false h
      have hx : (lexSwitch E st r).escaped = false := by
        rcases st with ⟨a, b, c, d, e0⟩
        simp only at he hs
        subst he
        unfold lexSwitch
        cases c <;> first | (simp at hs; done) | (simp only [emitToken]; split_ifs <;> rfl)
      have e2 : ({ lexSwitch E st r with escaped := false } : LexState) = lexSwitch E st r := by
        generalize lexSwitch E st r = x at hx
        rcases x with ⟨a, b, c, d, e0⟩
        simp only at hx
        subst hx
        rfl
      rw [e2] at this
      exact this
    | true =>
      have hpop : tokenPopMap E st.state r st.currWord = false := by
        cases ht : tokenPopMap E st.state r st.currWord with
        | false => rfl
        | true => exact absurd ⟨hs, he, ht⟩ hb
      rw [lexSwitch_str E st r hs hp he hpop]
      have hx : (lexSwitch E st r).escaped = false := by
        rcases st with ⟨a, b, c, d, e0⟩
        simp only at he hs
        subst he
        unfold lexSwitch
        cases c <;> first | (simp at hs; done) | simp
      have hy := lexTail_escaped E _ st1 r h
      rw [hx] at hy
      rw [h]
      rcases st1 with ⟨a, b, c, d, e0⟩
      simp only at hy
      subst hy
      rfl

/-- Inside a string literal a run of backslashes changes nothing but the flag
`escaped`. -/
theorem lexLoop_bslashes {F : Type} (E : Go F) (cs : List Char) :
    ∀ st : LexState, (decide (st.state = .D_STR) || decide (st.state = .S_STR)) = true →
      (∀ d ∈ cs, getIdent E d = .ESC) →
      ∃ e, lexLoop E cs st = .ok { st with escaped := e } := by
  induction cs with
  | nil => intro st _ _; exact ⟨st.escaped, rfl⟩
  | cons c cs ih =>
    intro st hs hcs
    have hc := hcs c (List.mem_cons_self _ _)
    have hstep : lexStep E st c = .ok { st with escaped := true } := by
      rw [lexStep_eq]
      simp [hc, hs]
    obtain ⟨e, he⟩ := ih { st with escaped := true } hs
      (fun d hd => hcs d (List.mem_cons_of_mem _ hd))
    exact ⟨e, by simp only [lexLoop, hstep, he]⟩

/-- An escaped rune that would close the literal: the lexer appends it to the word;
the lexer with the flag cleared emits the word with it and leaves the string. -/
theorem lexStep_escaped_quote {F : Type} (E : Go F) (st : LexState) (c : Char)
    (hs : (decide (st.state = .D_STR) || decide (st.state = .S_STR)) = true)
    (hp : st.poppedStr = false) (he : st.escaped = true) (hw : st.currWord ≠ "")
    (hc : getIdent E c ≠ .ESC) (hpop : tokenPopMap E st.state c st.currWord = true) :
    lexStep E st c =
        .ok { st with escaped := false, currWord := st.currWord ++ String.singleton c }
      ∧ lexStep E { st with escaped := false } c =
        .ok ⟨st.tokens ++ [⟨st.state, st.currWord ++ String.singleton c⟩], "", .ZERO, false,
          false⟩ := by
  rcases st with ⟨toks, w, state, p, e0⟩
  simp only at hs hp he hw hpop
  subst hp
  subst he
  constructor
  · rw [lexStep_eq]
    simp only [hs, hc, Bool.not_true, Bool.and_false, Bool.false_eq_true, if_false,
      decide_False, Bool.false_and]
    cases state <;> first | (simp at hs; done) | simp [lexSwitch, lexTail, hw]
  · rw [lexStep_eq]
    simp only [hs, hc, Bool.not_true, Bool.and_false, Bool.false_eq_true, if_false,
      decide_False, Bool.false_and]
    cases state <;> first | (simp at hs; done) | simp [lexSwitch, lexTail, hpop, emitToken]

/-- Lexing the runes of a run that the lexer does not skip (`ks`), with the flag
`escaped` cleared, ends with the same tokens; `ks` is the text the run adds. -/
theorem lexLoop_relex {F : Type} (E : Go F) (cs : List Char) :
    ∀ st st' : LexState, st.poppedStr = false →
      ((decide (st.state = .D_STR) || decide (st.state = .S_STR)) = true → st.currWord ≠ "") →
      noEscapedQuoteRun E cs st = true →
      lexLoop E cs st = .ok st' →
      ∃ ks st2, lexLoop E ks { st with escaped := false } = .ok st2
        ∧ lexText st' = lexText st ++ ks ∧ lexEnd st2 = lexEnd st' := by
  induction cs with
  | nil =>
    intro st st' _ _ _ h
    simp only [lexLoop] at h
    cases h
    exact ⟨[], _, rfl, by simp, rfl⟩
  | cons c cs ih =>
    intro st st' hp hw hne h
    simp only [noEscapedQuoteRun] at hne
    by_cases hbad : ((decide (st.state = .D_STR) || decide (st.state = .S_STR))
        && st.escaped && !(decide (getIdent E c = .ESC))
        && tokenPopMap E st.state c st.currWord) = true
    · -- the escaped quote: only backslashes follow
      rw [if_pos hbad] at hne
      simp only [Bool.and_eq_true, Bool.not_eq_true', decide_eq_false_iff_not] at hbad
      obtain ⟨⟨⟨hs, he⟩, hc⟩, hpop⟩ := hbad
      obtain ⟨h1, h2⟩ := lexStep_escaped_quote E st c hs hp he (hw hs) hc hpop
      simp only [lexLoop, h1] at h
      obtain ⟨e, hrun⟩ := lexLoop_bslashes E cs
        { st with escaped := false, currWord := st.currWord ++ String.singleton c } hs
        (by simpa [List.all_eq_true] using hne)
      rw [hrun] at h
      cases h
      refine ⟨[c], ⟨st.tokens ++ [⟨st.state, st.currWord ++ String.singleton c⟩], "", .ZERO,
        false, false⟩, by simp only [lexLoop, h2], ?_, ?_⟩
      · simp [lexText]
      · simp [lexEnd, str_append_ne]
    · rw [if_neg hbad] at hne
      simp only [lexLoop] at h
      cases hs : lexStep E st c with
      | error e =>
        rw [hs] at h
        cases h
      | ok st1 =>
        rw [hs] at h hne
        simp only at h hne
        rw [lexStep_eq] at hs
        by_cases hA : (decide (getIdent E c = .SPACE) &&
            !(decide (st.state = .D_STR) || decide (st.state = .S_STR))) = true
        · simp only [hA, if_true] at hs
          cases hs
          exact ih st st' hp hw hne h
        · simp only [hA, if_false] at hs
          by_cases hB : (decide (getIdent E c = .ESC) &&
              (decide (st.state = .D_STR) || decide (st.state = .S_STR))) = true
          · simp only [hB, if_true] at hs
            cases hs
            obtain ⟨ks, st2, hk1, hk2, hk3⟩ := ih { st with escaped := true } st' hp hw hne h
            exact ⟨ks, st2, hk1, hk2, hk3⟩
          · simp only [hB, if_false] at hs
            by_cases hC : (decide (getIdent E c = .ZERO) &&
                !(decide (st.state = .D_STR) || decide (st.state = .S_STR))) = true
            · simp only [hC, if_true] at hs
              cases hs
            · simp only [hC, if_false] at hs
              obtain ⟨ht, hp1⟩ := lexTail_text E st st1 c hp hs
              have hw1 := lexTail_word E st st1 c hs
              have hnb : ¬((decide (st.state = .D_STR) || decide (st.state = .S_STR)) = true
                  ∧ st.escaped = true ∧ tokenPopMap E st.state c st.currWord = true) := by
                rintro ⟨x1, x2, x3⟩
                apply hbad
                have x4 : (decide (getIdent E c = .ESC)) = false := by
                  cases hd : decide (getIdent E c = .ESC) with
                  | false => rfl
                  | true => simp [hd, x1] at hB
                simp [x1, x2, x3, x4]
              have hcl := lexTail_cleared E st st1 c hp hnb hs
              obtain ⟨ks, st2, hk1, hk2, hk3⟩ := ih st1 st' hp1 hw1 hne h
              refine ⟨c :: ks, st2, ?_, ?_, hk3⟩
              · simp only [lexLoop]
                rw [lexStep_eq]
                simp only [hA, hB, hC, if_false, hcl]
                exact hk1
              · rw [hk2, ht]
                simp

/-- What one iteration does to the tokens that `Lexer` would return: it adds tokens
at the end, or it adds the rune to the lexeme of the last one. -/
theorem lexTail_end {F : Type} (E : Go F) (st st1 : LexState) (r : Char)
    (hp : st.poppedStr = false) (h : lexTail E (lexSwitch E st r) r = .ok st1) :
    (∃ more, lexEnd st1 = lexEnd st ++ more)
      ∨ (st.currWord ≠ "" ∧ lexEnd st1 = st.tokens ++ [⟨st.state, st.currWord ++ String.singleton r⟩]) := by
  rcases st with ⟨toks, w, state, p, e⟩
  simp only at hp
  subst hp
  have hr : String.singleton r ≠ "" := by
    intro e
    have := congrArg String.data e
    simp at this
  by_cases hw : w = ""
  · left
    subst hw
    unfold lexTail lexSwitch at h
    cases state <;> simp only [emitToken] at h <;> split_ifs at h <;> cases h <;>
      simp_all [lexEnd]
  · have hwr := str_append_ne w r
    unfold lexTail lexSwitch at h
    cases state <;> simp only [emitToken] at h <;> split_ifs at h <;> cases h <;>
      simp_all [lexEnd]

theorem lexTail_end_str {F : Type} (E : Go F) (st st1 : LexState) (r : Char)
    (hs : (decide (st.state = .D_STR) || decide (st.state = .S_STR)) = true)
    (hp : st.poppedStr = false) (hw : st.currWord ≠ "")
    (h : lexTail E (lexSwitch E st r) r = .ok st1) :
    lexEnd st1 = st.tokens ++ [⟨st.state, st.currWord ++ String.singleton r⟩] := by
  rcases st with ⟨toks, w, state, p, e⟩
  simp only at hp hs hw
  subst hp
  have hwr := str_append_ne w r
  unfold lexTail lexSwitch at h
  cases state <;> first
    | (simp at hs; done)
    | (simp only [emitToken] at h; split_ifs at h <;> cases h <;> simp_all [lexEnd])

theorem lexTail_tokens {F : Type} (E : Go F) (st st1 : LexState) (r : Char)
    (h : lexTail E (lexSwitch E st r) r = .ok st1) :
    ∃ more, st1.tokens = st.tokens ++ more := by
  rcases st with ⟨toks, w, state, p, e⟩
  unfold lexTail lexSwitch at h
  cases state <;> simp only [emitToken] at h <;> split_ifs at h <;> cases h <;>
    first | exact ⟨_, rfl⟩ | exact ⟨[], (List.append_nil _).symm⟩

/-- The loop of `Lexer` only adds tokens at the end. -/
theorem lexLoop_tokens {F : Type} (E : Go F) (cs : List Char) :
    ∀ st st' : LexState, lexLoop E cs st = .ok st' → ∃ more, st'.tokens = st.tokens ++ more := by
  induction cs with
  | nil =>
    intro st st' h
    simp only [lexLoop] at h
    cases h
    exact ⟨[], by simp⟩
  | cons c cs ih =>
    intro st st' h
    simp only [lexLoop] at h
    cases hs : lexStep E st c with
    | error e => rw [hs] at h; cases h
    | ok st1 =>
      rw [hs] at h
      simp only at h
      obtain ⟨m2, h2⟩ := ih st1 st' h
      have h1 : ∃ more, st1.tokens = st.tokens ++ more := by
        rw [lexStep_eq] at hs
        split_ifs at hs
        · cases hs; exact ⟨[], by simp⟩
        · cases hs; exact ⟨[], by simp⟩
        · exact lexTail_tokens E st st1 c hs
      obtain ⟨m1, h1⟩ := h1
      exact ⟨m1 ++ m2, by rw [h2, h1, List.append_assoc]⟩

theorem str_length_push (w : String) (c : Char) :
    (w ++ String.singleton c).length = w.length + 1 := by
  rw [String.length_append]
  rfl

/-- One iteration of the loop keeps the tokens `Lexer` would return where they are,
and makes no lexeme shorter. -/
theorem lexStep_mono {F : Type} (E : Go F) (st st1 : LexState) (c : Char)
    (hp : st.poppedStr = false) (hs : lexStep E st c = .ok st1) :
    st1.poppedStr = false ∧ ∀ n tok, (lexEnd st).get? n = some tok →
      ∃ tok', (lexEnd st1).get? n = some tok' ∧ tok.value.length ≤ tok'.value.length := by
  rw [lexStep_eq] at hs
  split_ifs at hs
  · cases hs
    exact ⟨hp, fun n tok h => ⟨tok, h, le_refl _⟩⟩
  · cases hs
    exact ⟨hp, fun n tok h => ⟨tok, h, le_refl _⟩⟩
  · refine ⟨(lexTail_text E st st1 c hp hs).2, fun n tok h => ?_⟩
    rcases lexTail_end E st st1 c hp hs with ⟨more, hm⟩ | ⟨hw, hm⟩
    · refine ⟨tok, ?_, le_refl _⟩
      rw [hm, List.get?_eq_getElem?]
      rw [List.get?_eq_getElem?] at h
      rw [List.getElem?_append_left (List.getElem?_eq_some.mp h).1]
      exact h
    · have he : lexEnd st = st.tokens ++ [⟨st.state, st.currWord⟩] := by
        simp [lexEnd, hw]
      rw [he] at h
      rw [hm]
      rw [List.get?_eq_getElem?] at h ⊢
      by_cases hn : n < st.tokens.length
      · rw [List.getElem?_append_left hn] at h ⊢
        exact ⟨tok, h, le_refl _⟩
      · have hn' : st.tokens.length ≤ n := Nat.le_of_not_lt hn
        rw [List.getElem?_append_right hn'] at h ⊢
        cases hk : n - st.tokens.length with
        | zero =>
          simp only [hk, List.getElem?_cons_zero, Option.some.injEq] at h ⊢
          subst h
          exact ⟨_, rfl, by simp only [str_length_push]; omega⟩
        | succ k =>
          simp [hk] at h

theorem lexLoop_mono {F : Type} (E : Go F) (cs : List Char) :
    ∀ st st' : LexState, st.poppedStr = false → lexLoop E cs st = .ok st' →
      ∀ n tok, (lexEnd st).get? n = some tok →
        ∃ tok', (lexEnd st').get? n = some tok' ∧ tok.value.length ≤ tok'.value.length := by
  induction cs with
  | nil =>
    intro st st' _ h n tok ht
    simp only [lexLoop] at h
    cases h
    exact ⟨tok, ht, le_refl _⟩
  | cons c cs ih =>
    intro st st' hp h n tok ht
    simp only [lexLoop] at h
    cases hs : lexStep E st c with
    | error e => rw [hs] at h; cases h
    | ok st1 =>
      rw [hs] at h
      simp only at h
      obtain ⟨hp1, hm⟩ := lexStep_mono E st st1 c hp hs
      obtain ⟨tok1, h1, hl1⟩ := hm n tok ht
      obtain ⟨tok2, h2, hl2⟩ := ih st1 st' hp1 h n tok1 h1
      exact ⟨tok2, h2, le_trans hl1 hl2⟩

/-- The text the lexer holds only grows. -/
theorem lexLoop_text {F : Type} (E : Go F) (cs : List Char) :
    ∀ st st' : LexState, st.poppedStr = false → lexLoop E cs st = .ok st' →
      ∃ ks, lexText st' = lexText st ++ ks := by
  induction cs with
  | nil =>
    intro st st' _ h
    simp only [lexLoop] at h
    cases h
    exact ⟨[], by simp⟩
  | cons c cs ih =>
    intro st st' hp h
    simp only [lexLoop] at h
    cases hs : lexStep E st c with
    | error e => rw [hs] at h; cases h
    | ok st1 =>
      rw [hs] at h
      simp only at h
      rw [lexStep_eq] at hs
      split_ifs at hs
      · cases hs
        exact ih st st' hp h
      · cases hs
        exact ih { st with escaped := true } st' hp h
      · obtain ⟨ht, hp1⟩ := lexTail_text E st st1 c hp hs
        obtain ⟨ks, hk⟩ := ih st1 st' hp1 h
        exact ⟨c :: ks, by rw [hk, ht]; simp⟩

/-- Inside a string literal, a run that holds a rune other than a backslash makes
the lexeme of the literal longer. -/
theorem lexLoop_str_grows {F : Type} (E : Go F) (cs : List Char) :
    ∀ st st' : LexState,
      (decide (st.state = .D_STR) || decide (st.state = .S_STR)) = true →
      st.poppedStr = false → st.currWord ≠ "" → (∃ d ∈ cs, getIdent E d ≠ .ESC) →
      lexLoop E cs st = .ok st' →
      ∃ tok, (lexEnd st').get? st.tokens.length = some tok
        ∧ st.currWord.length + 1 ≤ tok.value.length := by
  induction cs with
  | nil =>
    intro st st' _ _ _ hd _
    obtain ⟨d, hd, _⟩ := hd
    simp at hd
  | cons c cs ih =>
    intro st st' hs hp hw hd h
    simp only [lexLoop] at h
    cases hstep : lexStep E st c with
    | error e => rw [hstep] at h; cases h
    | ok st1 =>
      rw [hstep] at h
      simp only at h
      rw [lexStep_eq] at hstep
      by_cases hc : getIdent E c = .ESC
      · simp only [hc, hs, decide_True, Bool.not_true, Bool.and_false, Bool.false_eq_true,
          if_false, Bool.and_self, if_true, decide_False, Bool.false_and] at hstep
        cases hstep
        obtain ⟨d, hd1, hd2⟩ := hd
        rcases List.mem_cons.mp hd1 with rfl | hd1
        · exact absurd hc hd2
        · exact ih { st with escaped := true } st' hs hp hw ⟨d, hd1, hd2⟩ h
      · simp only [hc, hs, decide_False, Bool.not_true, Bool.and_false, Bool.false_eq_true,
          if_false, Bool.false_and] at hstep
        have he := lexTail_end_str E st st1 c hs hp hw hstep
        have hp1 := (lexTail_text E st st1 c hp hstep).2
        have h0 : (lexEnd st1).get? st.tokens.length
            = some ⟨st.state, st.currWord ++ String.singleton c⟩ := by
          rw [he, List.get?_eq_getElem?, List.getElem?_append_right (le_refl _)]
          simp
        obtain ⟨tok, h1, h2⟩ := lexLoop_mono E cs st1 st' hp1 h _ _ h0
        refine ⟨tok, h1, ?_⟩
        simp only [str_length_push] at h2
        exact h2

/-- A token that has been emitted stays where it is. -/
theorem lexLoop_emitted {F : Type} (E : Go F) (cs : List Char) (st st' : LexState)
    (T : List Token) (t : Token) (more : List Token) (ht : st.tokens = T ++ t :: more)
    (h : lexLoop E cs st = .ok st') : (lexEnd st').get? T.length = some t := by
  obtain ⟨m, hm⟩ := lexLoop_tokens E cs st st' h
  have h1 : st'.tokens.get? T.length = some t := by
    rw [hm, ht, List.get?_eq_getElem?, List.append_assoc,
      List.getElem?_append_right (le_refl _)]
    simp
  unfold lexEnd
  split_ifs
  · rw [List.get?_eq_getElem?] at h1 ⊢
    rw [List.getElem?_append_left (List.getElem?_eq_some.mp h1).1]
    exact h1
  · exact h1

/-- When an escaped quote is followed by further text of its literal, lexing the
runes that the lexer does not skip gives other tokens. -/
theorem lexLoop_relex_ne {F : Type} (E : Go F) (cs : List Char) :
    ∀ st st' : LexState, st.poppedStr = false →
      ((decide (st.state = .D_STR) || decide (st.state = .S_STR)) = true → st.currWord ≠ "") →
      noEscapedQuoteRun E cs st = false →
      lexLoop E cs st = .ok st' →
      ∃ ks, lexText st' = lexText st ++ ks
        ∧ ∀ st2, lexLoop E ks { st with escaped := false } = .ok st2 →
            lexEnd st2 ≠ lexEnd st' := by
  induction cs with
  | nil =>
    intro st st' _ _ hne _
    simp [noEscapedQuoteRun] at hne
  | cons c cs ih =>
    intro st st' hp hw hne h
    simp only [noEscapedQuoteRun] at hne
    by_cases hbad : ((decide (st.state = .D_STR) || decide (st.state = .S_STR))
        && st.escaped && !(decide (getIdent E c = .ESC))
        && tokenPopMap E st.state c st.currWord) = true
    · rw [if_pos hbad] at hne
      simp only [Bool.and_eq_true, Bool.not_eq_true', decide_eq_false_iff_not] at hbad
      obtain ⟨⟨⟨hs, he⟩, hc⟩, hpop⟩ := hbad
      obtain ⟨h1, h2⟩ := lexStep_escaped_quote E st c hs hp he (hw hs) hc hpop
      simp only [lexLoop, h1] at h
      have hd : ∃ d ∈ cs, getIdent E d ≠ .ESC := by
        by_contra hcon
        push_neg at hcon
        have : (cs.all fun d => decide (getIdent E d = .ESC)) = true := by
          simpa [List.all_eq_true] using hcon
        rw [this] at hne
        cases hne
      obtain ⟨tok, ht1, ht2⟩ := lexLoop_str_grows E cs
        { st with escaped := false, currWord := st.currWord ++ String.singleton c } st' hs hp
        (str_append_ne _ _) hd h
      -- the text added
      have htext : ∃ ks, lexText st' = lexText st ++ c :: ks := by
        have := lexLoop_text E cs
          { st with escaped := false, currWord := st.currWord ++ String.singleton c } st' hp h
        obtain ⟨ks, hk⟩ := this
        exact ⟨ks, by rw [hk]; simp [lexText]⟩
      obtain ⟨ks, hk⟩ := htext
      refine ⟨c :: ks, hk, fun st2 h2' => ?_⟩
      simp only [lexLoop, h2] at h2'
      have hx := lexLoop_emitted E ks _ st2 st.tokens
        ⟨st.state, st.currWord ++ String.singleton c⟩ [] rfl h2'
      intro heq
      rw [heq] at hx
      simp only at ht1
      rw [ht1] at hx
      simp only [Option.some.injEq] at hx
      subst hx
      simp only [str_length_push] at ht2
      omega
    · rw [if_neg hbad] at hne
      simp only [lexLoop] at h
      cases hs : lexStep E st c with
      | error e =>
        rw [hs] at h
        cases h
      | ok st1 =>
        rw [hs] at h hne
        simp only at h hne
        rw [lexStep_eq] at hs
        by_cases hA : (decide (getIdent E c = .SPACE) &&
            !(decide (st.state = .D_STR) || decide (st.state = .S_STR))) = true
        · simp only [hA, if_true] at hs
          cases hs
          exact ih st st' hp hw hne h
        · simp only [hA, if_false] at hs
          by_cases hB : (decide (getIdent E c = .ESC) &&
              (decide (st.state = .D_STR) || decide (st.state = .S_STR))) = true
          · simp only [hB, if_true] at hs
            cases hs
            obtain ⟨ks, hk2, hk3⟩ := ih { st with escaped := true } st' hp hw hne h
            exact ⟨ks, hk2, hk3⟩
          · simp only [hB, if_false] at hs
            by_cases hC : (decide (getIdent E c = .ZERO) &&
                !(decide (st.state = .D_STR) || decide (st.state = .S_STR))) = true
            · simp only [hC, if_true] at hs
              cases hs
            · simp only [hC, if_false] at hs
              obtain ⟨ht, hp1⟩ := lexTail_text E st st1 c hp hs
              have hw1 := lexTail_word E st st1 c hs
              have hnb : ¬((decide (st.state = .D_STR) || decide (st.state = .S_STR)) = true
                  ∧ st.escaped = true ∧ tokenPopMap E st.state c st.currWord = true) := by
                rintro ⟨x1, x2, x3⟩
                apply hbad
                have x4 : (decide (getIdent E c = .ESC)) = false := by
                  cases hd : decide (getIdent E c = .ESC) with
                  | false => rfl
                  | true => simp [hd, x1] at hB
                simp [x1, x2, x3, x4]
              have hcl := lexTail_cleared E st st1 c hp hnb hs
              obtain ⟨ks, hk2, hk3⟩ := ih st1 st' hp1 hw1 hne h
              refine ⟨c :: ks, ?_, fun st2 h2 => ?_⟩
              · rw [hk2, ht]
                simp
              · simp only [lexLoop] at h2
                rw [lexStep_eq] at h2
                simp only [hA, hB, hC, if_false, hcl] at h2
                exact hk3 st2 h2

/-- C18, counterexample: the source `"a\"b"` lexes to the single token `D_STR` with
lexeme `"a"b"` (the backslash is consumed, the escaped quote kept); lexing that
lexeme gives three tokens, not the same sequence. -/
theorem C18_round_trip_counterexample :
    Lexer exactGo (String.mk [dquote, 'a', bslash, dquote, 'b', dquote]) =
        .ok [⟨.D_STR, String.mk [dquote, 'a', dquote, 'b', dquote]⟩]
    ∧ lexemes [⟨.D_STR, String.mk [dquote, 'a', dquote, 'b', dquote]⟩] =
        String.mk [dquote, 'a', dquote, 'b', dquote]
    ∧ Lexer exactGo (String.mk [dquote, 'a', dquote, 'b', dquote]) =
        .ok [⟨.D_STR, String.mk [dquote, 'a', dquote]⟩, ⟨.RESERVED, "b"⟩,
          ⟨.D_STR, String.mk [dquote]⟩]
    ∧ Lexer exactGo (lexemes [⟨.D_STR, String.mk [dquote, 'a', dquote, 'b', dquote]⟩]) ≠
        .ok [⟨.D_STR, String.mk [dquote, 'a', dquote, 'b', dquote]⟩] := by
  decide!

/-- C18, amended: for every input `s` on which `Lexer` succeeds with tokens
`t1..tn`, lexing the concatenation of the lexemes of `t1..tn` succeeds and yields
the same tokens exactly when `s` has no escaped quote that is followed by further
text of its literal: no `\"` inside a double-quoted literal and no `\'` inside a
single-quoted one with a rune other than a backslash after it. Any other escape,
such as `\n` or `\'` inside a double-quoted literal, does not disturb the round
trip. -/
theorem C18_round_trip {F : Type} (E : Go F) (s : String) (toks : List Token)
    (h : Lexer E s = .ok toks) :
    Lexer E (lexemes toks) = .ok toks ↔ noEscapedQuote E s = true := by
  rw [Lexer_eq] at h
  cases hl : lexLoop E s.data lexInit with
  | error e =>
    rw [hl] at h
    cases h
  | ok st' =>
    rw [hl] at h
    simp only [Result.ok.injEq] at h
    subst h
    have hinit : lexText lexInit = [] := rfl
    have hw0 : (decide (lexInit.state = .D_STR) || decide (lexInit.state = .S_STR)) = true →
        lexInit.currWord ≠ "" := by
      intro hs
      simp [lexInit] at hs
    cases hq : noEscapedQuote E s with
    | true =>
      obtain ⟨ks, st2, hk1, hk2, hk3⟩ := lexLoop_relex E s.data lexInit st' rfl hw0 hq hl
      rw [hinit, List.nil_append] at hk2
      have hd : (lexemes (lexEnd st')).data = ks := by
        rw [lexEnd_text, hk2]
      have hk1' : lexLoop E ks lexInit = .ok st2 := hk1
      refine ⟨fun _ => rfl, fun _ => ?_⟩
      rw [Lexer_eq, hd, hk1']
      exact congrArg Result.ok hk3
    | false =>
      obtain ⟨ks, hk2, hk3⟩ := lexLoop_relex_ne E s.data lexInit st' rfl hw0 hq hl
      rw [hinit, List.nil_append] at hk2
      have hd : (lexemes (lexEnd st')).data = ks := by
        rw [lexEnd_text, hk2]
      refine ⟨fun hr => ?_, fun hf => by cases hf⟩
      exfalso
      rw [Lexer_eq, hd] at hr
      cases hl2 : lexLoop E ks lexInit with
      | error e =>
        rw [hl2] at hr
        cases hr
      | ok st2 =>
        rw [hl2] at hr
        simp only [Result.ok.injEq] at hr
        exact hk3 st2 hl2 hr

/-- C18, amended, witness: `.a >= "b\nc'"`, whose string lexeme is `"bnc'"`. -/
theorem C18_round_trip_witness :
    Lexer exactGo (lexemes [⟨.KEY, ".a"⟩, ⟨.OP, ">="⟩,
        ⟨.D_STR, String.mk [dquote, 'b', 'n', 'c', squote, dquote]⟩]) =
      .ok [⟨.KEY, ".a"⟩, ⟨.OP, ">="⟩,
        ⟨.D_STR, String.mk [dquote, 'b', 'n', 'c', squote, dquote]⟩] :=
  (C18_round_trip exactGo
    (String.mk ['.', 'a', ' ', '>', '=', ' ', dquote, 'b', bslash, 'n', 'c', bslash, squote,
      dquote])
    _ (by decide!)).mpr (by decide!)

/-! ## C20: whitespace outside a string literal -/

theorem lexLoop_append {F : Type} (E : Go F) (a b : List Char) (st : LexState) :
    lexLoop E (a ++ b) st = (lexLoop E a st).bind (lexLoop E b) := by
  induction a generalizing st with
  | nil => rfl
  | cons c cs ih =>
    simp only [List.cons_append, lexLoop]
    cases lexStep E st c with
    | ok st1 => exact ih st1
    | error e => rfl

theorem lexStep_space {F : Type} (E : Go F) (st : LexState) (c : Char)
    (hc : getIdent E c = .SPACE) (h1 : st.state ≠ .D_STR) (h2 : st.state ≠ .S_STR) :
    lexStep E st c = .ok st := by
  rw [lexStep_eq]
  simp [hc, h1, h2]

/-- Outside a string literal a run of whitespace leaves every variable of the lexer
as it was. -/
theorem lexLoop_spaces {F : Type} (E : Go F) (w : List Char) (st : LexState)
    (hw : ∀ c ∈ w, getIdent E c = .SPACE) (h1 : st.state ≠ .D_STR) (h2 : st.state ≠ .S_STR) :
    lexLoop E w st = .ok st := by
  induction w with
  | nil => rfl
  | cons c cs ih =>
    simp only [lexLoop, lexStep_space E st c (hw c (List.mem_cons_self c cs)) h1 h2]
    exact ih (fun d hd => hw d (List.mem_cons_of_mem c hd))

/-- C20, counterexample: `1 2` lexes to the single token `CONST 12`, whose lexeme
holds the runes on both sides of the blank, and not to the two tokens `1` and `2`. -/
theorem C20_whitespace_counterexample :
    Lexer exactGo "1 2" = .ok [⟨.CONST, "12"⟩]
    ∧ Lexer exactGo "1 2" ≠ .ok [⟨.CONST, "1"⟩, ⟨.CONST, "2"⟩] := by
  decide!

/-- C20, amended: whitespace outside a string literal is skipped: it is never part
of a lexeme and does not end the token in progress. For every input `u ++ w ++ v`
where `w` is whitespace lying outside any string literal, `Lexer` returns what it
returns on `u ++ v`. -/
theorem C20_whitespace_skipped {F : Type} (E : Go F) (u w v : String)
    (hw : ∀ c ∈ w.data, getIdent E c = .SPACE) (hu : endsOutsideString E u = true) :
    Lexer E (u ++ w ++ v) = Lexer E (u ++ v) := by
  have h : lexLoop E (u ++ w ++ v).data lexInit = lexLoop E (u ++ v).data lexInit := by
    simp only [String.data_append, List.append_assoc]
    rw [lexLoop_append E u.data (w.data ++ v.data), lexLoop_append E u.data v.data]
    unfold endsOutsideString at hu
    cases hl : lexLoop E u.data lexInit with
    | error e => rfl
    | ok st =>
      rw [hl] at hu
      simp only [Bool.and_eq_true, decide_eq_true_eq] at hu
      simp only [Result.bind]
      rw [lexLoop_append E w.data v.data, lexLoop_spaces E w.data st hw hu.1 hu.2]
      rfl
  unfold lexInit at h
  unfold Lexer
  rw [h]

/-- C20, amended, witness: `1 2` lexes as `12` does. -/
theorem C20_whitespace_skipped_witness :
    Lexer exactGo ("1" ++ " " ++ "2") = Lexer exactGo ("1" ++ "2") :=
  C20_whitespace_skipped exactGo "1" " " "2" (by decide) (by decide!)

/-! ## Parser: the number of children of an `OP` node -/

theorem opBoundList_iff {F : Type} (b : Value F → Nat) (ts : List (TokenTree F)) :
    opBoundList b ts = true ↔ ∀ c ∈ ts, opBound b c = true := by
  induction ts with
  | nil => simp [opBoundList]
  | cons t ts ih => simp [opBoundList, ih]

theorem opBound_mk {F : Type} (b : Value F → Nat) (ty : Kind) (v : Value F)
    (ts : List (TokenTree F)) :
    opBound b (.mk ty v ts) = true ↔
      (ty = .OP → ts.length ≤ b v) ∧ ∀ c ∈ ts, opBound b c = true := by
  rw [opBound, Bool.and_eq_true, opBoundList_iff]
  constructor
  · rintro ⟨h1, h2⟩
    refine ⟨fun hty => ?_, h2⟩
    subst hty
    simpa using h1
  · rintro ⟨h1, h2⟩
    refine ⟨?_, h2⟩
    by_cases hty : ty = .OP
    · subst hty
      simpa using h1 rfl
    · simp [hty]

theorem opBound_mono {F : Type} (b b' : Value F → Nat) (hb : ∀ v, b v ≤ b' v) :
    ∀ (n : Nat) (t : TokenTree F), sizeOf t < n → opBound b t = true → opBound b' t = true := by
  intro n
  induction n with
  | zero => intro t h; omega
  | succ n ih =>
    intro t hn h
    rcases t with ⟨ty, v, ts⟩
    rw [opBound_mk] at h ⊢
    refine ⟨fun hty => le_trans (h.1 hty) (hb v), fun c hc => ?_⟩
    apply ih c _ (h.2 c hc)
    have h1 := List.sizeOf_lt_of_mem hc
    simp only [TokenTree.mk.sizeOf_spec] at hn
    omega

theorem opBound_le {F : Type} (b b' : Value F → Nat) (hb : ∀ v, b v ≤ b' v) (t : TokenTree F)
    (h : opBound b t = true) : opBound b' t = true :=
  opBound_mono b b' hb (sizeOf t + 1) t (Nat.lt_succ_self _) h

theorem le_bump {F : Type} (vals : List String) (b : Value F → Nat) (v : Value F) :
    b v ≤ bump vals b v := by
  cases v <;> simp [bump]

/-- The root of `t`, if it is an `OP` node, has at most `b` children. -/
theorem opBound_root {F : Type} (b : Value F → Nat) (t : TokenTree F) (h : opBound b t = true) :
    t.type = .OP → t.tokens.length ≤ b t.value := by
  rcases t with ⟨ty, v, ts⟩
  exact ((opBound_mk b ty v ts).mp h).1

theorem opBound_kids {F : Type} (b : Value F → Nat) (t : TokenTree F) (h : opBound b t = true) :
    ∀ c ∈ t.tokens, opBound b c = true := by
  rcases t with ⟨ty, v, ts⟩
  exact ((opBound_mk b ty v ts).mp h).2

theorem opBound_of {F : Type} (b : Value F → Nat) (t : TokenTree F)
    (h1 : t.type = .OP → t.tokens.length ≤ b t.value)
    (h2 : ∀ c ∈ t.tokens, opBound b c = true) : opBound b t = true := by
  rcases t with ⟨ty, v, ts⟩
  exact (opBound_mk b ty v ts).mpr ⟨h1, h2⟩

theorem isSplitOp_true {F : Type} (ty : Kind) (vals : List String) (curr : TokenTree F)
    (h : isSplitOp ty vals curr = .ok true) :
    ∃ s, curr.value = .str s ∧ inStringSlice vals s = true := by
  unfold isSplitOp at h
  split_ifs at h with hty
  · cases hv : curr.value with
    | str s =>
      rw [hv] at h
      simp only [Result.ok.injEq] at h
      exact ⟨s, rfl, h⟩
    | null => rw [hv] at h; cases h
    | bool _ => rw [hv] at h; cases h
    | num _ => rw [hv] at h; cases h
    | list _ => rw [hv] at h; cases h
    | map _ => rw [hv] at h; cases h
    | int _ => rw [hv] at h; cases h
  · cases h

/-- The loop of `split`: an element that is folded gets two children more. -/
theorem splitLoop_bound {F : Type} (ty : Kind) (vals : List String) (b : Value F → Nat) :
    ∀ (n : Nat) (rest : List (TokenTree F)), rest.length < n →
      ∀ (prev : TokenTree F) (nextTokens out : List (TokenTree F)),
      opBound (bump vals b) prev = true →
      (∀ c ∈ rest, (c.type = .OP → c.tokens.length ≤ b c.value)
        ∧ ∀ d ∈ c.tokens, opBound (bump vals b) d = true) →
      (∀ c ∈ nextTokens, opBound (bump vals b) c = true) →
      splitLoop ty vals prev rest nextTokens = .ok out →
      out.length ≤ nextTokens.length + 1 + rest.length
        ∧ ∀ c ∈ out, opBound (bump vals b) c = true := by
  intro n
  induction n with
  | zero => intro rest h; omega
  | succ n ih =>
    intro rest hn prev nextTokens out hprev hrest hnext h
    have hup : ∀ c ∈ rest, opBound (bump vals b) c = true := fun c hc =>
      opBound_of _ c (fun hty => le_trans ((hrest c hc).1 hty) (le_bump vals b _)) (hrest c hc).2
    match rest, hn, hrest, hup, h with
    | [], _, _, _, h =>
      simp only [splitLoop, Result.ok.injEq] at h
      subst h
      refine ⟨by simp, fun c hc => ?_⟩
      rcases List.mem_append.mp hc with hc | hc
      · exact hnext c hc
      · simp only [List.mem_singleton] at hc
        subst hc
        exact hprev
    | [curr], _, _, hup, h =>
      simp only [splitLoop, Result.ok.injEq] at h
      subst h
      refine ⟨by simp, fun c hc => ?_⟩
      rcases List.mem_append.mp hc with hc | hc
      · exact hnext c hc
      · simp only [List.mem_cons, List.mem_singleton, List.not_mem_nil, or_false] at hc
        rcases hc with rfl | rfl
        · exact hprev
        · exact hup _ (by simp)
    | curr :: next :: rest', hn, hrest, hup, h =>
      simp only [splitLoop] at h
      cases hs : isSplitOp ty vals curr with
      | error e => rw [hs] at h; cases h
      | ok bb =>
        rw [hs] at h
        cases bb with
        | true =>
          simp only at h
          obtain ⟨s, hv, hin⟩ := isSplitOp_true ty vals curr hs
          have hfold : opBound (bump vals b)
              (.mk curr.type curr.value (curr.tokens ++ [prev, next])) = true := by
            rw [opBound_mk]
            refine ⟨fun hty => ?_, fun c hc => ?_⟩
            · have h1 := (hrest curr (by simp)).1 hty
              rw [hv] at h1 ⊢
              simp only [bump, hin, if_true, List.length_append, List.length_cons,
                List.length_nil]
              omega
            · rcases List.mem_append.mp hc with hc | hc
              · exact (hrest curr (by simp)).2 c hc
              · simp only [List.mem_cons, List.mem_singleton, List.not_mem_nil, or_false] at hc
                rcases hc with rfl | rfl
                · exact hprev
                · exact hup _ (by simp)
          have := ih rest' (by simp only [List.length_cons] at hn; omega) _ nextTokens out hfold
            (fun c hc => hrest c (by simp [hc])) hnext h
          refine ⟨?_, this.2⟩
          have h1 := this.1
          simp only [List.length_cons]
          omega
        | false =>
          simp only at h
          have := ih (next :: rest') (by simp only [List.length_cons] at hn ⊢; omega) curr
            (nextTokens ++ [prev]) out
            (hup curr (by simp)) (fun c hc => hrest c (List.mem_cons_of_mem _ hc))
            (fun c hc => by
              rcases List.mem_append.mp hc with hc | hc
              · exact hnext c hc
              · simp only [List.mem_singleton] at hc
                subst hc
                exact hprev) h
          refine ⟨?_, this.2⟩
          have h1 := this.1
          simp only [List.length_cons, List.length_append, List.length_nil] at h1 ⊢
          omega

theorem splitChildren_bound {F : Type} (ty : Kind) (vals : List String)
    (Q : TokenTree F → Prop) :
    ∀ (ts ts1 : List (TokenTree F)),
      (∀ t ∈ ts, ∀ t1, split ty vals t = .ok t1 → Q t1) →
      splitChildren ty vals ts = .ok ts1 →
      ts1.length = ts.length ∧ ∀ c ∈ ts1, Q c := by
  intro ts
  induction ts with
  | nil =>
    intro ts1 _ h
    simp only [splitChildren, Result.ok.injEq] at h
    subst h
    simp
  | cons t ts ih =>
    intro ts1 hQ h
    simp only [splitChildren] at h
    cases ht : split ty vals t with
    | error e => rw [ht] at h; cases h
    | ok t1 =>
      rw [ht] at h
      simp only at h
      cases hr : splitChildren ty vals ts with
      | error e => rw [hr] at h; cases h
      | ok rest1 =>
        rw [hr] at h
        simp only [Result.ok.injEq] at h
        subst h
        have := ih rest1 (fun t' ht' => hQ t' (List.mem_cons_of_mem _ ht')) hr
        refine ⟨by simp [this.1], fun c hc => ?_⟩
        rcases List.mem_cons.mp hc with rfl | hc
        · exact hQ t (List.mem_cons_self _ _) _ ht
        · exact this.2 c hc

/-- One call of `split`: the root keeps its kind and value and gets no more
children than it had; below it, an `OP` node whose value is in `Values` gets at
most two children more. -/
theorem split_bound_sized {F : Type} (ty : Kind) (vals : List String) (b : Value F → Nat) :
    ∀ (n : Nat) (t t1 : TokenTree F), sizeOf t < n → opBound b t = true →
      split ty vals t = .ok t1 →
      (t1.type = .OP → t1.tokens.length ≤ b t1.value)
        ∧ ∀ d ∈ t1.tokens, opBound (bump vals b) d = true := by
  intro n
  induction n with
  | zero => intro t t1 h; omega
  | succ n ih =>
    intro t t1 hn hb h
    rcases t with ⟨ty0, v, ts⟩
    rw [opBound_mk] at hb
    simp only [split] at h
    cases hc : splitChildren ty vals ts with
    | error e => rw [hc] at h; cases h
    | ok ts1 =>
      rw [hc] at h
      simp only at h
      have hkids := splitChildren_bound ty vals
        (fun c => (c.type = .OP → c.tokens.length ≤ b c.value)
          ∧ ∀ d ∈ c.tokens, opBound (bump vals b) d = true) ts ts1
        (fun t' ht' t1' h' => ih t' t1' (by
          have h1 := List.sizeOf_lt_of_mem ht'
          simp only [TokenTree.mk.sizeOf_spec] at hn
          omega) (hb.2 t' ht') h') hc
      cases hf : splitFold ty vals ts1 with
      | error e => rw [hf] at h; cases h
      | ok next =>
        rw [hf] at h
        simp only [Result.ok.injEq] at h
        subst h
        have hfold : next.length ≤ ts1.length ∧ ∀ c ∈ next, opBound (bump vals b) c = true := by
          cases ts1 with
          | nil =>
            simp only [splitFold, Result.ok.injEq] at hf
            subst hf
            simp
          | cons prev rest =>
            simp only [splitFold] at hf
            have hp := hkids.2 prev (List.mem_cons_self _ _)
            have := splitLoop_bound ty vals b (rest.length + 1) rest (Nat.lt_succ_self _) prev []
              next
              (opBound_of _ prev (fun hty => le_trans (hp.1 hty) (le_bump vals b _)) hp.2)
              (fun c hc => hkids.2 c (List.mem_cons_of_mem _ hc))
              (fun c hc => by simp at hc) hf
            refine ⟨?_, this.2⟩
            have h1 := this.1
            simp only [List.length_nil, List.length_cons] at h1 ⊢
            omega
        refine ⟨fun hty => ?_, hfold.2⟩
        have := hb.1 hty
        have h1 := hfold.1
        have h2 := hkids.1
        simp only [TokenTree.tokens, TokenTree.value] at *
        omega

theorem split_bound {F : Type} (ty : Kind) (vals : List String) (b : Value F → Nat)
    (t t1 : TokenTree F) (hb : opBound b t = true) (h : split ty vals t = .ok t1) :
    opBound (bump vals b) t1 = true := by
  have := split_bound_sized ty vals b (sizeOf t + 1) t t1 (Nat.lt_succ_self _) hb h
  exact opBound_of _ t1 (fun hty => le_trans (this.1 hty) (le_bump vals b _)) this.2

theorem appendToLast_concat {F : Type} (init : List (TokenTree F)) (ty : Kind) (v : Value F)
    (ts : List (TokenTree F)) (t : TokenTree F) :
    appendToLast (init ++ [.mk ty v ts]) t = init ++ [.mk ty v (ts ++ [t])] := by
  simp [appendToLast]

theorem eqStr_true {F : Type} (v : Value F) (s : String) (h : v.eqStr s = true) : v = .str s := by
  cases v <;> simp [Value.eqStr] at h
  subst h
  rfl

theorem opBound_zero_leaf {F : Type} (t : TokenTree F) (s : String)
    (hb : opBound (fun _ => 0) t = true) (hty : t.type = .OP) (hv : t.value.eqStr s = true) :
    t = .mk .OP (.str s) [] := by
  rcases t with ⟨ty, v, ts⟩
  simp only [TokenTree.type, TokenTree.value] at hty hv
  have h1 := ((opBound_mk _ ty v ts).mp hb).1 hty
  have h2 : ts = [] := List.eq_nil_of_length_eq_zero (Nat.le_zero.mp h1)
  rw [hty, eqStr_true v s hv, h2]

/-- The loop of `not`: only a childless `!` gets a child, and only one. -/
theorem notLoop_bound {F : Type} :
    ∀ (rest newTokens : List (TokenTree F)) (negate : Bool),
      (∀ t ∈ rest, opBound (fun _ => 0) t = true ∧ opBound notArity (not t) = true) →
      (∀ c ∈ newTokens, opBound notArity c = true) →
      (negate = true → ∃ init, newTokens = init ++ [.mk .OP (.str "!") []]) →
      ∀ c ∈ notLoop rest newTokens negate, opBound notArity c = true := by
  intro rest
  induction rest with
  | nil =>
    intro newTokens negate _ hnew _ c hc
    simp only [notLoop] at hc
    exact hnew c hc
  | cons t rest ih =>
    intro newTokens negate hrest hnew hneg
    have ht := hrest t (List.mem_cons_self _ _)
    have hrest' : ∀ t' ∈ rest, opBound (fun _ => 0) t' = true ∧ opBound notArity (not t') = true :=
      fun t' h' => hrest t' (List.mem_cons_of_mem _ h')
    have hleaf : opBound notArity t = true :=
      opBound_le _ _ (fun v => Nat.zero_le _) t ht.1
    simp only [notLoop]
    by_cases hop : t.type = .OP ∧ t.value.eqStr "!" = true
    · rw [if_pos hop]
      have hEq := opBound_zero_leaf t "!" ht.1 hop.1 hop.2
      refine ih _ true hrest' (fun c hc => ?_) (fun _ => ⟨newTokens, by rw [hEq]⟩)
      rcases List.mem_append.mp hc with hc | hc
      · exact hnew c hc
      · simp only [List.mem_singleton] at hc
        subst hc
        exact hleaf
    · rw [if_neg hop]
      have ht1 : opBound notArity (if t.tokens.length > 0 then not t else t) = true := by
        split_ifs
        · exact ht.2
        · exact hleaf
      cases negate with
      | true =>
        obtain ⟨init, hinit⟩ := hneg rfl
        simp only [if_true]
        refine ih _ false hrest' (fun c hc => ?_) (fun h => by cases h)
        rw [hinit, appendToLast_concat] at hc
        rcases List.mem_append.mp hc with hc | hc
        · exact hnew c (by rw [hinit]; exact List.mem_append_left _ hc)
        · simp only [List.mem_singleton] at hc
          subst hc
          rw [opBound_mk]
          refine ⟨fun _ => by simp [notArity], fun c hc => ?_⟩
          simp only [List.nil_append, List.mem_singleton] at hc
          subst hc
          exact ht1
      | false =>
        simp only [Bool.false_eq_true, if_false]
        refine ih _ false hrest' (fun c hc => ?_) (fun h => by cases h)
        rcases List.mem_append.mp hc with hc | hc
        · exact hnew c hc
        · simp only [List.mem_singleton] at hc
          subst hc
          exact ht1

/-- After `not`, an `OP` node has a child only if it is `!`, and then one. -/
theorem not_bound_sized {F : Type} :
    ∀ (n : Nat) (t : TokenTree F), sizeOf t < n → opBound (fun _ => 0) t = true →
      opBound notArity (not t) = true := by
  intro n
  induction n with
  | zero => intro t h; omega
  | succ n ih =>
    intro t hn hb
    rcases t with ⟨ty, v, ts⟩
    have hb' := (opBound_mk _ ty v ts).mp hb
    simp only [not]
    rw [opBound_mk]
    have hts : ts = [] ∨ ty ≠ .OP := by
      by_cases hty : ty = .OP
      · exact Or.inl (List.eq_nil_of_length_eq_zero (Nat.le_zero.mp (hb'.1 hty)))
      · exact Or.inr hty
    refine ⟨fun hty => ?_, ?_⟩
    · rcases hts with h | h
      · subst h
        simp [notLoop]
      · exact absurd hty h
    · refine notLoop_bound ts [] false (fun t' ht' => ⟨hb'.2 t' ht', ih t' ?_ (hb'.2 t' ht')⟩)
        (fun c hc => by simp at hc) (fun h => by cases h)
      have h1 := List.sizeOf_lt_of_mem ht'
      simp only [TokenTree.mk.sizeOf_spec] at hn
      omega

theorem opBound_leaf {F : Type} (b : Value F → Nat) (t : TokenTree F) (s : String)
    (h0 : b (.str s) = 0) (hb : opBound b t = true) (hty : t.type = .OP)
    (hv : t.value.eqStr s = true) : t = .mk .OP (.str s) [] := by
  rcases t with ⟨ty, v, ts⟩
  simp only [TokenTree.type, TokenTree.value] at hty hv
  have h1 := ((opBound_mk _ ty v ts).mp hb).1 hty
  rw [eqStr_true v s hv, h0] at h1
  have h2 : ts = [] := List.eq_nil_of_length_eq_zero (Nat.le_zero.mp h1)
  rw [hty, eqStr_true v s hv, h2]

theorem notArity_le_negArity {F : Type} (v : Value F) : notArity v ≤ negArity v := by
  cases v with
  | str s =>
    simp only [notArity, negArity, unaryOps, inStringSlice, List.any_cons, List.any_nil,
      Bool.or_false, Bool.or_eq_true, decide_eq_true_eq]
    by_cases h : s = "!"
    · subst h
      decide
    · simp [h]
  | null => simp [notArity, negArity]
  | bool _ => simp [notArity, negArity]
  | num _ => simp [notArity, negArity]
  | list _ => simp [notArity, negArity]
  | map _ => simp [notArity, negArity]
  | int _ => simp [notArity, negArity]

/-- The loop of `negative`: only a childless `-` gets a child, and only one. -/
theorem negativeLoop_bound {F : Type} :
    ∀ (rest newTokens : List (TokenTree F)) (negate : Bool) (state : Kind),
      (∀ t ∈ rest, opBound notArity t = true ∧ opBound negArity (negative t) = true) →
      (∀ c ∈ newTokens, opBound negArity c = true) →
      (negate = true → ∃ init, newTokens = init ++ [.mk .OP (.str "-") []]) →
      ∀ c ∈ negativeLoop rest newTokens negate state, opBound negArity c = true := by
  intro rest
  induction rest with
  | nil =>
    intro newTokens negate state _ hnew _ c hc
    simp only [negativeLoop] at hc
    exact hnew c hc
  | cons t rest ih =>
    intro newTokens negate state hrest hnew hneg
    have ht := hrest t (List.mem_cons_self _ _)
    have hrest' : ∀ t' ∈ rest,
        opBound notArity t' = true ∧ opBound negArity (negative t') = true :=
      fun t' h' => hrest t' (List.mem_cons_of_mem _ h')
    have hleaf : opBound negArity t = true := opBound_le _ _ notArity_le_negArity t ht.1
    simp only [negativeLoop]
    by_cases hop : t.type = .OP ∧ t.value.eqStr "-" = true ∧ state ≠ .CONST ∧ state ≠ .KEY
        ∧ state ≠ .Q_START
    · rw [if_pos hop]
      have hEq := opBound_leaf notArity t "-" (by simp [notArity]) ht.1 hop.1 hop.2.1
      refine ih _ true state hrest' (fun c hc => ?_) (fun _ => ⟨newTokens, by rw [hEq]⟩)
      rcases List.mem_append.mp hc with hc | hc
      · exact hnew c hc
      · simp only [List.mem_singleton] at hc
        subst hc
        exact hleaf
    · rw [if_neg hop]
      have ht1 : opBound negArity (if t.tokens.length > 0 then negative t else t) = true := by
        split_ifs
        · exact ht.2
        · exact hleaf
      cases negate with
      | true =>
        obtain ⟨init, hinit⟩ := hneg rfl
        simp only [if_true]
        refine ih _ false t.type hrest' (fun c hc => ?_) (fun h => by cases h)
        rw [hinit, appendToLast_concat] at hc
        rcases List.mem_append.mp hc with hc | hc
        · exact hnew c (by rw [hinit]; exact List.mem_append_left _ hc)
        · simp only [List.mem_singleton] at hc
          subst hc
          rw [opBound_mk]
          refine ⟨fun _ => by simp [negArity, unaryOps, inStringSlice], fun c hc => ?_⟩
          simp only [List.nil_append, List.mem_singleton] at hc
          subst hc
          exact ht1
      | false =>
        simp only [Bool.false_eq_true, if_false]
        refine ih _ false t.type hrest' (fun c hc => ?_) (fun h => by cases h)
        rcases List.mem_append.mp hc with hc | hc
        · exact hnew c hc
        · simp only [List.mem_singleton] at hc
          subst hc
          exact ht1

theorem appendToLast_length {F : Type} (newTokens : List (TokenTree F)) (t : TokenTree F) :
    (appendToLast newTokens t).length ≤ newTokens.length := by
  unfold appendToLast
  cases hg : newTokens.getLast? with
  | none => exact le_refl _
  | some l =>
    rcases l with ⟨a, b, c⟩
    have hne : newTokens ≠ [] := by
      intro h
      rw [h] at hg
      simp at hg
    have : 0 < newTokens.length := List.length_pos.mpr hne
    simp only [List.length_append, List.length_dropLast, List.length_cons, List.length_nil]
    omega

theorem negativeLoop_length {F : Type} :
    ∀ (rest newTokens : List (TokenTree F)) (negate : Bool) (state : Kind),
      (negativeLoop rest newTokens negate state).length ≤ newTokens.length + rest.length := by
  intro rest
  induction rest with
  | nil => intro newTokens negate state; simp [negativeLoop]
  | cons t rest ih =>
    intro newTokens negate state
    simp only [negativeLoop]
    generalize (if t.tokens.length > 0 then negative t else t) = t1
    split_ifs with h1 h2
    · refine le_trans (ih _ true state) ?_
      simp only [List.length_append, List.length_cons, List.length_nil]
      omega
    · refine le_trans (ih _ false t.type) ?_
      have hl := appendToLast_length newTokens t1
      simp only [List.length_cons]
      omega
    · refine le_trans (ih _ false t.type) ?_
      simp only [List.length_append, List.length_cons, List.length_nil]
      omega

/-- After `negative`, an `OP` node has a child only if it is `!` or `-`, and then
one. -/
theorem negative_bound_sized {F : Type} :
    ∀ (n : Nat) (t : TokenTree F), sizeOf t < n → opBound notArity t = true →
      opBound negArity (negative t) = true := by
  intro n
  induction n with
  | zero => intro t h; omega
  | succ n ih =>
    intro t hn hb
    rcases t with ⟨ty, v, ts⟩
    have hb' := (opBound_mk _ ty v ts).mp hb
    simp only [negative]
    rw [opBound_mk]
    refine ⟨fun hty => ?_, ?_⟩
    · have h1 := negativeLoop_length ts [] false .ZERO
      have h2 := hb'.1 hty
      have h3 := notArity_le_negArity v
      simp only [List.length_nil] at h1
      omega
    · refine negativeLoop_bound ts [] false .ZERO
        (fun t' ht' => ⟨hb'.2 t' ht', ih t' ?_ (hb'.2 t' ht')⟩)
        (fun c hc => by simp at hc) (fun h => by cases h)
      have h1 := List.sizeOf_lt_of_mem ht'
      simp only [TokenTree.mk.sizeOf_spec] at hn
      omega

/-! ## Parser: what `buildTree` maintains -/

theorem toTrees_eq_map {F : Type} (ts : List (BNode F)) :
    BNode.toTrees ts = ts.map BNode.toTree := by
  induction ts with
  | nil => simp [BNode.toTrees]
  | cons t ts ih => simp [BNode.toTrees, ih]

theorem bnode_opBound_mk {F : Type} (b : Value F → Nat) (t : Kind) (v : Value F)
    (ts : List (BNode F)) (ps : List (List Nat)) :
    opBound b (BNode.mk t v ts ps).toTree = true ↔
      (t = .OP → ts.length ≤ b v) ∧ ∀ c ∈ ts, opBound b c.toTree = true := by
  rw [BNode.toTree, opBound_mk, toTrees_eq_map]
  simp

theorem modifyAt_length {α : Type} (f : α → α) (i : Nat) (l : List α) :
    (modifyAt f i l).length = l.length := by
  induction l generalizing i with
  | nil => simp [modifyAt]
  | cons a as ih => cases i <;> simp [modifyAt, ih]

theorem modifyAt_mem {α : Type} (f : α → α) (i : Nat) (l : List α) (x : α)
    (h : x ∈ modifyAt f i l) : x ∈ l ∨ ∃ a, l.get? i = some a ∧ x = f a := by
  induction l generalizing i with
  | nil => simp [modifyAt] at h
  | cons a as ih =>
    cases i with
    | zero =>
      simp only [modifyAt, List.mem_cons] at h
      rcases h with h | h
      · exact Or.inr ⟨a, by simp, h⟩
      · exact Or.inl (List.mem_cons_of_mem _ h)
    | succ i =>
      simp only [modifyAt, List.mem_cons] at h
      rcases h with h | h
      · exact Or.inl (by simp [h])
      · rcases ih i h with h | ⟨a', h1, h2⟩
        · exact Or.inl (List.mem_cons_of_mem _ h)
        · exact Or.inr ⟨a', by simpa using h1, h2⟩

theorem modifyAt_get {α : Type} (f : α → α) (i j : Nat) (l : List α) :
    (modifyAt f i l).get? j = if j = i then (l.get? j).map f else l.get? j := by
  induction l generalizing i j with
  | nil => simp [modifyAt]
  | cons a as ih =>
    cases i with
    | zero => cases j <;> simp [modifyAt]
    | succ i =>
      cases j with
      | zero => simp [modifyAt]
      | succ j => simpa [modifyAt] using ih i j

/-- Appending a leaf below a node that is not an operator keeps operators
childless. -/
theorem append_opBound {F : Type} (b : Value F → Nat) (item : BNode F)
    (hitem : opBound b item.toTree = true) :
    ∀ (q : List Nat) (root : BNode F), opBound b root.toTree = true →
      root.typeAt q ≠ .OP → opBound b (root.append q item).toTree = true := by
  intro q
  induction q with
  | nil =>
    intro root hb hq
    rcases root with ⟨t, v, ts, ps⟩
    rw [bnode_opBound_mk] at hb
    simp only [BNode.append]
    rw [bnode_opBound_mk]
    refine ⟨fun h => absurd h hq, fun c hc => ?_⟩
    rcases List.mem_append.mp hc with hc | hc
    · exact hb.2 c hc
    · simp only [List.mem_singleton] at hc
      subst hc
      exact hitem
  | cons i p ih =>
    intro root hb hq
    rcases root with ⟨t, v, ts, ps⟩
    rw [bnode_opBound_mk] at hb
    simp only [BNode.append]
    rw [bnode_opBound_mk]
    refine ⟨fun h => by rw [modifyAt_length]; exact hb.1 h, fun c hc => ?_⟩
    rcases modifyAt_mem _ i ts c hc with hc | ⟨a, ha, hca⟩
    · exact hb.2 c hc
    · subst hca
      refine ih a (hb.2 a (List.get?_mem ha)) ?_
      have ha' : ts[i]? = some a := by simpa using ha
      simpa [BNode.typeAt, BNode.get?, ha'] using hq

theorem append_type {F : Type} (root : BNode F) (q : List Nat) (item : BNode F) :
    (root.append q item).type = root.type := by
  rcases root with ⟨t, v, ts, ps⟩
  cases q <;> rfl

/-- An append leaves every node where it was, with its kind. -/
theorem get?_append {F : Type} (item : BNode F) :
    ∀ (p q : List Nat) (root n : BNode F), root.get? p = some n →
      ∃ n', (root.append q item).get? p = some n' ∧ n'.type = n.type := by
  intro p
  induction p with
  | nil =>
    intro q root n h
    simp only [BNode.get?, Option.some.injEq] at h
    subst h
    exact ⟨_, by simp [BNode.get?], append_type _ q item⟩
  | cons j p ih =>
    intro q root n h
    rcases root with ⟨t, v, ts, ps⟩
    simp only [BNode.get?] at h
    cases hj : ts.get? j with
    | none => rw [hj] at h; cases h
    | some c =>
      rw [hj] at h
      simp only at h
      cases q with
      | nil =>
        simp only [BNode.append, BNode.get?]
        have : (ts ++ [item]).get? j = some c := by
          rw [List.get?_eq_getElem?] at hj ⊢
          rw [List.getElem?_append_left (List.getElem?_eq_some.mp hj).1]
          exact hj
        rw [this]
        exact ⟨n, h, rfl⟩
      | cons i q =>
        simp only [BNode.append, BNode.get?, modifyAt_get]
        by_cases hji : j = i
        · subst hji
          simp only [if_true, hj, Option.map_some']
          exact ih q c n h
        · simp only [hji, if_false, hj]
          exact ⟨n, h, rfl⟩

theorem okPath_append {F : Type} (root : BNode F) (q : List Nat) (item : BNode F)
    (p : List Nat) (h : okPath root p) : okPath (root.append q item) p := by
  obtain ⟨n, hn, hty⟩ := h
  obtain ⟨n', hn', hty'⟩ := get?_append item p q root n hn
  exact ⟨n', hn', by rw [hty']; exact hty⟩

/-- After the append, the node appended to has the item as its last child. -/
theorem get?_append_self {F : Type} (item : BNode F) (t : Kind) (v : Value F)
    (ts : List (BNode F)) (ps : List (List Nat)) :
    ∀ (q : List Nat) (root : BNode F), root.get? q = some (.mk t v ts ps) →
      (root.append q item).get? q = some (.mk t v (ts ++ [item]) ps) := by
  intro q
  induction q with
  | nil =>
    intro root h
    simp only [BNode.get?, Option.some.injEq] at h
    subst h
    rfl
  | cons i q ih =>
    intro root h
    rcases root with ⟨t0, v0, ts0, ps0⟩
    simp only [BNode.get?] at h
    cases hi : ts0.get? i with
    | none => rw [hi] at h; cases h
    | some c =>
      rw [hi] at h
      simp only at h
      simp only [BNode.append, BNode.get?, modifyAt_get, if_true, hi, Option.map_some']
      exact ih c h

theorem get?_snoc {F : Type} (i : Nat) :
    ∀ (p : List Nat) (root n : BNode F), root.get? p = some n →
      root.get? (p ++ [i]) = n.tokens.get? i := by
  intro p
  induction p with
  | nil =>
    intro root n h
    simp only [BNode.get?, Option.some.injEq] at h
    subst h
    rcases root with ⟨t, v, ts, ps⟩
    simp only [List.nil_append, BNode.get?, BNode.tokens]
    cases ts.get? i <;> simp [BNode.get?]
  | cons j p ih =>
    intro root n h
    rcases root with ⟨t, v, ts, ps⟩
    simp only [BNode.get?] at h
    cases hj : ts.get? j with
    | none => rw [hj] at h; cases h
    | some c =>
      rw [hj] at h
      simp only at h
      simp only [List.cons_append, BNode.get?, hj]
      exact ih c n h

theorem get?_opBound {F : Type} (b : Value F → Nat) :
    ∀ (p : List Nat) (root n : BNode F), root.get? p = some n →
      opBound b root.toTree = true → opBound b n.toTree = true := by
  intro p
  induction p with
  | nil =>
    intro root n h hb
    simp only [BNode.get?, Option.some.injEq] at h
    subst h
    exact hb
  | cons j p ih =>
    intro root n h hb
    rcases root with ⟨t, v, ts, ps⟩
    simp only [BNode.get?] at h
    cases hj : ts.get? j with
    | none => rw [hj] at h; cases h
    | some c =>
      rw [hj] at h
      simp only at h
      rw [bnode_opBound_mk] at hb
      exact ih c n h (hb.2 c (List.get?_mem hj))

theorem climbKey_mem {F : Type} (root : BNode F) :
    ∀ (up : List (List Nat)) (tree : List Nat),
      (climbKey root tree up).1 ∈ tree :: up ∧ ∀ p ∈ (climbKey root tree up).2, p ∈ up := by
  intro up
  induction up with
  | nil => intro tree; simp [climbKey]
  | cons p ps ih =>
    intro tree
    simp only [climbKey]
    split_ifs
    · have := ih p
      exact ⟨List.mem_cons_of_mem _ this.1, fun q hq => List.mem_cons_of_mem _ (this.2 q hq)⟩
    · exact ⟨List.mem_cons_self _ _, fun q hq => hq⟩

theorem climbKeyOrBracket_mem {F : Type} (root : BNode F) :
    ∀ (up : List (List Nat)) (tree : List Nat),
      (climbKeyOrBracket root tree up).1 ∈ tree :: up
        ∧ ∀ p ∈ (climbKeyOrBracket root tree up).2, p ∈ up := by
  intro up
  induction up with
  | nil => intro tree; simp [climbKeyOrBracket]
  | cons p ps ih =>
    intro tree
    simp only [climbKeyOrBracket]
    split_ifs
    · have := ih p
      exact ⟨List.mem_cons_of_mem _ this.1, fun q hq => List.mem_cons_of_mem _ (this.2 q hq)⟩
    · exact ⟨List.mem_cons_self _ _, fun q hq => hq⟩

theorem okPath_typeAt {F : Type} (root : BNode F) (p : List Nat) (h : okPath root p) :
    root.typeAt p ≠ .OP := by
  obtain ⟨n, hn, hty⟩ := h
  simp only [BNode.typeAt, hn]
  exact hty

theorem leaf_opBound {F : Type} (b : Value F → Nat) (ty : Kind) (v : Value F)
    (ps : List (List Nat)) : opBound b (BNode.mk ty v [] ps).toTree = true := by
  rw [bnode_opBound_mk]
  simp

/-- The cases `FUNC`, `CONST`, `RESERVED`, `D_STR`, `S_STR`, `NEXT` and `OP` of
`buildTree`: a leaf is appended to `tree` or to a node of its `Parent` chain. -/
theorem BuildInv_leaf {F : Type} (root : BNode F) (tree : List Nat) (up : List (List Nat))
    (state : Kind) (h : BuildInv root tree up state) (ty : Kind) (v : Value F) (q : List Nat)
    (up' : List (List Nat)) (hq : q ∈ tree :: up) (hup : ∀ p ∈ up', p ∈ up) :
    BuildInv (root.append q (.mk ty v [] (tree :: up))) q up' ty := by
  obtain ⟨h1, h2, h3, _⟩ := h
  have hall : ∀ p ∈ tree :: up, okPath root p := by
    intro p hp
    rcases List.mem_cons.mp hp with rfl | hp
    · exact h2
    · exact h3 p hp
  have hokq := hall q hq
  refine ⟨?_, okPath_append root q _ q hokq, fun p hp => okPath_append root q _ p (h3 p (hup p hp)),
    fun hty => ?_⟩
  · exact append_opBound _ _ (leaf_opBound _ ty v _) q root h1 (okPath_typeAt root q hokq)
  · obtain ⟨n, hn, _⟩ := hokq
    rcases n with ⟨t0, v0, ts0, ps0⟩
    refine ⟨_, .mk ty v [] (tree :: up), get?_append_self _ t0 v0 ts0 ps0 q root hn, ?_, ?_, ?_⟩
    · simp [BNode.tokens]
    · rw [hty]
      simp [BNode.type]
    · intro p hp
      exact okPath_append root q _ p (hall p hp)

/-- The cases that open a node (`KEY` outside a key, `(` not after a function
name, `[`): the item is appended to `tree` and becomes the new `tree`. -/
theorem BuildInv_push {F : Type} (root : BNode F) (tree : List Nat) (up : List (List Nat))
    (state : Kind) (h : BuildInv root tree up state) (ty : Kind) (v : Value F)
    (ps : List (List Nat)) (hty : ty ≠ .OP) (state' : Kind) (hs : state' ≠ .FUNC) :
    BuildInv (root.append tree (.mk ty v [] ps)) (nextChild root tree) (tree :: up) state' := by
  obtain ⟨h1, h2, h3, _⟩ := h
  refine ⟨?_, ?_, ?_, fun hf => absurd hf hs⟩
  · exact append_opBound _ _ (leaf_opBound _ ty v _) tree root h1 (okPath_typeAt root tree h2)
  · obtain ⟨n, hn, _⟩ := h2
    rcases n with ⟨t0, v0, ts0, ps0⟩
    have hself := get?_append_self (.mk ty v [] ps) t0 v0 ts0 ps0 tree root hn
    refine ⟨.mk ty v [] ps, ?_, hty⟩
    simp only [nextChild, hn, BNode.tokens]
    rw [get?_snoc ts0.length tree _ _ hself]
    simp [BNode.tokens]
  · intro p hp
    rcases List.mem_cons.mp hp with rfl | hp
    · exact okPath_append root _ _ _ h2
    · exact okPath_append root _ _ p (h3 p hp)

/-- The case `KEY` inside a key: the item is appended to `tree`, which stays. -/
theorem BuildInv_append {F : Type} (root : BNode F) (tree : List Nat) (up : List (List Nat))
    (state : Kind) (h : BuildInv root tree up state) (ty : Kind) (v : Value F)
    (ps : List (List Nat)) (state' : Kind) (hs : state' ≠ .FUNC) :
    BuildInv (root.append tree (.mk ty v [] ps)) tree up state' := by
  obtain ⟨h1, h2, h3, _⟩ := h
  refine ⟨?_, okPath_append root _ _ _ h2, fun p hp => okPath_append root _ _ p (h3 p hp),
    fun hf => absurd hf hs⟩
  exact append_opBound _ _ (leaf_opBound _ ty v _) tree root h1 (okPath_typeAt root tree h2)

/-- The cases that move `tree` along its `Parent` chain (`]`, `)`) or leave it. -/
theorem BuildInv_move {F : Type} (root : BNode F) (tree : List Nat) (up : List (List Nat))
    (state : Kind) (h : BuildInv root tree up state) (tree' : List Nat)
    (up' : List (List Nat)) (ht : tree' ∈ tree :: up) (hup : ∀ p ∈ up', p ∈ up)
    (state' : Kind) (hs : state' ≠ .FUNC) : BuildInv root tree' up' state' := by
  obtain ⟨h1, h2, h3, _⟩ := h
  refine ⟨h1, ?_, fun p hp => h3 p (hup p hp), fun hf => absurd hf hs⟩
  rcases List.mem_cons.mp ht with rfl | hp
  · exact h2
  · exact h3 _ hp

/-- The case `(` after a function name: `tree` becomes the function node. -/
theorem BuildInv_open {F : Type} (root : BNode F) (tree : List Nat) (up : List (List Nat))
    (h : BuildInv root tree up .FUNC) (n f : BNode F) (hn : root.get? tree = some n)
    (hf : n.tokens.getLast? = some f) (state' : Kind) (hs : state' ≠ .FUNC) :
    BuildInv root (tree ++ [n.tokens.length - 1]) f.parents state' := by
  obtain ⟨h1, _, _, h4⟩ := h
  obtain ⟨n0, f0, hn0, hf0, hty, hps⟩ := h4 rfl
  rw [hn] at hn0
  simp only [Option.some.injEq] at hn0
  subst hn0
  rw [hf] at hf0
  simp only [Option.some.injEq] at hf0
  subst hf0
  refine ⟨h1, ⟨f, ?_, hty⟩, hps, fun hf' => absurd hf' hs⟩
  rw [get?_snoc _ tree root n hn, List.get?_eq_getElem?, ← List.getLast?_eq_getElem?]
  exact hf

theorem pos_climbKey {F : Type} (root : BNode F) (tree : List Nat) (up : List (List Nat))
    (inKey : Bool) :
    (if inKey then climbKey root tree up else (tree, up)).1 ∈ tree :: up
      ∧ ∀ p ∈ (if inKey then climbKey root tree up else (tree, up)).2, p ∈ up := by
  cases inKey with
  | true => simpa using climbKey_mem root up tree
  | false => simp

theorem pos_climbKeyOrBracket {F : Type} (root : BNode F) (tree : List Nat)
    (up : List (List Nat)) (inKey : Bool) :
    (if inKey then climbKeyOrBracket root tree up else (tree, up)).1 ∈ tree :: up
      ∧ ∀ p ∈ (if inKey then climbKeyOrBracket root tree up else (tree, up)).2, p ∈ up := by
  cases inKey with
  | true => simpa using climbKeyOrBracket_mem root up tree
  | false => simp

/-- One iteration of the loop of `buildTree` maintains `BuildInv`. -/
theorem buildStep_inv {F : Type} (E : Go F) (st st1 : BuildState F) (t : Token)
    (h : BuildInv st.root st.tree st.up st.state) (hs : buildStep E st t = .ok st1) :
    BuildInv st1.root st1.tree st1.up st1.state := by
  rcases t with ⟨ty, val⟩
  unfold buildStep at hs
  cases hv : itemValue E ⟨ty, val⟩ with
  | error e => rw [hv] at hs; cases hs
  | ok v =>
    rw [hv] at hs
    have hleaf := fun k => BuildInv_leaf st.root st.tree st.up st.state h k v
      (if st.inKey then climbKey st.root st.tree st.up else (st.tree, st.up)).1
      (if st.inKey then climbKey st.root st.tree st.up else (st.tree, st.up)).2
      (pos_climbKey st.root st.tree st.up st.inKey).1
      (pos_climbKey st.root st.tree st.up st.inKey).2
    cases ty with
    | FUNC => simp only [Result.ok.injEq] at hs; subst hs; exact hleaf _
    | CONST => simp only [Result.ok.injEq] at hs; subst hs; exact hleaf _
    | RESERVED => simp only [Result.ok.injEq] at hs; subst hs; exact hleaf _
    | D_STR => simp only [Result.ok.injEq] at hs; subst hs; exact hleaf _
    | S_STR => simp only [Result.ok.injEq] at hs; subst hs; exact hleaf _
    | NEXT => simp only [Result.ok.injEq] at hs; subst hs; exact hleaf _
    | OP => simp only [Result.ok.injEq] at hs; subst hs; exact hleaf _
    | KEY =>
      simp only at hs
      split_ifs at hs with hk
      · simp only [Result.ok.injEq] at hs
        subst hs
        exact BuildInv_append _ _ _ _ h _ _ _ _ (by simp)
      · simp only [Result.ok.injEq] at hs
        subst hs
        exact BuildInv_push _ _ _ _ h _ _ _ (by decide) _ (by simp)
    | Q_START =>
      simp only at hs
      split_ifs at hs with hk
      · cases hn : st.root.get? st.tree with
        | none => rw [hn] at hs; cases hs
        | some n =>
          rw [hn] at hs
          simp only at hs
          cases hf : n.tokens.getLast? with
          | none => rw [hf] at hs; cases hs
          | some f =>
            rw [hf] at hs
            simp only [Result.ok.injEq] at hs
            subst hs
            rw [hk] at h
            exact BuildInv_open _ _ _ h n f hn hf _ (by simp)
      · simp only [Result.ok.injEq] at hs
        subst hs
        exact BuildInv_push _ _ _ _ h _ _ _ (by decide) _ (by simp)
    | K_START =>
      simp only at hs
      split_ifs at hs with hk
      simp only [Result.ok.injEq] at hs
      subst hs
      exact BuildInv_push _ _ _ _ h _ _ _ (by decide) _ (by simp)
    | K_END =>
      simp only at hs
      cases hu : st.up with
      | nil => rw [hu] at hs; cases hs
      | cons p ps =>
        rw [hu] at hs
        simp only [Result.ok.injEq] at hs
        subst hs
        exact BuildInv_move _ _ _ _ h p ps (by rw [hu]; simp)
          (fun q hq => by rw [hu]; exact List.mem_cons_of_mem _ hq) _ (by simp)
    | Q_END =>
      simp only at hs
      have hpos := pos_climbKeyOrBracket st.root st.tree st.up st.inKey
      cases hu : (if st.inKey then climbKeyOrBracket st.root st.tree st.up
          else (st.tree, st.up)).2 with
      | nil => rw [hu] at hs; cases hs
      | cons p ps =>
        rw [hu] at hs
        simp only [Result.ok.injEq] at hs
        subst hs
        rw [hu] at hpos
        exact BuildInv_move _ _ _ _ h p ps
          (List.mem_cons_of_mem _ (hpos.2 p (List.mem_cons_self _ _)))
          (fun q hq => hpos.2 q (List.mem_cons_of_mem _ hq)) _ (by simp)
    | ZERO =>
      simp only [Result.ok.injEq] at hs; subst hs
      exact BuildInv_move _ _ _ _ h _ _ (List.mem_cons_self _ _) (fun q hq => hq) _ (by simp)
    | SPACE =>
      simp only [Result.ok.injEq] at hs; subst hs
      exact BuildInv_move _ _ _ _ h _ _ (List.mem_cons_self _ _) (fun q hq => hq) _ (by simp)
    | ESC =>
      simp only [Result.ok.injEq] at hs; subst hs
      exact BuildInv_move _ _ _ _ h _ _ (List.mem_cons_self _ _) (fun q hq => hq) _ (by simp)
    | EQ =>
      simp only [Result.ok.injEq] at hs; subst hs
      exact BuildInv_move _ _ _ _ h _ _ (List.mem_cons_self _ _) (fun q hq => hq) _ (by simp)

theorem buildLoop_inv {F : Type} (E : Go F) :
    ∀ (toks : List Token) (st st1 : BuildState F),
      BuildInv st.root st.tree st.up st.state → buildLoop E toks st = .ok st1 →
      BuildInv st1.root st1.tree st1.up st1.state := by
  intro toks
  induction toks with
  | nil =>
    intro st st1 h hs
    simp only [buildLoop, Result.ok.injEq] at hs
    subst hs
    exact h
  | cons t ts ih =>
    intro st st1 h hs
    simp only [buildLoop] at hs
    cases hb : buildStep E st t with
    | error e => rw [hb] at hs; cases hs
    | ok st2 =>
      rw [hb] at hs
      exact ih st2 st1 (buildStep_inv E st st2 t h hb) hs

/-- In a tree returned by `buildTree` no `OP` node has children. -/
theorem buildTree_bound {F : Type} (E : Go F) (toks : List Token) (t : TokenTree F)
    (h : buildTree E toks = .ok t) : opBound (fun _ => 0) t = true := by
  unfold buildTree at h
  cases hb : buildLoop E toks ⟨.mk .ZERO .null [] [], [], [], false, 0, 0, .ZERO⟩ with
  | error e => rw [hb] at h; cases h
  | ok st =>
    rw [hb] at h
    simp only at h
    have hinv := buildLoop_inv E toks ⟨.mk .ZERO .null [] [], [], [], false, 0, 0, .ZERO⟩ st
      ⟨leaf_opBound _ _ _ _, ⟨.mk .ZERO .null [] [], rfl, by simp [BNode.type]⟩,
        fun p hp => by simp at hp, fun hf => by cases hf⟩ hb
    split_ifs at h
    cases hn : st.root.get? (st.up.getLast?.getD st.tree) with
    | none => rw [hn] at h; cases h
    | some n =>
      rw [hn] at h
      simp only [Result.ok.injEq] at h
      subst h
      exact get?_opBound _ _ st.root n hn hinv.1

theorem inStringSlice_iff (l : List String) (s : String) :
    inStringSlice l s = true ↔ s ∈ l := by
  simp only [inStringSlice, List.any_eq_true, decide_eq_true_eq]
  constructor
  · rintro ⟨x, hx, rfl⟩
    exact hx
  · intro h
    exact ⟨s, h, rfl⟩

/-- The four calls of `split` of `Parser` fold disjoint classes of operators, so
an operator gets two children from at most one of them. -/
theorem parser_arity_le {F : Type} (v : Value F) :
    bump ["==", ">=", ">", "<", "<=", "!="]
      (bump ["+", "-"] (bump ["*", "/"] (bump ["&&", "||"] negArity))) v ≤ opArity v := by
  cases v with
  | str s =>
    by_cases h : s ∈ binOps
    · simp only [binOps, opClasses, List.flatten, List.append_nil, List.cons_append,
        List.nil_append, List.mem_cons, List.mem_singleton, List.not_mem_nil, or_false] at h
      rcases h with rfl | rfl | rfl | rfl | rfl | rfl | rfl | rfl | rfl | rfl | rfl | rfl <;>
        exact Nat.le_of_ble_eq_true rfl
    · have hb : inStringSlice binOps s = false := by
        rw [← Bool.not_eq_true, inStringSlice_iff]
        exact h
      have hc : ∀ l : List String, (∀ x ∈ l, x ∈ binOps) → inStringSlice l s = false := by
        intro l hl
        rw [← Bool.not_eq_true, inStringSlice_iff]
        exact fun hs => h (hl s hs)
      simp only [bump, opArity, hb, hc ["&&", "||"] (by decide), hc ["*", "/"] (by decide),
        hc ["+", "-"] (by decide), hc ["==", ">=", ">", "<", "<=", "!="] (by decide)]
      simp [negArity]
  | null => simp [bump, opArity, negArity]
  | bool _ => simp [bump, opArity, negArity]
  | num _ => simp [bump, opArity, negArity]
  | list _ => simp [bump, opArity, negArity]
  | map _ => simp [bump, opArity, negArity]
  | int _ => simp [bump, opArity, negArity]

/-- In a tree returned by `Parser`, an `OP` node with value `v` has at most
`opArity v` children. -/
theorem Parser_bound {F : Type} (E : Go F) (toks : List Token) (t : TokenTree F)
    (h : Parser E toks = .ok t) : opBound opArity t = true := by
  unfold Parser at h
  cases hb : buildTree E toks with
  | error e => rw [hb] at h; cases h
  | ok t0 =>
    rw [hb] at h
    simp only at h
    have h0 := buildTree_bound E toks t0 hb
    have h1 := not_bound_sized (sizeOf t0 + 1) t0 (Nat.lt_succ_self _) h0
    have h2 := negative_bound_sized (sizeOf (not t0) + 1) (not t0) (Nat.lt_succ_self _) h1
    cases hs1 : split .OP ["&&", "||"] (negative (not t0)) with
    | error e => rw [hs1] at h; cases h
    | ok t1 =>
      rw [hs1] at h
      simp only [Result.bind] at h
      have h3 := split_bound _ _ _ _ t1 h2 hs1
      cases hs2 : split .OP ["*", "/"] t1 with
      | error e => rw [hs2] at h; cases h
      | ok t2 =>
        rw [hs2] at h
        simp only at h
        have h4 := split_bound _ _ _ _ t2 h3 hs2
        cases hs3 : split .OP ["+", "-"] t2 with
        | error e => rw [hs3] at h; cases h
        | ok t3 =>
          rw [hs3] at h
          simp only at h
          have h5 := split_bound _ _ _ _ t3 h4 hs3
          have h6 := split_bound _ _ _ _ t h5 h
          exact opBound_le _ _ parser_arity_le t h6

/-! ## C17: the number of children of `OP` and `FUNC` nodes -/

theorem opArity_le_three {F : Type} (v : Value F) : opArity v ≤ 3 := by
  cases v with
  | str s =>
    simp only [opArity]
    split_ifs <;> omega
  | null => simp [opArity]
  | bool _ => simp [opArity]
  | num _ => simp [opArity]
  | list _ => simp [opArity]
  | map _ => simp [opArity]
  | int _ => simp [opArity]

/-- C17, the claim as written fails: `Parser` accepts `1 +` and returns the `OP`
node `+` with no children; it accepts `"a" - 1 "b"` and returns the `OP` node `-`
with three children (`negative` gave it `1`, `split` then `"a"` and `"b"`); it
accepts `$f(1, 2, 3)` and returns the `FUNC` node with five children, the three
arguments and the two commas between them. -/
theorem C17_arity_counterexample :
    parseString exactGo "1 +" = .ok (rootNode [numLeaf 1, opNode "+" []])
    ∧ parseString exactGo (String.mk [dquote, 'a', dquote, ' ', '-', ' ', '1', ' ',
        dquote, 'b', dquote]) =
      .ok (rootNode [opNode "-" [numLeaf 1, .mk .D_STR (.str "a") [], .mk .D_STR (.str "b") []]])
    ∧ parseString exactGo "$f(1, 2, 3)" =
      .ok (rootNode [.mk .FUNC (.str "$f")
        [numLeaf 1, .mk .NEXT (.str ",") [], numLeaf 2, .mk .NEXT (.str ",") [], numLeaf 3]]) := by
  decide!

/-- C17, amended: in the tree of every token sequence that `Parser` accepts, an
`OP` node has at most three children; more exactly at most `opArity v` for the
value `v` of the node: one for `!`, three for `-` (one from `negative`, two from
`split`), two for the other binary operators, none for any other operator. -/
theorem C17_op_arity {F : Type} (E : Go F) (toks : List Token) (t : TokenTree F)
    (h : Parser E toks = .ok t) :
    opBound opArity t = true ∧ opBound (fun _ => 3) t = true :=
  ⟨Parser_bound E toks t h, opBound_le _ _ opArity_le_three t (Parser_bound E toks t h)⟩

/-- C17, amended, witness: the tokens of `1 - 2`. -/
theorem C17_op_arity_witness :
    Parser exactGo [⟨.CONST, "1"⟩, ⟨.OP, "-"⟩, ⟨.CONST, "2"⟩] =
      .ok (rootNode [opNode "-" [numLeaf 1, numLeaf 2]])
    ∧ opBound opArity (rootNode [opNode "-" [numLeaf (1 : Rat), numLeaf 2]]) = true
    ∧ opBound (fun _ => 3) (rootNode [opNode "-" [numLeaf (1 : Rat), numLeaf 2]]) = true :=
  ⟨by decide!, C17_op_arity exactGo [⟨.CONST, "1"⟩, ⟨.OP, "-"⟩, ⟨.CONST, "2"⟩] _ (by decide!)⟩

/-! ## C21: backslashes inside a string literal -/

theorem Ident_bslash : Ident bslash = some .ESC := by decide

theorem getIdent_bslash {F : Type} (E : Go F) : getIdent E bslash = .ESC := by
  simp only [getIdent, Ident_bslash]

theorem Ident_dquote : Ident dquote = some .D_STR := by decide

theorem Ident_squote : Ident squote = some .S_STR := by decide

/-- The backslash is the only rune of kind `ESC`. -/
theorem getIdent_ne_esc {F : Type} (E : Go F) (c : Char) (h : c ≠ bslash) :
    getIdent E c ≠ .ESC := by
  have hi : Ident c ≠ some .ESC := by
    unfold Ident
    exact ite_ne_of_ne (by decide) (ite_ne_of_ne (by decide) (ite_ne_of_ne (by decide)
      (ite_ne_of_ne (by decide) (ite_ne_of_ne (by decide) (ite_ne_of_ne (by decide)
      (ite_ne_of_ne (by decide) (ite_ne_of_ne (by decide) (ite_ne_of_ne (by decide)
      (by rw [if_neg h]; exact ite_ne_of_ne (by decide) (by decide))))))))))
  unfold getIdent
  cases hI : Ident c with
  | some i =>
    rw [hI] at hi
    simp only
    exact fun e => hi (congrArg some e)
  | none =>
    simp only
    split_ifs <;> decide

theorem tokenPopMap_quote {F : Type} (E : Go F) (q : Char) (K : Kind) (hq : QuoteOf q K)
    (c : Char) (w : String) : tokenPopMap E K c w = decide (c = q) := by
  rcases hq with ⟨rfl, rfl⟩ | ⟨rfl, rfl⟩
  · by_cases hc : c = dquote
    · subst hc
      simp [tokenPopMap, Ident_dquote]
    · by_cases hs : c = squote
      · subst hs
        simp only [tokenPopMap]
        decide
      · simp [tokenPopMap, (Ident_ne_string c hc hs).1, hc]
  · by_cases hs : c = squote
    · subst hs
      simp [tokenPopMap, Ident_squote]
    · by_cases hc : c = dquote
      · subst hc
        simp only [tokenPopMap]
        decide
      · simp [tokenPopMap, (Ident_ne_string c hc hs).2, hs]

theorem QuoteOf_getIdent {F : Type} (E : Go F) (q : Char) (K : Kind) (hq : QuoteOf q K) :
    getIdent E q = K := by
  rcases hq with ⟨rfl, rfl⟩ | ⟨rfl, rfl⟩
  · simp only [getIdent, Ident_dquote]
  · simp only [getIdent, Ident_squote]

theorem QuoteOf_inStr (q : Char) (K : Kind) (hq : QuoteOf q K) :
    (decide (K = .D_STR) || decide (K = .S_STR)) = true := by
  rcases hq with ⟨_, rfl⟩ | ⟨_, rfl⟩ <;> rfl

/-- Inside a string literal a backslash is consumed, also right after a backslash. -/
theorem lexStep_str_bslash {F : Type} (E : Go F) (q : Char) (K : Kind) (hq : QuoteOf q K)
    (toks : List Token) (w : String) (esc : Bool) :
    lexStep E ⟨toks, w, K, false, esc⟩ bslash = .ok ⟨toks, w, K, false, true⟩ := by
  rw [lexStep_eq]
  simp [getIdent_bslash, QuoteOf_inStr q K hq]

/-- Inside a string literal a rune other than the backslash is appended to the
word, if it is escaped or is not the closing quote. -/
theorem lexStep_str_char {F : Type} (E : Go F) (q : Char) (K : Kind) (hq : QuoteOf q K)
    (toks : List Token) (w : String) (esc : Bool) (c : Char) (hw : w ≠ "") (hc : c ≠ bslash)
    (he : esc = true ∨ c ≠ q) :
    lexStep E ⟨toks, w, K, false, esc⟩ c =
      .ok ⟨toks, w ++ String.singleton c, K, false, false⟩ := by
  rw [lexStep_eq]
  have hin := QuoteOf_inStr q K hq
  have hesc := getIdent_ne_esc E c hc
  simp only [hin, Bool.not_true, Bool.and_false, Bool.false_eq_true, if_false, Bool.and_true,
    decide_eq_true_eq, hesc]
  rcases he with rfl | hne
  · rcases hq with ⟨_, rfl⟩ | ⟨_, rfl⟩ <;> simp [lexSwitch, lexTail, hw]
  · have hp := tokenPopMap_quote E q K hq c w
    simp only [hne, decide_False] at hp
    cases esc <;> rcases hq with ⟨_, rfl⟩ | ⟨_, rfl⟩ <;> simp [lexSwitch, lexTail, hw, hp]

/-- The closing quote: the word with the quote is emitted. -/
theorem lexStep_str_close {F : Type} (E : Go F) (q : Char) (K : Kind) (hq : QuoteOf q K)
    (toks : List Token) (w : String) :
    lexStep E ⟨toks, w, K, false, false⟩ q =
      .ok ⟨toks ++ [⟨K, w ++ String.singleton q⟩], "", .ZERO, false, false⟩ := by
  rw [lexStep_eq]
  have hin := QuoteOf_inStr q K hq
  have hk := QuoteOf_getIdent E q K hq
  have hp := tokenPopMap_quote E q K hq q w
  simp only [decide_True] at hp
  rcases hq with ⟨rfl, rfl⟩ | ⟨rfl, rfl⟩ <;>
    simp [hk, lexSwitch, lexTail, hp, emitToken]

/-- The opening quote, met with an empty word outside a string. -/
theorem lexStep_str_open {F : Type} (E : Go F) (q : Char) (K : Kind) (hq : QuoteOf q K)
    (toks : List Token) :
    lexStep E ⟨toks, "", .ZERO, false, false⟩ q =
      .ok ⟨toks, String.singleton q, K, false, false⟩ := by
  rw [lexStep_eq]
  have hk := QuoteOf_getIdent E q K hq
  rcases hq with ⟨rfl, rfl⟩ | ⟨rfl, rfl⟩ <;> simp [hk, lexSwitch, lexTail]

/-- The body of a string literal: the backslashes are dropped, every other rune is
appended to the word. -/
theorem lexLoop_str_body {F : Type} (E : Go F) (q : Char) (K : Kind) (hq : QuoteOf q K)
    (toks : List Token) (rest : List Char) :
    ∀ (body : List Char) (w : String) (esc : Bool), w ≠ "" →
      quotesEscaped q esc body = true →
      lexLoop E (body ++ rest) ⟨toks, w, K, false, esc⟩ =
        lexLoop E rest ⟨toks, w ++ String.mk (unescape body), K, false, false⟩ := by
  intro body
  induction body with
  | nil =>
    intro w esc _ h
    simp only [quotesEscaped, Bool.not_eq_true'] at h
    subst h
    simp [unescape, str_append_nil]
  | cons c cs ih =>
    intro w esc hw h
    simp only [quotesEscaped] at h
    by_cases hc : c = bslash
    · subst hc
      simp only [if_true] at h
      simp only [List.cons_append, lexLoop, lexStep_str_bslash E q K hq]
      have e := ih w true hw h
      have hu : unescape (bslash :: cs) = unescape cs := by
        simp [unescape]
      rw [hu]
      exact e
    · simp only [hc, if_false] at h
      have hstep : esc = true ∨ c ≠ q := by
        by_cases hcq : c = q
        · simp only [hcq, if_true, Bool.and_eq_true] at h
          exact Or.inl h.1
        · exact Or.inr hcq
      have hrest : quotesEscaped q false cs = true := by
        by_cases hcq : c = q
        · simp only [hcq, if_true, Bool.and_eq_true] at h
          exact h.2
        · simpa only [hcq, if_false] using h
      simp only [List.cons_append, lexLoop, lexStep_str_char E q K hq toks w esc c hw hc hstep]
      have e := ih _ false (str_append_ne w c) hrest
      have hu : unescape (c :: cs) = c :: unescape cs := by
        simp [unescape, hc]
      rw [str_push_mk] at e
      rw [hu]
      exact e

/-- C21, the claim as written fails: a backslash that follows a backslash inside a
string literal is consumed like the first one. The source `"a\\b"` gives the
lexeme `"ab"`, without any backslash, not `"a\b"`. -/
theorem C21_escaped_backslash_counterexample :
    Lexer exactGo (String.mk [dquote, 'a', bslash, bslash, 'b', dquote]) =
      .ok [⟨.D_STR, String.mk [dquote, 'a', 'b', dquote]⟩]
    ∧ Lexer exactGo (String.mk [dquote, 'a', bslash, bslash, 'b', dquote]) ≠
      .ok [⟨.D_STR, String.mk [dquote, 'a', bslash, 'b', dquote]⟩] := by
  decide!

/-- C21, amended: inside a double- or single-quoted string literal every backslash
is consumed, one that follows a backslash included, and every other rune is
appended to the lexeme as it is, whatever its kind; a quote that follows a
backslash does not close the string and appears in the lexeme. For a body in which
every quote of the literal's kind follows a backslash and which does not end in a
backslash, the literal is lexed as one token whose lexeme is the opening quote,
the body without its backslashes, and the closing quote; no backslash is in it. -/
theorem C21_string_escapes {F : Type} (E : Go F) (q : Char) (K : Kind) (hq : QuoteOf q K)
    (body : List Char) (h : quotesEscaped q false body = true) :
    Lexer E (String.mk (q :: body ++ [q])) = .ok [⟨K, String.mk (q :: unescape body ++ [q])⟩]
    ∧ bslash ∉ q :: unescape body ++ [q] := by
  constructor
  · unfold Lexer
    have hb := lexLoop_str_body E q K hq [] [q] body (String.singleton q) false
      (by intro e; have := congrArg String.data e; simp at this) h
    have hdata : (String.mk (q :: body ++ [q])).data = q :: (body ++ [q]) := rfl
    rw [hdata]
    simp only [lexLoop, lexStep_str_open E q K hq []]
    rw [hb]
    simp only [lexLoop, lexStep_str_close E q K hq []]
    have hs : String.singleton q ++ String.mk (unescape body) ++ String.singleton q =
        String.mk (q :: unescape body ++ [q]) := by
      apply String.ext
      simp
    simp [hs]
  · have hqb : q ≠ bslash := by
      rcases hq with ⟨rfl, _⟩ | ⟨rfl, _⟩ <;> decide
    intro hm
    rcases List.mem_cons.mp hm with e | hm
    · exact hqb e.symm
    · rcases List.mem_append.mp hm with hm | hm
      · simp [unescape] at hm
      · simp only [List.mem_singleton] at hm
        exact hqb hm.symm

/-- C21, amended, witness: the source `"a\"b\\c"`, with the lexeme `"a"bc"`. -/
theorem C21_string_escapes_witness :
    Lexer exactGo
        (String.mk (dquote :: ['a', bslash, dquote, 'b', bslash, bslash, 'c'] ++ [dquote])) =
      .ok [⟨.D_STR,
        String.mk (dquote :: unescape ['a', bslash, dquote, 'b', bslash, bslash, 'c']
          ++ [dquote])⟩]
    ∧ bslash ∉ dquote :: unescape ['a', bslash, dquote, 'b', bslash, bslash, 'c'] ++ [dquote] :=
  C21_string_escapes exactGo dquote .D_STR (Or.inl ⟨rfl, rfl⟩)
    ['a', bslash, dquote, 'b', bslash, bslash, 'c'] (by decide)

/-! ## C22: a number literal with a decimal point -/

/-- A number literal alone is lexed as one `CONST` token. -/
theorem Lexer_numeral {F : Type} (E : Go F) (s : String) (h : isNumeral E s = true) :
    Lexer E s = .ok [⟨.CONST, s⟩] := by
  have hl := lexLoop_numeral_start E s h [] [] false
  rw [List.append_nil] at hl
  unfold Lexer
  rw [hl]
  simp [lexLoop, isNumeral_ne E s h]

theorem Parser_const {F : Type} (E : Go F) (s : String) :
    Parser E [⟨.CONST, s⟩] = .ok (rootNode [constLeaf E s]) := by
  have hb : buildTree E [⟨.CONST, s⟩] = .ok (rootNode [constLeaf E s]) := by
    simp only [buildTree, buildLoop, buildStep, itemValue, constLeaf]
    generalize constValue E s = v
    rfl
  unfold Parser
  rw [hb]
  simp only [constLeaf]
  generalize constValue E s = v
  rfl

theorem isNumeral_point {F : Type} (E : Go F) (d1 d2 : String) (h1 : d1 ≠ "")
    (hd1 : ∀ c ∈ d1.data, getIdent E c = .CONST) (hd2 : ∀ c ∈ d2.data, getIdent E c = .CONST) :
    isNumeral E (d1 ++ "." ++ d2) = true := by
  unfold isNumeral
  rcases d1 with ⟨l1⟩
  cases l1 with
  | nil => exact absurd rfl h1
  | cons d rest =>
    have hdata : (String.mk (d :: rest) ++ "." ++ d2).data = d :: (rest ++ '.' :: d2.data) := by
      simp [String.data_append]
    rw [hdata]
    simp only [Bool.and_eq_true, decide_eq_true_eq, List.all_eq_true, Bool.or_eq_true]
    refine ⟨hd1 d (List.mem_cons_self _ _), fun c hc => ?_⟩
    rcases List.mem_append.mp hc with hc | hc
    · exact Or.inl (hd1 c (List.mem_cons_of_mem _ hc))
    · rcases List.mem_cons.mp hc with rfl | hc
      · exact Or.inr rfl
      · exact Or.inl (hd2 c hc)

/-- C22, the claim as written fails: `Lexer("1.5")` returns the single token `CONST`
with lexeme `1.5`, not `CONST 1` followed by `KEY .5`; `Parser` makes of it the
number 3/2. -/
theorem C22_decimal_counterexample :
    Lexer exactGo "1.5" = .ok [⟨.CONST, "1.5"⟩]
    ∧ Lexer exactGo "1.5" ≠ .ok [⟨.CONST, "1"⟩, ⟨.KEY, ".5"⟩]
    ∧ parseString exactGo "1.5" = .ok (rootNode [numLeaf (3 / 2)]) := by
  decide!

/-- C22, amended: a point does not end a number literal. For every non-empty string
`d1` of number runes and every string `d2` of number runes, `Lexer` returns for
`d1 ++ "." ++ d2` the single token `CONST` with that lexeme, and `Parser` makes of
it one `CONST` leaf, holding the number `strconv.ParseFloat` reads (the lexeme
itself when it reads none). -/
theorem C22_decimal_literal {F : Type} (E : Go F) (d1 d2 : String) (h1 : d1 ≠ "")
    (hd1 : ∀ c ∈ d1.data, getIdent E c = .CONST) (hd2 : ∀ c ∈ d2.data, getIdent E c = .CONST) :
    Lexer E (d1 ++ "." ++ d2) = .ok [⟨.CONST, d1 ++ "." ++ d2⟩]
    ∧ parseString E (d1 ++ "." ++ d2) = .ok (rootNode [constLeaf E (d1 ++ "." ++ d2)]) := by
  have hl := Lexer_numeral E _ (isNumeral_point E d1 d2 h1 hd1 hd2)
  refine ⟨hl, ?_⟩
  unfold parseString
  rw [hl]
  exact Parser_const E _

/-- C22, amended, witness: `1.5`. -/
theorem C22_decimal_literal_witness :
    Lexer exactGo ("1" ++ "." ++ "5") = .ok [⟨.CONST, "1" ++ "." ++ "5"⟩]
    ∧ parseString exactGo ("1" ++ "." ++ "5") =
        .ok (rootNode [constLeaf exactGo ("1" ++ "." ++ "5")]) :=
  C22_decimal_literal exactGo "1" "5" (by decide) (by decide) (by decide)

/-! ## C23: a string literal that is not closed -/

/-- C23, the code at the failing inputs: `Lexer` emits the unterminated literal
`"abc` as one `D_STR` token with that lexeme, and `Parser` accepts it, as the
string `ab`: `buildTree` cuts the first and the last byte off the lexeme without
looking for a closing quote. On a lone `"` the same slice expression has bounds
1 and 0 and panics. -/
theorem C23_unterminated_string :
    Lexer exactGo (String.mk [dquote, 'a', 'b', 'c']) =
      .ok [⟨.D_STR, String.mk [dquote, 'a', 'b', 'c']⟩]
    ∧ Parser exactGo [⟨.D_STR, String.mk [dquote, 'a', 'b', 'c']⟩] =
      .ok (rootNode [.mk .D_STR (.str "ab") []])
    ∧ Lexer exactGo (String.mk [dquote]) = .ok [⟨.D_STR, String.mk [dquote]⟩]
    ∧ Parser exactGo [⟨.D_STR, String.mk [dquote]⟩] =
      .error (.panic "slice bounds out of range") := by
  decide!

/-! ## C24: a `-` after a function call -/

theorem Lexer_len {F : Type} (E : Go F) (hE : AsciiStd E) :
    Lexer E "$len(.xs) - 1" =
      .ok [⟨.FUNC, "$len"⟩, ⟨.Q_START, "("⟩, ⟨.KEY, ".xs"⟩, ⟨.Q_END, ")"⟩, ⟨.OP, "-"⟩,
        ⟨.CONST, "1"⟩] := by
  rw [Lexer_ascii E hE _ (by decide)]
  decide!

theorem Parser_len {F : Type} (E : Go F) :
    Parser E [⟨.FUNC, "$len"⟩, ⟨.Q_START, "("⟩, ⟨.KEY, ".xs"⟩, ⟨.Q_END, ")"⟩, ⟨.OP, "-"⟩,
        ⟨.CONST, "1"⟩] =
      .ok (rootNode [.mk .FUNC (.str "$len") [keyLeaf "xs"], opNode "-" [constLeaf E "1"]]) := by
  have hb : buildTree E [⟨.FUNC, "$len"⟩, ⟨.Q_START, "("⟩, ⟨.KEY, ".xs"⟩, ⟨.Q_END, ")"⟩,
      ⟨.OP, "-"⟩, ⟨.CONST, "1"⟩] =
      .ok (rootNode [.mk .FUNC (.str "$len") [keyLeaf "xs"], opNode "-" [], constLeaf E "1"]) := by
    simp only [buildTree, buildLoop, buildStep, itemValue, constLeaf]
    generalize constValue E "1" = v
    rfl
  unfold Parser
  rw [hb]
  simp only [constLeaf]
  generalize constValue E "1" = v
  rfl

/-- After a `FUNC` sibling, `negative` takes a `-` as unary. -/
theorem negative_after_func {F : Type} (fv : Value F) (fts : List (TokenTree F))
    (y : TokenTree F) (hy : ¬(y.type = .OP ∧ y.value.eqStr "-" = true)) :
    negative (rootNode [.mk .FUNC fv fts, opNode "-" [], y]) =
      rootNode [if fts.length > 0 then negative (.mk .FUNC fv fts) else .mk .FUNC fv fts,
        opNode "-" [if y.tokens.length > 0 then negative y else y]] := by
  have h1 : ¬((TokenTree.mk .FUNC fv fts).type = .OP ∧ (TokenTree.mk .FUNC fv fts).value.eqStr "-"
      = true ∧ Kind.ZERO ≠ .CONST ∧ Kind.ZERO ≠ .KEY ∧ Kind.ZERO ≠ .Q_START) := by
    intro h
    exact absurd h.1 (by simp [TokenTree.type])
  have h2 : (opNode "-" ([] : List (TokenTree F))).type = .OP
      ∧ (opNode "-" ([] : List (TokenTree F))).value.eqStr "-" = true
      ∧ (TokenTree.mk .FUNC fv fts).type ≠ .CONST ∧ (TokenTree.mk .FUNC fv fts).type ≠ .KEY
      ∧ (TokenTree.mk .FUNC fv fts).type ≠ .Q_START := by
    simp [opNode, TokenTree.type, TokenTree.value, Value.eqStr]
  have h3 : ¬(y.type = .OP ∧ y.value.eqStr "-" = true
      ∧ (TokenTree.mk .FUNC fv fts).type ≠ .CONST ∧ (TokenTree.mk .FUNC fv fts).type ≠ .KEY
      ∧ (TokenTree.mk .FUNC fv fts).type ≠ .Q_START) := fun h => hy ⟨h.1, h.2.1⟩
  simp only [rootNode, negative, negativeLoop, if_neg h1, if_pos h2, if_neg h3]
  simp [appendToLast, opNode, TokenTree.tokens]

/-- C24, the claim as written fails: in `$len(.xs) - 1` the `-` follows a `FUNC`
sibling, so `negative` folds it as unary. `Parser` yields a root with the two
children `$len(.xs)` and `-`(1), not a two-child `-`, and `Eval`, which evaluates
the first child of the root, returns 3 for a list of length 3, not 2. -/
theorem C24_minus_after_call_counterexample :
    parseString exactGo "$len(.xs) - 1" =
      .ok (rootNode [.mk .FUNC (.str "$len") [keyLeaf "xs"], opNode "-" [numLeaf 1]])
    ∧ evalString exactGo "$len(.xs) - 1" (.map [("xs", .list [.num 5, .num 6, .num 7])]) =
      .ok (.num 3)
    ∧ evalString exactGo "$len(.xs) - 1" (.map [("xs", .list [.num 5, .num 6, .num 7])]) ≠
      .ok (.num 2) := by
  decide!

/-- C24, amended: `negative` folds a `-` as unary exactly when the kind of the
sibling before it is not `CONST`, `KEY` or `Q_START`; a function call leaves a
`FUNC` sibling, so the `-` after it is unary and takes the next sibling `y` as its
only child. For `$len(.xs) - 1`, `Parser` yields the root with the children
`$len(.xs)` and `-`(1), and `Eval` on a message whose `xs` is a list of length `n`
returns `n`, the value of the first child. -/
theorem C24_minus_after_call {F : Type} (E : Go F) (hE : AsciiStd E)
    (m : List (String × Value F)) (l : List (Value F)) (hxs : lookup m "xs" = .list l) :
    (∀ (fv : Value F) (fts : List (TokenTree F)) (y : TokenTree F),
      ¬(y.type = .OP ∧ y.value.eqStr "-" = true) →
      negative (rootNode [.mk .FUNC fv fts, opNode "-" [], y]) =
        rootNode [if fts.length > 0 then negative (.mk .FUNC fv fts) else .mk .FUNC fv fts,
          opNode "-" [if y.tokens.length > 0 then negative y else y]])
    ∧ parseString E "$len(.xs) - 1" =
      .ok (rootNode [.mk .FUNC (.str "$len") [keyLeaf "xs"], opNode "-" [constLeaf E "1"]])
    ∧ evalString E "$len(.xs) - 1" (.map m) = .ok (.num (E.ofInt l.length)) := by
  have hp : parseString E "$len(.xs) - 1" =
      .ok (rootNode [.mk .FUNC (.str "$len") [keyLeaf "xs"], opNode "-" [constLeaf E "1"]]) := by
    simp only [parseString, Lexer_len E hE, Result.bind, Parser_len]
  refine ⟨fun fv fts y hy => negative_after_func fv fts y hy, hp, ?_⟩
  simp [evalString, hp, Result.bind, rootNode, keyLeaf, Eval, EvalCustom, evalSubs,
    getKeyValues, keyLoop, hxs, defaultOpMap, unaryFuncs, TokenTree.value, TokenTree.tokens,
    TokenTree.type]

/-- C24, amended, witness: a list of three elements. -/
theorem C24_minus_after_call_witness :
    evalString exactGo "$len(.xs) - 1" (.map [("xs", .list [.num 5, .num 6, .num 7])]) =
      .ok (.num (exactGo.ofInt ([.num 5, .num 6, .num 7] : List (Value Rat)).length)) :=
  (C24_minus_after_call exactGo asciiStd_exactGo [("xs", .list [.num 5, .num 6, .num 7])]
    [.num 5, .num 6, .num 7] rfl).2.2

end Jee
